import Mathlib

/-!
# Zernike moment magnitudes (`textures/zernike/zernike2.cpp`)

A shallow embedding of `mb_zernike2D`.  The C++ routine works on `double`; the
embedding is generic over a linearly ordered field `K` with a floor function
and takes the square root as a parameter, so that the same definitions run on
`ℚ` and are reasoned about on `ℝ` with `Real.sqrt` (exact real arithmetic,
no rounding, no NaN / infinity).

Conventions of the embedding:
* C arrays are total functions on indices, written with `set1` / `set2`;
* `static` variables are threaded through the call as a `Statics` record;
* loops are left folds over the list of values taken by the loop variable;
* `assert` failing is the `Except.error` result;
* the uninitialised locals of a call start from an arbitrary `Locals` record
  that the call receives as an argument;
* the never-read locals `D` and `area` are left out;
* the subscript expressions of the fixed-size tables are listed line by line,
  with integer indices, as `Access` records (`initAccesses`, `zeroAccesses`,
  `pixelAccesses`, `extractAccesses`).

The embedding over a field is the routine in exact arithmetic.  It stands for
the program where the conversion of line 55 stays in the range of `int`
(`order < 2^31`) and where no executed division has a zero divisor, that is
where the total intensity of the image is not zero.  Outside that domain the
routine is embedded a second time, in the namespace `Doubles`, on the type `Dbl`
of doubles with NaN and infinities and with the 32-bit `int L`.
-/

namespace Zernike

/-! ## Constants -/

/-- Capacity of every fixed-size table: `#define MAX_L 32`. -/
def MAX_L : Nat := 32

/-- The literal of `#define PI 3.14159265358979323846264338328`. -/
def PI : ℚ := 314159265358979323846264338328 / 100000000000000000000000000000

/-- The constant `DBL_EPSILON` of `<cfloat>`, which is `2^-52`. -/
def DBL_EPSILON : ℚ := 1 / 4503599627370496

/-! ## Data model -/

/-- Modelled from the spec: the `ImageMatrix` class of `cmatrix.h` is not part
of the source tree.  An image is a grid of `width × height` pixels read through
`pixel i j`, which stands for `I->pixel(i,j,0).intensity`. -/
structure ImageMatrix (K : Type) where
  width : Nat
  height : Nat
  pixel : Nat → Nat → K

/-- The function-level statics `H1`, `H2`, `H3` and `init`. -/
structure Statics (K : Type) where
  H1 : Nat → Nat → K
  H2 : Nat → Nat → K
  H3 : Nat → Nat → K
  init : Bool

/-- State of the statics at program start: zero-filled tables, `init = 1`. -/
def Statics.fresh {K : Type} [Zero K] : Statics K :=
  { H1 := fun _ _ => 0, H2 := fun _ _ => 0, H3 := fun _ _ => 0, init := true }

/-- The accumulators of the centroid scan. -/
structure Moments (K : Type) where
  sum : K
  moment10 : K
  moment00 : K
  moment01 : K

/-- The locals that live across iterations of the pixel loop. -/
structure Locals (K : Type) where
  COST : Nat → K
  SINT : Nat → K
  R : Nat → K
  Rn : K
  Rnm : K
  Rnm2 : K
  Rnnm2 : K
  Rnmp2 : K
  Rnmp4 : K
  AR : Nat → Nat → K
  AI : Nat → Nat → K

/-- State of the magnitude loop: accumulators, output buffer and `numZ`. -/
structure Extract (K : Type) where
  AR : Nat → Nat → K
  AI : Nat → Nat → K
  zvalues : Nat → K
  numZ : Nat

/-- What a call leaves behind: the statics, the output buffer and
`*output_size`. -/
structure Outcome (K : Type) where
  statics : Statics K
  zvalues : Nat → K
  output_size : Nat

/-- The only way `mb_zernike2D` fails: `assert (L < MAX_L)`. -/
inductive Failure where
  | assert_L_lt_MAX_L
  deriving DecidableEq, Repr

/-- Assignment `t[n] = v`. -/
def set1 {K : Type} (t : Nat → K) (n : Nat) (v : K) : Nat → K :=
  fun a => if a = n then v else t a

/-- Assignment `t[n][m] = v`. -/
def set2 {K : Type} (t : Nat → Nat → K) (n m : Nat) (v : K) : Nat → Nat → K :=
  fun a b => if a = n ∧ b = m then v else t a b

section Model

variable {K : Type} [LinearOrderedField K]

/-! ## Argument handling (lines 53-60) -/

/-- Lines 55-56: `if (order > 0) L = order; else L = 15;`.  The conversion of a
positive `double` to `int` truncates, which is the floor, as long as the
truncated value fits the 32-bit `int L`, that is for `order < 2^31`;
`Doubles.effectiveOrder` has the conversion with its range. -/
def effectiveOrder [FloorRing K] (order : K) : Nat :=
  if order > 0 then ⌊order⌋₊ else 15

/-- Line 54: `N = I->width < I->height ? I->width : I->height`. -/
def smallerSide (I : ImageMatrix K) : Nat :=
  if I.width < I.height then I.width else I.height

/-- Line 59: `if (! rad > 0.0) rad = N;`.  The operator `!` binds tighter than
`>`: `!rad` is `1` when `rad` is zero and `0` otherwise, and that value is
compared with `0.0`. -/
def effectiveRadius (I : ImageMatrix K) (rad : K) : K :=
  let notRad : K := if rad = 0 then 1 else 0
  if notRad > 0 then (smallerSide I : K) else rad

/-! ## Centroid scan (lines 79-91) -/

/-- Body of the centroid scan, lines 84-88. -/
def momentStep (I : ImageMatrix K) (i j : Nat) (s : Moments K) : Moments K :=
  let intensity := I.pixel i j
  { sum := s.sum + intensity
    moment10 := s.moment10 + ((i : K) + 1) * intensity
    moment00 := s.moment00 + intensity
    moment01 := s.moment01 + ((j : K) + 1) * intensity }

/-- Lines 80-89: both loops of the centroid scan. -/
def moments (I : ImageMatrix K) : Moments K :=
  (List.range I.width).foldl
    (fun s i => (List.range I.height).foldl (fun s j => momentStep I i j s) s)
    { sum := 0, moment10 := 0, moment00 := 0, moment01 := 0 }

/-! ## Coefficient tables (lines 94-106) -/

/-- Lines 98-102: the three assignments for one pair `(n, m)`. -/
def initEntry (n m : Nat) (s : Statics K) : Statics K :=
  if n ≠ m then
    let H3 := set2 s.H3 n m
      (-(4 * ((m : K) + 2) * ((m : K) + 1)) / (((n : K) + (m : K) + 2) * ((n : K) - (m : K))))
    let H2 := set2 s.H2 n m
      ((H3 n m * ((n : K) + (m : K) + 4) * ((n : K) - (m : K) - 2)) / (4 * ((m : K) + 3))
        + ((m : K) + 2))
    let H1 := set2 s.H1 n m
      ((((m : K) + 4) * ((m : K) + 3)) / 2 - ((m : K) + 4) * H2 n m
        + (H3 n m * ((n : K) + (m : K) + 6) * ((n : K) - (m : K) - 4)) / 8)
    { s with H1 := H1, H2 := H2, H3 := H3 }
  else s

/-- Lines 95-106: `if (init) { ... init = 0; }`. -/
def initStatics (s : Statics K) : Statics K :=
  if s.init then
    let t := (List.range MAX_L).foldl
      (fun s n => (List.range (n + 1)).foldl (fun s m => initEntry n m s) s) s
    { t with init := false }
  else s

/-! ## Pixel loop (lines 108-168) -/

/-- Lines 109-113: zero the accumulators for `0 ≤ m ≤ n ≤ L`. -/
def zeroAccumulators (L : Nat) (s : Locals K) : Locals K :=
  (List.range (L + 1)).foldl
    (fun s n => (List.range (n + 1)).foldl
      (fun s m => { s with AR := set2 s.AR n m 0, AI := set2 s.AI n m 0 }) s) s

/-- Values of `m` in `for (m = n; m >= 0; m -= 2)`: `n, n-2, ...` down to `0`
or `1`. -/
def repetitions (n : Nat) : List Nat :=
  (List.range (n / 2 + 1)).map (fun k => n - 2 * k)

/-- Lines 151-164: one iteration of the loop over `m`. -/
def mStep (H : Statics K) (r2 const_t : K) (n m : Nat) (s : Locals K) : Locals K :=
  let s1 : Locals K :=
    if m = n then
      { s with Rnm := s.Rn, Rnmp4 := s.Rn }
    else if m + 2 = n then
      let Rnnm2 := (n : K) * s.Rn - ((n : K) - 1) * s.Rnm2
      { s with Rnnm2 := Rnnm2, Rnm := Rnnm2, Rnmp2 := Rnnm2 }
    else
      let Rnm := H.H1 n m * s.Rnmp4 + (H.H2 n m + H.H3 n m / r2) * s.Rnmp2
      { s with Rnm := Rnm, Rnmp4 := s.Rnmp2, Rnmp2 := Rnm }
  { s1 with
    AR := set2 s1.AR n m (s1.AR n m + const_t * s1.Rnm * s1.COST m)
    AI := set2 s1.AI n m (s1.AI n m - const_t * s1.Rnm * s1.SINT m) }

/-- Lines 148-149: `Rn = R[n]; if (n >= 2) Rnm2 = R[n-2];`. -/
def nEnter (n : Nat) (s : Locals K) : Locals K :=
  let s1 := { s with Rn := s.R n }
  if n ≥ 2 then { s1 with Rnm2 := s1.R (n - 2) } else s1

/-- Line 147: `const_t = (n+1) * f/PI`. -/
def constT (n : Nat) (f : K) : K := ((n : K) + 1) * f / (PI : K)

/-- Lines 147-165: one iteration of the loop over `n`. -/
def nStep (H : Statics K) (r2 f : K) (n : Nat) (s : Locals K) : Locals K :=
  let const_t := constT n f
  (repetitions n).foldl (fun s m => mStep H r2 const_t n m s) (nEnter n s)

/-- Lines 128-129: the table of powers of `r`. -/
def powerTable (L : Nat) (r : K) (s : Locals K) : Locals K :=
  (List.range' 1 L).foldl (fun s n => { s with R := set1 s.R n (r * s.R (n - 1)) })
    { s with R := set1 s.R 0 1 }

/-- Lines 131-136: the tables `COST` and `SINT`. -/
def angleTables (L : Nat) (a b : K) (s : Locals K) : Locals K :=
  (List.range' 1 L).foldl
    (fun s m =>
      let COST := set1 s.COST m (a * s.COST (m - 1) - b * s.SINT (m - 1))
      { s with COST := COST, SINT := set1 s.SINT m (a * s.SINT (m - 1) + b * COST (m - 1)) })
    { s with COST := set1 s.COST 0 a, SINT := set1 s.SINT 0 b }

/-- Lines 128-136 and 143: the tables of a pixel that is not skipped, and
`Rnmp2 = Rnm2 = 0`. -/
def pixelEnter (L : Nat) (r a b : K) (s : Locals K) : Locals K :=
  { angleTables L a b (powerTable L r s) with Rnmp2 := 0, Rnm2 := 0 }

/-- Lines 119-166: the body of the pixel loop for the pixel `(i, j)`. -/
def pixelStep (sqrt : K → K) (H : Statics K) (I : ImageMatrix K) (L : Nat)
    (rad sum m10_m00 m01_m00 : K) (i j : Nat) (s : Locals K) : Locals K :=
  let x := ((i : K) + 1 - m10_m00) / rad
  let y := ((j : K) + 1 - m01_m00) / rad
  let r2 := x * x + y * y
  let r := sqrt r2
  if r < (DBL_EPSILON : K) ∨ r > 1 then s
  else
    let f := I.pixel i j / sum
    (List.range (L + 1)).foldl (fun s n => nStep H r2 f n s) (pixelEnter L r (x / r) (y / r) s)

/-- The locals just after the iteration for `(n, m)` with `m = n - 2k` of the
loops of lines 144-166, in the body for a pixel that is not skipped: the orders
below `n` are done, and the first `k + 1` repetitions of the order `n`. -/
def localsAfter (H : Statics K) (L : Nat) (r r2 f a b : K) (n k : Nat) (s : Locals K) :
    Locals K :=
  ((repetitions n).take (k + 1)).foldl (fun s m => mStep H r2 (constT n f) n m s)
    (nEnter n ((List.range n).foldl (fun s n' => nStep H r2 f n' s) (pixelEnter L r a b s)))

/-- Lines 116-168: both loops over the pixels. -/
def pixelLoop (sqrt : K → K) (H : Statics K) (I : ImageMatrix K) (L : Nat)
    (rad sum m10_m00 m01_m00 : K) (s : Locals K) : Locals K :=
  (List.range I.width).foldl
    (fun s i => (List.range I.height).foldl
      (fun s j => pixelStep sqrt H I L rad sum m10_m00 m01_m00 i j s) s) s

/-! ## Magnitudes (lines 170-181) -/

/-- Lines 173-178: one iteration of the inner magnitude loop. -/
def extractStep (sqrt : K → K) (n m : Nat) (s : Extract K) : Extract K :=
  if (n - m) % 2 = 0 then
    let AR := set2 s.AR n m (s.AR n m * s.AR n m)
    let AI := set2 s.AI n m (s.AI n m * s.AI n m)
    { AR := AR, AI := AI
      zvalues := set1 s.zvalues s.numZ |sqrt (AR n m + AI n m)|
      numZ := s.numZ + 1 }
  else s

/-- Lines 170-180: `numZ = 0` and both magnitude loops. -/
def extract (sqrt : K → K) (L : Nat) (AR AI : Nat → Nat → K) (zvalues : Nat → K) :
    Extract K :=
  (List.range (L + 1)).foldl
    (fun s n => (List.range (n + 1)).foldl (fun s m => extractStep sqrt n m s) s)
    { AR := AR, AI := AI, zvalues := zvalues, numZ := 0 }

/-! ## The routine -/

/-- A stack frame filled with zeros, as one possible content of the
uninitialised locals. -/
def Locals.blank : Locals K :=
  { COST := fun _ => 0, SINT := fun _ => 0, R := fun _ => 0
    Rn := 0, Rnm := 0, Rnm2 := 0, Rnnm2 := 0, Rnmp2 := 0, Rnmp4 := 0
    AR := fun _ _ => 0, AI := fun _ _ => 0 }

/-- The routine `mb_zernike2D (I, order, rad, zvalues, output_size)`, lines
50-183.  `st` is the value of the statics on entry, `stack` the arbitrary
content of the uninitialised locals on entry, and `zvalues` the content of the
caller's buffer on entry.  The quotients are divisions of the field; the
quotients by the total intensity (lines 90, 91 and 141) are those of the
program when the total intensity is not zero, and `Doubles.mb_zernike2D` has
the routine with `0/0 = NaN`. -/
def mb_zernike2D [FloorRing K] (sqrt : K → K) (st : Statics K) (stack : Locals K)
    (I : ImageMatrix K) (order rad : K) (zvalues : Nat → K) : Except Failure (Outcome K) :=
  let L := effectiveOrder order
  if L < MAX_L then
    let rad := effectiveRadius I rad
    let mo := moments I
    let m10_m00 := mo.moment10 / mo.moment00
    let m01_m00 := mo.moment01 / mo.moment00
    let H := initStatics st
    let s := zeroAccumulators L stack
    let s := pixelLoop sqrt H I L rad mo.sum m10_m00 m01_m00 s
    let e := extract sqrt L s.AR s.AI zvalues
    Except.ok { statics := H, zvalues := e.zvalues, output_size := e.numZ }
  else Except.error Failure.assert_L_lt_MAX_L

/-- The locals at the end of the pixel loop (line 168), from which the
magnitude loop starts. -/
def accumulated [FloorRing K] (sqrt : K → K) (st : Statics K) (stack : Locals K)
    (I : ImageMatrix K) (order rad : K) : Locals K :=
  let L := effectiveOrder order
  let rad := effectiveRadius I rad
  let mo := moments I
  pixelLoop sqrt (initStatics st) I L rad mo.sum (mo.moment10 / mo.moment00)
    (mo.moment01 / mo.moment00) (zeroAccumulators L stack)

/-- The values written to the buffer: its first `output_size` cells. -/
def Outcome.magnitudes (o : Outcome K) : List K :=
  (List.range o.output_size).map o.zvalues

end Model

/-! ## Sequences of calls -/

/-- The arguments of one call, together with the content of its uninitialised
locals. -/
structure Call (K : Type) where
  stack : Locals K
  image : ImageMatrix K
  order : K
  rad : K
  zvalues : Nat → K

section Calls

variable {K : Type} [LinearOrderedField K] [FloorRing K]

/-- The statics after one call: those the call leaves when it returns.  A
call that fails the assertion of line 57 stops before the statics are
touched. -/
def staticsAfterCall (sqrt : K → K) (st : Statics K) (c : Call K) : Statics K :=
  match mb_zernike2D sqrt st c.stack c.image c.order c.rad c.zvalues with
  | Except.ok o => o.statics
  | Except.error _ => st

/-- The statics after a sequence of calls made one after the other. -/
def staticsAfter (sqrt : K → K) (st : Statics K) (calls : List (Call K)) : Statics K :=
  calls.foldl (fun st c => staticsAfterCall sqrt st c) st

end Calls

/-! ## Closed forms of what the loops compute -/

section ClosedForms

variable {K : Type} [LinearOrderedField K]

/-- The value assigned to `H3[n][m]` on line 99. -/
def coefH3 (n m : Nat) : K :=
  -(4 * ((m : K) + 2) * ((m : K) + 1)) / (((n : K) + (m : K) + 2) * ((n : K) - (m : K)))

/-- The value assigned to `H2[n][m]` on line 100. -/
def coefH2 (n m : Nat) : K :=
  (coefH3 n m * ((n : K) + (m : K) + 4) * ((n : K) - (m : K) - 2)) / (4 * ((m : K) + 3))
    + ((m : K) + 2)

/-- The value assigned to `H1[n][m]` on line 101. -/
def coefH1 (n m : Nat) : K :=
  (((m : K) + 4) * ((m : K) + 3)) / 2 - ((m : K) + 4) * coefH2 n m
    + (coefH3 n m * ((n : K) + (m : K) + 6) * ((n : K) - (m : K) - 4)) / 8

/-- The value given to `Rnm` by lines 151-162 in the `k`-th iteration of the
loop over `m` for the order `n` (so `m = n - 2k`), in terms of the powers of
`r`: base case, two-term case, three-term case. -/
def radialStep (H : Statics K) (r r2 : K) (n : Nat) : Nat → K
  | 0 => r ^ n
  | 1 => (n : K) * r ^ n - ((n : K) - 1) * r ^ (n - 2)
  | k + 2 =>
    H.H1 n (n - 2 * (k + 2)) * radialStep H r r2 n k
      + (H.H2 n (n - 2 * (k + 2)) + H.H3 n (n - 2 * (k + 2)) / r2) * radialStep H r r2 n (k + 1)

/-- The pair `(COST[m], SINT[m])` built by lines 131-136 from `a = COST[0]` and
`b = SINT[0]`. -/
def angleAt (a b : K) : Nat → K × K
  | 0 => (a, b)
  | m + 1 =>
    (a * (angleAt a b m).1 - b * (angleAt a b m).2,
     a * (angleAt a b m).2 + b * (angleAt a b m).1)

/-- The cells of `AR` / `AI` that the routine accumulates into and reads back:
`0 ≤ m ≤ n ≤ L` with `n - m` even. -/
def validPair (L n m : Nat) : Prop := n ≤ L ∧ m ≤ n ∧ (n - m) % 2 = 0

instance (L n m : Nat) : Decidable (validPair L n m) := by
  unfold validPair; infer_instance

/-- What the body of the pixel loop adds to `AR[n][m]` for the pixel `(i, j)`:
nothing for a skipped pixel, `const_t * Rnm * COST[m]` otherwise. -/
def pixelTermR (sqrt : K → K) (H : Statics K) (I : ImageMatrix K)
    (rad sum m10_m00 m01_m00 : K) (i j n m : Nat) : K :=
  let x := ((i : K) + 1 - m10_m00) / rad
  let y := ((j : K) + 1 - m01_m00) / rad
  let r2 := x * x + y * y
  let r := sqrt r2
  if r < (DBL_EPSILON : K) ∨ r > 1 then 0
  else constT n (I.pixel i j / sum) * radialStep H r r2 n ((n - m) / 2)
    * (angleAt (x / r) (y / r) m).1

/-- What the body of the pixel loop subtracts from `AI[n][m]` for the pixel
`(i, j)`: nothing for a skipped pixel, `const_t * Rnm * SINT[m]` otherwise. -/
def pixelTermI (sqrt : K → K) (H : Statics K) (I : ImageMatrix K)
    (rad sum m10_m00 m01_m00 : K) (i j n m : Nat) : K :=
  let x := ((i : K) + 1 - m10_m00) / rad
  let y := ((j : K) + 1 - m01_m00) / rad
  let r2 := x * x + y * y
  let r := sqrt r2
  if r < (DBL_EPSILON : K) ∨ r > 1 then 0
  else constT n (I.pixel i j / sum) * radialStep H r r2 n ((n - m) / 2)
    * (angleAt (x / r) (y / r) m).2

/-- The magnitude written for the cell `(n, m)` by lines 174-176. -/
def magnitude (sqrt : K → K) (AR AI : Nat → Nat → K) (n m : Nat) : K :=
  |sqrt (AR n m * AR n m + AI n m * AI n m)|

/-- The value of `AR[n][m]` after the pixel loop, for a valid cell: the sum of
the contributions of all pixels, with the total intensity and the centroid of
the image. -/
def accumR (sqrt : K → K) (H : Statics K) (I : ImageMatrix K) (rad : K) (n m : Nat) : K :=
  ∑ i in Finset.range I.width, ∑ j in Finset.range I.height,
    pixelTermR sqrt H I rad (moments I).sum ((moments I).moment10 / (moments I).moment00)
      ((moments I).moment01 / (moments I).moment00) i j n m

/-- The negative of the value of `AI[n][m]` after the pixel loop, for a valid
cell. -/
def accumI (sqrt : K → K) (H : Statics K) (I : ImageMatrix K) (rad : K) (n m : Nat) : K :=
  ∑ i in Finset.range I.width, ∑ j in Finset.range I.height,
    pixelTermI sqrt H I rad (moments I).sum ((moments I).moment10 / (moments I).moment00)
      ((moments I).moment01 / (moments I).moment00) i j n m

/-- The magnitude that the routine writes for the valid cell `(n, m)`. -/
def zernikeMagnitude (sqrt : K → K) (H : Statics K) (I : ImageMatrix K) (rad : K)
    (n m : Nat) : K :=
  |sqrt (accumR sqrt H I rad n m * accumR sqrt H I rad n m
      + accumI sqrt H I rad n m * accumI sqrt H I rad n m)|

end ClosedForms

/-! ## The output as a list -/

/-- The values of `m` for which line 173 holds in the row `n` of the magnitude
loop, in the order of the loop. -/
def rowPairs (n : Nat) : List Nat :=
  (List.range (n + 1)).filter (fun m => (n - m) % 2 = 0)

/-- The pairs `(n, m)` for which the magnitude loop writes a value, in the
order of the loop: `n` ascending and, within one `n`, `m` ascending. -/
def validPairs (L : Nat) : List (Nat × Nat) :=
  (List.range (L + 1)).flatMap (fun n => (rowPairs n).map (fun m => (n, m)))

/-- Writing the values `vals` one after the other into the buffer `z` from the
index `k` on, as `zvalues[numZ] = v; numZ++` does; returns the buffer and the
next index. -/
def emit {K : Type} (vals : List K) (z : Nat → K) (k : Nat) : (Nat → K) × Nat :=
  vals.foldl (fun p v => (set1 p.1 p.2 v, p.2 + 1)) (z, k)

/-! ## Reference notions -/

/-- The Zernike radial polynomial as the specification writes it:
`R_n^m(r) = Σ_{s=0}^{(n-m)/2} (-1)^s (n-s)! / (s! ((n+m)/2 - s)! ((n-m)/2 - s)!) r^(n-2s)`. -/
def zernikeRadial {K : Type} [Field K] (n m : Nat) (r : K) : K :=
  ∑ s in Finset.range ((n - m) / 2 + 1),
    (-1 : K) ^ s * ((n - s).factorial : K)
      / ((s.factorial : K) * (((n + m) / 2 - s).factorial : K)
          * (((n - m) / 2 - s).factorial : K))
      * r ^ (n - 2 * s)

/-- The normalised total-intensity moment, as the specification words the
value expected for `(n, m) = (0, 0)`: `1/π` times the sum of `intensity(i,j)/S`
over the pixels that are not skipped, `S` being the total intensity and `rad`
the radius in use. -/
def totalIntensityMoment {K : Type} [LinearOrderedField K] (sqrt : K → K) (I : ImageMatrix K)
    (rad : K) : K :=
  1 / (PI : K) * ∑ i in Finset.range I.width, ∑ j in Finset.range I.height,
    (let x := ((i : K) + 1 - (moments I).moment10 / (moments I).moment00) / rad
     let y := ((j : K) + 1 - (moments I).moment01 / (moments I).moment00) / rad
     let r := sqrt (x * x + y * y)
     if r < (DBL_EPSILON : K) ∨ r > 1 then 0 else I.pixel i j / (moments I).sum)

/-- The image turned by a quarter turn: the new pixel `(H-1-j, i)` takes the
intensity of the old pixel `(i, j)`, where `H` is the old height. -/
def quarterTurn {K : Type} (I : ImageMatrix K) : ImageMatrix K :=
  { width := I.height
    height := I.width
    pixel := fun i j => I.pixel j (I.height - 1 - i) }

/-- The image with every intensity multiplied by `c`. -/
def scaleImage {K : Type} [Mul K] (c : K) (I : ImageMatrix K) : ImageMatrix K :=
  { width := I.width, height := I.height, pixel := fun i j => c * I.pixel i j }

/-- The order in which the magnitude loop visits the cells: `n` ascending and,
within one `n`, `m` ascending. -/
def visitedBefore (p q : Nat × Nat) : Prop :=
  p.1 < q.1 ∨ (p.1 = q.1 ∧ p.2 < q.2)

/-- The unit vector `(p, q)` by which a quarter turn of the image rotates the
pair `(COST[m], SINT[m])`: the quarter turn applied `m + 1` times to `(1, 0)`. -/
def quarter {K : Type} [Field K] : Nat → K × K
  | 0 => (0, 1)
  | m + 1 => (-(quarter m).2, (quarter m).1)

/-- The coefficient of `r^(m+2u)` in the Zernike radial polynomial of order
`m + 2(u+w)` and repetition `m`: `(-1)^w (m+2u+w)! / (w! (m+u)! u!)`. -/
def radialCoef {K : Type} [Field K] (m w u : Nat) : K :=
  (-1 : K) ^ w * ((m + 2 * u + w).factorial : K)
    / ((w.factorial : K) * ((m + u).factorial : K) * (u.factorial : K))

/-! ## Sample inputs -/

/-- A `w × h` image of constant intensity `c`. -/
def uniformImage {K : Type} (w h : Nat) (c : K) : ImageMatrix K :=
  { width := w, height := h, pixel := fun _ _ => c }

/-- A `w × h` image whose intensity grows along both axes:
`intensity(i, j) = i + 2j + 1`. -/
def rampImage {K : Type} [NatCast K] (w h : Nat) : ImageMatrix K :=
  { width := w, height := h, pixel := fun i j => ((i + 2 * j + 1 : Nat) : K) }

/-- A caller's buffer filled with zeros. -/
def zeroBuffer {K : Type} [Zero K] : Nat → K := fun _ => 0

/-! ## Subscripts evaluated by the routine -/

/-- Two calls made one after the other: the `3 × 2` ramp image at order 3 and
radius 2, then the uniform `2 × 2` image with the default order and radius. -/
def sampleCalls : List (Call ℚ) :=
  [{ stack := Locals.blank, image := rampImage 3 2, order := 3, rad := 2, zvalues := zeroBuffer },
   { stack := Locals.blank, image := uniformImage 2 2 1, order := 0, rad := 0,
     zvalues := zeroBuffer }]

/-! ## The routine on doubles with NaN and infinities -/

/-- The value `INT_MIN` of the 32-bit `int`. -/
def INT_MIN : Int := -2147483648

/-- A `double` without rounding: NaN, an infinity with its sign, or a finite
number, here a rational.  Zero is unsigned; where the sign of a zero matters,
the quotient of a non-zero number by zero, it counts as `+0.0`: no divisor of
the routine is a negative zero. -/
inductive Dbl where
  | nan : Dbl
  | inf (negative : Bool) : Dbl
  | fin (x : ℚ) : Dbl
  deriving DecidableEq

namespace Dbl

/-- Addition of doubles: `inf - inf` is NaN. -/
def add : Dbl → Dbl → Dbl
  | nan, _ => nan
  | _, nan => nan
  | inf a, inf b => if a = b then inf a else nan
  | inf a, fin _ => inf a
  | fin _, inf b => inf b
  | fin x, fin y => fin (x + y)

/-- Unary minus. -/
def neg : Dbl → Dbl
  | nan => nan
  | inf a => inf (!a)
  | fin x => fin (-x)

/-- Subtraction of doubles. -/
def sub (a b : Dbl) : Dbl := add a (neg b)

/-- Multiplication of doubles: `inf * 0` is NaN. -/
def mul : Dbl → Dbl → Dbl
  | nan, _ => nan
  | _, nan => nan
  | inf a, inf b => inf (xor a b)
  | inf a, fin y => if y = 0 then nan else inf (xor a (decide (y < 0)))
  | fin x, inf b => if x = 0 then nan else inf (xor (decide (x < 0)) b)
  | fin x, fin y => fin (x * y)

/-- Division of doubles: `0/0` and `inf/inf` are NaN, a non-zero number over
zero is an infinity. -/
def div : Dbl → Dbl → Dbl
  | nan, _ => nan
  | _, nan => nan
  | inf _, inf _ => nan
  | inf a, fin y => inf (xor a (decide (y < 0)))
  | fin _, inf _ => fin 0
  | fin x, fin y =>
    if y = 0 then (if x = 0 then nan else inf (decide (x < 0))) else fin (x / y)

/-- The function `sqrt` of `<cmath>`, from a square root `sq` of the
non-negative finite numbers. -/
def sqrt (sq : ℚ → ℚ) : Dbl → Dbl
  | nan => nan
  | inf a => if a then nan else inf false
  | fin x => if x < 0 then nan else fin (sq x)

/-- The function `fabs` of `<cmath>`. -/
def fabs : Dbl → Dbl
  | nan => nan
  | inf _ => inf false
  | fin x => fin |x|

/-- The comparison `a < b`, false as soon as one side is NaN. -/
def lt : Dbl → Dbl → Bool
  | nan, _ => false
  | _, nan => false
  | inf a, inf b => a && !b
  | inf a, fin _ => a
  | fin _, inf b => !b
  | fin x, fin y => decide (x < y)

/-- The comparison `a <= b`, false as soon as one side is NaN. -/
def le : Dbl → Dbl → Bool
  | nan, _ => false
  | _, nan => false
  | inf a, inf b => a || !b
  | inf a, fin _ => a
  | fin _, inf b => !b
  | fin x, fin y => decide (x ≤ y)

/-- The test `a == 0.0`, which is what `!a` evaluates. -/
def isZero : Dbl → Bool
  | fin x => decide (x = 0)
  | _ => false

/-- The conversion of a `double` to the 32-bit `int`: truncation towards zero
when the truncated value fits; otherwise the conversion is out of range,
undefined in C++, and the conversion instruction of x86-64 returns
`INT_MIN`. -/
def toInt : Dbl → Int
  | fin x =>
    if -2147483649 < x ∧ x < 2147483648 then (if 0 ≤ x then ⌊x⌋ else ⌈x⌉) else INT_MIN
  | _ => INT_MIN

/-- The conversion of an `int` to `double`. -/
def ofInt (n : Int) : Dbl := fin n

end Dbl

instance : Add Dbl := ⟨Dbl.add⟩
instance : Sub Dbl := ⟨Dbl.sub⟩
instance : Mul Dbl := ⟨Dbl.mul⟩
instance : Div Dbl := ⟨Dbl.div⟩
instance : Neg Dbl := ⟨Dbl.neg⟩
instance : Zero Dbl := ⟨Dbl.fin 0⟩

namespace Doubles

/-- Lines 55-56: `if (order > 0) L = order; else L = 15;` with `int L`. -/
def effectiveOrder (order : Dbl) : Int :=
  if Dbl.lt (Dbl.fin 0) order then Dbl.toInt order else 15

/-- Line 54: `N = I->width < I->height ? I->width : I->height`. -/
def smallerSide (I : ImageMatrix Dbl) : Nat :=
  if I.width < I.height then I.width else I.height

/-- Line 59: `if (! rad > 0.0) rad = N;`, that is `(!rad) > 0.0`. -/
def effectiveRadius (I : ImageMatrix Dbl) (rad : Dbl) : Dbl :=
  let notRad : Dbl := if Dbl.isZero rad then Dbl.fin 1 else Dbl.fin 0
  if Dbl.lt (Dbl.fin 0) notRad then Dbl.ofInt (smallerSide I) else rad

/-- Body of the centroid scan, lines 84-88. -/
def momentStep (I : ImageMatrix Dbl) (i j : Nat) (s : Moments Dbl) : Moments Dbl :=
  let intensity := I.pixel i j
  { sum := s.sum + intensity
    moment10 := s.moment10 + Dbl.ofInt ((i : Int) + 1) * intensity
    moment00 := s.moment00 + intensity
    moment01 := s.moment01 + Dbl.ofInt ((j : Int) + 1) * intensity }

/-- Lines 80-89: both loops of the centroid scan. -/
def moments (I : ImageMatrix Dbl) : Moments Dbl :=
  (List.range I.width).foldl
    (fun s i => (List.range I.height).foldl (fun s j => momentStep I i j s) s)
    { sum := Dbl.fin 0, moment10 := Dbl.fin 0, moment00 := Dbl.fin 0, moment01 := Dbl.fin 0 }

/-- Lines 98-102: the three assignments for one pair `(n, m)`. -/
def initEntry (n m : Nat) (s : Statics Dbl) : Statics Dbl :=
  if n ≠ m then
    let d : Int → Dbl := Dbl.ofInt
    let H3 := set2 s.H3 n m
      (-(Dbl.fin 4 * (d m + Dbl.fin 2) * (d m + Dbl.fin 1))
        / ((d ((n : Int) + m) + Dbl.fin 2) * d ((n : Int) - m)))
    let H2 := set2 s.H2 n m
      ((H3 n m * (d ((n : Int) + m) + Dbl.fin 4) * (d ((n : Int) - m) - Dbl.fin 2))
          / (Dbl.fin 4 * (d m + Dbl.fin 3))
        + (d m + Dbl.fin 2))
    let H1 := set2 s.H1 n m
      (((d m + Dbl.fin 4) * (d m + Dbl.fin 3)) / Dbl.fin 2 - (d m + Dbl.fin 4) * H2 n m
        + (H3 n m * (d ((n : Int) + m) + Dbl.fin 6) * (d ((n : Int) - m) - Dbl.fin 4))
          / Dbl.fin 8)
    { s with H1 := H1, H2 := H2, H3 := H3 }
  else s

/-- Lines 95-106: `if (init) { ... init = 0; }`. -/
def initStatics (s : Statics Dbl) : Statics Dbl :=
  if s.init then
    let t := (List.range MAX_L).foldl
      (fun s n => (List.range (n + 1)).foldl (fun s m => initEntry n m s) s) s
    { t with init := false }
  else s

/-- The values of `n` in `for (n = 0; n <= L; n++)` with `int L`: none when
`L` is negative. -/
def upTo (L : Int) : List Nat := List.range (L + 1).toNat

/-- The values of `n` in `for (n = 1; n <= L; n++)` with `int L`. -/
def fromOneTo (L : Int) : List Nat := List.range' 1 L.toNat

/-- Lines 109-113: zero the accumulators for `0 ≤ m ≤ n ≤ L`. -/
def zeroAccumulators (L : Int) (s : Locals Dbl) : Locals Dbl :=
  (upTo L).foldl
    (fun s n => (List.range (n + 1)).foldl
      (fun s m => { s with AR := set2 s.AR n m (Dbl.fin 0), AI := set2 s.AI n m (Dbl.fin 0) }) s)
    s

/-- Lines 151-164: one iteration of the loop over `m`. -/
def mStep (H : Statics Dbl) (r2 const_t : Dbl) (n m : Nat) (s : Locals Dbl) : Locals Dbl :=
  let s1 : Locals Dbl :=
    if m = n then
      { s with Rnm := s.Rn, Rnmp4 := s.Rn }
    else if m + 2 = n then
      let Rnnm2 := Dbl.ofInt n * s.Rn - Dbl.ofInt ((n : Int) - 1) * s.Rnm2
      { s with Rnnm2 := Rnnm2, Rnm := Rnnm2, Rnmp2 := Rnnm2 }
    else
      let Rnm := H.H1 n m * s.Rnmp4 + (H.H2 n m + H.H3 n m / r2) * s.Rnmp2
      { s with Rnm := Rnm, Rnmp4 := s.Rnmp2, Rnmp2 := Rnm }
  { s1 with
    AR := set2 s1.AR n m (s1.AR n m + const_t * s1.Rnm * s1.COST m)
    AI := set2 s1.AI n m (s1.AI n m - const_t * s1.Rnm * s1.SINT m) }

/-- Lines 148-149: `Rn = R[n]; if (n >= 2) Rnm2 = R[n-2];`. -/
def nEnter (n : Nat) (s : Locals Dbl) : Locals Dbl :=
  let s1 := { s with Rn := s.R n }
  if n ≥ 2 then { s1 with Rnm2 := s1.R (n - 2) } else s1

/-- Line 147: `const_t = (n+1) * f/PI`. -/
def constT (n : Nat) (f : Dbl) : Dbl := Dbl.ofInt ((n : Int) + 1) * f / Dbl.fin PI

/-- Lines 147-165: one iteration of the loop over `n`. -/
def nStep (H : Statics Dbl) (r2 f : Dbl) (n : Nat) (s : Locals Dbl) : Locals Dbl :=
  let const_t := constT n f
  (repetitions n).foldl (fun s m => mStep H r2 const_t n m s) (nEnter n s)

/-- Lines 128-129: the table of powers of `r`. -/
def powerTable (L : Int) (r : Dbl) (s : Locals Dbl) : Locals Dbl :=
  (fromOneTo L).foldl (fun s n => { s with R := set1 s.R n (r * s.R (n - 1)) })
    { s with R := set1 s.R 0 (Dbl.fin 1) }

/-- Lines 131-136: the tables `COST` and `SINT`. -/
def angleTables (L : Int) (a b : Dbl) (s : Locals Dbl) : Locals Dbl :=
  (fromOneTo L).foldl
    (fun s m =>
      let COST := set1 s.COST m (a * s.COST (m - 1) - b * s.SINT (m - 1))
      { s with COST := COST, SINT := set1 s.SINT m (a * s.SINT (m - 1) + b * COST (m - 1)) })
    { s with COST := set1 s.COST 0 a, SINT := set1 s.SINT 0 b }

/-- Lines 128-136 and 143: the tables of a pixel that is not skipped, and
`Rnmp2 = Rnm2 = 0`. -/
def pixelEnter (L : Int) (r a b : Dbl) (s : Locals Dbl) : Locals Dbl :=
  { angleTables L a b (powerTable L r s) with Rnmp2 := Dbl.fin 0, Rnm2 := Dbl.fin 0 }

/-- Lines 119-166: the body of the pixel loop for the pixel `(i, j)`. -/
def pixelStep (sq : ℚ → ℚ) (H : Statics Dbl) (I : ImageMatrix Dbl) (L : Int)
    (rad sum m10_m00 m01_m00 : Dbl) (i j : Nat) (s : Locals Dbl) : Locals Dbl :=
  let x := (Dbl.ofInt ((i : Int) + 1) - m10_m00) / rad
  let y := (Dbl.ofInt ((j : Int) + 1) - m01_m00) / rad
  let r2 := x * x + y * y
  let r := Dbl.sqrt sq r2
  if Dbl.lt r (Dbl.fin DBL_EPSILON) || Dbl.lt (Dbl.fin 1) r then s
  else
    let f := I.pixel i j / sum
    (upTo L).foldl (fun s n => nStep H r2 f n s) (pixelEnter L r (x / r) (y / r) s)

/-- Lines 116-168: both loops over the pixels. -/
def pixelLoop (sq : ℚ → ℚ) (H : Statics Dbl) (I : ImageMatrix Dbl) (L : Int)
    (rad sum m10_m00 m01_m00 : Dbl) (s : Locals Dbl) : Locals Dbl :=
  (List.range I.width).foldl
    (fun s i => (List.range I.height).foldl
      (fun s j => pixelStep sq H I L rad sum m10_m00 m01_m00 i j s) s) s

/-- Lines 173-178: one iteration of the inner magnitude loop. -/
def extractStep (sq : ℚ → ℚ) (n m : Nat) (s : Extract Dbl) : Extract Dbl :=
  if (n - m) % 2 = 0 then
    let AR := set2 s.AR n m (s.AR n m * s.AR n m)
    let AI := set2 s.AI n m (s.AI n m * s.AI n m)
    { AR := AR, AI := AI
      zvalues := set1 s.zvalues s.numZ (Dbl.fabs (Dbl.sqrt sq (AR n m + AI n m)))
      numZ := s.numZ + 1 }
  else s

/-- Lines 170-180: `numZ = 0` and both magnitude loops. -/
def extract (sq : ℚ → ℚ) (L : Int) (AR AI : Nat → Nat → Dbl) (zvalues : Nat → Dbl) :
    Extract Dbl :=
  (upTo L).foldl
    (fun s n => (List.range (n + 1)).foldl (fun s m => extractStep sq n m s) s)
    { AR := AR, AI := AI, zvalues := zvalues, numZ := 0 }

/-- A stack frame filled with zeros, as one possible content of the
uninitialised locals. -/
def blank : Locals Dbl :=
  { COST := fun _ => Dbl.fin 0, SINT := fun _ => Dbl.fin 0, R := fun _ => Dbl.fin 0
    Rn := Dbl.fin 0, Rnm := Dbl.fin 0, Rnm2 := Dbl.fin 0, Rnnm2 := Dbl.fin 0
    Rnmp2 := Dbl.fin 0, Rnmp4 := Dbl.fin 0
    AR := fun _ _ => Dbl.fin 0, AI := fun _ _ => Dbl.fin 0 }

/-- The routine `mb_zernike2D (I, order, rad, zvalues, output_size)`, lines
50-183, on doubles with NaN and infinities and with the 32-bit `int L`. -/
def mb_zernike2D (sq : ℚ → ℚ) (st : Statics Dbl) (stack : Locals Dbl)
    (I : ImageMatrix Dbl) (order rad : Dbl) (zvalues : Nat → Dbl) :
    Except Failure (Outcome Dbl) :=
  let L := effectiveOrder order
  if L < MAX_L then
    let rad := effectiveRadius I rad
    let mo := moments I
    let m10_m00 := mo.moment10 / mo.moment00
    let m01_m00 := mo.moment01 / mo.moment00
    let H := initStatics st
    let s := zeroAccumulators L stack
    let s := pixelLoop sq H I L rad mo.sum m10_m00 m01_m00 s
    let e := extract sq L s.AR s.AI zvalues
    Except.ok { statics := H, zvalues := e.zvalues, output_size := e.numZ }
  else Except.error Failure.assert_L_lt_MAX_L

end Doubles

end Zernike

/-! # Theorems -/

namespace Zernike

section Count

variable {K : Type} [LinearOrderedField K]


/-- Number of `(n, m)` pairs emitted for one order `n`. -/
theorem countP_parity (n : Nat) :
    (List.range (n + 1)).countP (fun m => decide ((n - m) % 2 = 0)) = n / 2 + 1 := by
  induction n using Nat.strong_induction_on with
  | _ n ih =>
    match n with
    | 0 => rfl
    | 1 => rfl
    | k + 2 =>
      have h := ih k (by omega)
      rw [List.range_succ, List.range_succ, List.countP_append, List.countP_append]
      have e : (List.range (k + 1)).countP (fun m => decide ((k + 2 - m) % 2 = 0))
          = (List.range (k + 1)).countP (fun m => decide ((k - m) % 2 = 0)) := by
        apply List.countP_congr
        intro m hm
        have hm' : m < k + 1 := List.mem_range.mp hm
        have : (k + 2 - m) % 2 = (k - m) % 2 := by omega
        simp [this]
      rw [e, h]
      have h1 : (k + 2 - (k + 1)) % 2 ≠ 0 := by omega
      have h2 : (k + 2 - (k + 2)) % 2 = 0 := by omega
      simp [List.countP_cons, h1, h2]

theorem extractRow_numZ (sqrt : K → K) (n : Nat) (l : List Nat) (s : Extract K) :
    (l.foldl (fun s m => extractStep sqrt n m s) s).numZ
      = s.numZ + l.countP (fun m => decide ((n - m) % 2 = 0)) := by
  induction l generalizing s with
  | nil => simp
  | cons m l ih =>
    rw [List.foldl_cons, ih, List.countP_cons]
    by_cases h : (n - m) % 2 = 0
    · simp [extractStep, h]; omega
    · simp [extractStep, h]

theorem extractLoop_numZ (sqrt : K → K) (L : Nat) (s : Extract K) :
    ((List.range L).foldl
      (fun s n => (List.range (n + 1)).foldl (fun s m => extractStep sqrt n m s) s) s).numZ
      = s.numZ + ∑ n in Finset.range L, (n / 2 + 1) := by
  induction L with
  | zero => simp
  | succ L ih =>
    rw [List.range_succ, List.foldl_append, Finset.sum_range_succ]
    simp only [List.foldl_cons, List.foldl_nil]
    rw [extractRow_numZ, ih, countP_parity]
    omega

theorem extract_numZ (sqrt : K → K) (L : Nat) (AR AI : Nat → Nat → K) (zv : Nat → K) :
    (extract sqrt L AR AI zv).numZ = ∑ n in Finset.range (L + 1), (n / 2 + 1) := by
  unfold extract
  rw [extractLoop_numZ]
  simp

theorem pairs_card_row (L n : Nat) (h : n ≤ L) :
    ((Finset.range (L + 1)).filter (fun m => m ≤ n ∧ (n - m) % 2 = 0)).card = n / 2 + 1 := by
  have : (Finset.range (L + 1)).filter (fun m => m ≤ n ∧ (n - m) % 2 = 0)
      = (Finset.range (n / 2 + 1)).image (fun k => n - 2 * k) := by
    ext m
    simp only [Finset.mem_filter, Finset.mem_range, Finset.mem_image]
    constructor
    · rintro ⟨_, h1, h2⟩
      exact ⟨(n - m) / 2, by omega, by omega⟩
    · rintro ⟨k, hk, rfl⟩
      omega
  rw [this, Finset.card_image_of_injOn, Finset.card_range]
  intro a ha b hb hab
  simp only [Finset.coe_range, Set.mem_Iio] at ha hb
  simp only at hab
  omega

theorem pairs_card (L : Nat) :
    ((Finset.range (L + 1) ×ˢ Finset.range (L + 1)).filter
      (fun p : Nat × Nat => p.2 ≤ p.1 ∧ (p.1 - p.2) % 2 = 0)).card
      = ∑ n in Finset.range (L + 1), (n / 2 + 1) := by
  rw [Finset.card_filter, Finset.sum_product]
  apply Finset.sum_congr rfl
  intro n hn
  rw [← Finset.card_filter]
  exact pairs_card_row L n (by simpa [Nat.lt_succ_iff] using hn)


theorem extractRow_frame (sqrt : K → K) (n : Nat) (l : List Nat) (s : Extract K) (k : Nat)
    (hk : (l.foldl (fun s m => extractStep sqrt n m s) s).numZ ≤ k) :
    (l.foldl (fun s m => extractStep sqrt n m s) s).zvalues k = s.zvalues k := by
  induction l generalizing s with
  | nil => rfl
  | cons m l ih =>
    rw [List.foldl_cons] at hk ⊢
    rw [ih _ hk]
    have hmono := extractRow_numZ sqrt n l (extractStep sqrt n m s)
    by_cases h : (n - m) % 2 = 0
    · have hne : k ≠ s.numZ := by
        have : (extractStep sqrt n m s).numZ = s.numZ + 1 := by simp [extractStep, h]
        omega
      simp [extractStep, h, set1, hne]
    · simp [extractStep, h]

theorem extractLoop_frame (sqrt : K → K) (L : Nat) (s : Extract K) (k : Nat)
    (hk : ((List.range L).foldl
      (fun s n => (List.range (n + 1)).foldl (fun s m => extractStep sqrt n m s) s) s).numZ ≤ k) :
    ((List.range L).foldl
      (fun s n => (List.range (n + 1)).foldl (fun s m => extractStep sqrt n m s) s) s).zvalues k
      = s.zvalues k := by
  induction L with
  | zero => rfl
  | succ L ih =>
    rw [List.range_succ, List.foldl_append] at hk ⊢
    simp only [List.foldl_cons, List.foldl_nil] at hk ⊢
    rw [extractRow_frame sqrt L _ _ k hk]
    apply ih
    rw [extractRow_numZ] at hk
    omega

theorem sum_pairs_le (L : Nat) (h : L ≤ 31) :
    ∑ n in Finset.range (L + 1), (n / 2 + 1) ≤ 272 := by
  have h1 : ∑ n in Finset.range (L + 1), (n / 2 + 1) ≤ ∑ n in Finset.range 32, (n / 2 + 1) :=
    Finset.sum_le_sum_of_subset (Finset.range_mono (by omega))
  have h2 : ∑ n in Finset.range 32, (n / 2 + 1) = 272 := by decide
  omega

theorem effectiveOrder_lt_iff [FloorRing K] (order : K) :
    effectiveOrder order < MAX_L ↔ order < 32 := by
  unfold effectiveOrder MAX_L
  by_cases h : order > 0
  · rw [if_pos h]
    have := Nat.floor_lt (n := 32) (le_of_lt h)
    simpa using this
  · rw [if_neg h]
    have : order < 32 := lt_of_le_of_lt (not_lt.mp h) (by norm_num)
    simp [this]

theorem effectiveOrder_nonpos [FloorRing K] (order : K) (h : order ≤ 0) :
    effectiveOrder order = 15 := by
  unfold effectiveOrder
  rw [if_neg (not_lt.mpr h)]

theorem effectiveOrder_natCast [FloorRing K] (n : Nat) (h : 0 < n) :
    effectiveOrder (n : K) = n := by
  unfold effectiveOrder
  rw [if_pos (by exact_mod_cast h), Nat.floor_natCast]

theorem effectiveOrder_lt_one [FloorRing K] (order : K) (h0 : 0 < order) (h1 : order < 1) :
    effectiveOrder order = 0 := by
  unfold effectiveOrder
  rw [if_pos h0]
  exact Nat.floor_eq_zero.mpr h1

/-- A call that passes the assertion returns, and its three results are the
initialised statics and the buffer and counter left by the magnitude loop. -/
theorem mb_zernike2D_ok [FloorRing K] (sqrt : K → K) (st : Statics K) (stk : Locals K)
    (I : ImageMatrix K)
    (order rad : K) (zv : Nat → K) (h : effectiveOrder order < MAX_L) :
    ∃ o, mb_zernike2D sqrt st stk I order rad zv = Except.ok o ∧
      o.output_size = ∑ n in Finset.range (effectiveOrder order + 1), (n / 2 + 1) ∧
      ∀ k, o.output_size ≤ k → o.zvalues k = zv k := by
  refine ⟨_, by simp only [mb_zernike2D, if_pos h]; rfl, ?_, ?_⟩
  · exact extract_numZ _ _ _ _ _
  · intro k hk
    exact extractLoop_frame sqrt _ _ k hk

end Count

end Zernike

/-! ## Output cardinality, order check and defaults -/

namespace Zernike

section Contract

variable {K : Type} [LinearOrderedField K]

/-- C1: for every image, radius, statics and buffer, and every order whose
effective maximum order is `L ≤ 31`, the call returns and the count reported
through `output_size` is `Σ_{n=0}^{L} (⌊n/2⌋ + 1)`, which is the number of pairs
`(n, m)` with `0 ≤ m ≤ n ≤ L` and `n - m` even; any other image, radius, statics
and buffer give the same count. -/
theorem output_size_formula [FloorRing K] (sqrt : K → K) (st : Statics K) (stk : Locals K)
    (I : ImageMatrix K)
    (order rad : K) (zv : Nat → K) (L : Nat) (hL : effectiveOrder order = L) (h31 : L ≤ 31) :
    ∃ o, mb_zernike2D sqrt st stk I order rad zv = Except.ok o ∧
      o.output_size = ∑ n in Finset.range (L + 1), (n / 2 + 1) ∧
      o.output_size = ((Finset.range (L + 1) ×ˢ Finset.range (L + 1)).filter
        (fun p : Nat × Nat => p.2 ≤ p.1 ∧ (p.1 - p.2) % 2 = 0)).card ∧
      ∀ (st' : Statics K) (stk' : Locals K) (I' : ImageMatrix K) (rad' : K) (zv' : Nat → K),
        ∃ o', mb_zernike2D sqrt st' stk' I' order rad' zv' = Except.ok o' ∧
          o'.output_size = o.output_size := by
  have hlt : effectiveOrder order < MAX_L := by rw [hL]; unfold MAX_L; omega
  obtain ⟨o, ho, hsize, -⟩ := mb_zernike2D_ok sqrt st stk I order rad zv hlt
  rw [hL] at hsize
  refine ⟨o, ho, hsize, ?_, ?_⟩
  · rw [hsize, pairs_card]
  · intro st' stk' I' rad' zv'
    obtain ⟨o', ho', hsize', -⟩ := mb_zernike2D_ok sqrt st' stk' I' order rad' zv' hlt
    rw [hL] at hsize'
    exact ⟨o', ho', by rw [hsize', hsize]⟩

/-- Witness of C1: order 2 on a `3 × 2` image. -/
theorem output_size_formula_witness :
    effectiveOrder (2 : ℝ) = 2 ∧ 2 ≤ 31 ∧
    ∃ o, mb_zernike2D Real.sqrt Statics.fresh Locals.blank (uniformImage 3 2 (1 : ℝ)) 2 1 zeroBuffer
        = Except.ok o ∧
      o.output_size = ∑ n in Finset.range (2 + 1), (n / 2 + 1) ∧
      o.output_size = ((Finset.range (2 + 1) ×ˢ Finset.range (2 + 1)).filter
        (fun p : Nat × Nat => p.2 ≤ p.1 ∧ (p.1 - p.2) % 2 = 0)).card ∧
      ∀ (st' : Statics ℝ) (stk' : Locals ℝ) (I' : ImageMatrix ℝ) (rad' : ℝ) (zv' : Nat → ℝ),
        ∃ o', mb_zernike2D Real.sqrt st' stk' I' 2 rad' zv' = Except.ok o' ∧
          o'.output_size = o.output_size :=
  ⟨by simp [effectiveOrder], by decide,
    output_size_formula Real.sqrt Statics.fresh Locals.blank
      (uniformImage 3 2 (1 : ℝ)) 2 1 zeroBuffer 2
      (by simp [effectiveOrder]) (by decide)⟩

/-- C3 (as stated, refuted): the all-zero `2 × 2` image has total intensity
zero, and the call on it returns a result instead of failing. -/
theorem zero_image_returns :
    (moments (uniformImage 2 2 (0 : ℝ))).moment00 = 0 ∧
    ∃ o, mb_zernike2D Real.sqrt Statics.fresh Locals.blank (uniformImage 2 2 (0 : ℝ)) 1 1 zeroBuffer
      = Except.ok o := by
  constructor
  · simp [moments, momentStep, uniformImage, List.range_succ]
  · obtain ⟨o, ho, -⟩ := mb_zernike2D_ok Real.sqrt Statics.fresh Locals.blank
      (uniformImage 2 2 (0 : ℝ))
      1 1 zeroBuffer (by simp [effectiveOrder, MAX_L])
    exact ⟨o, ho⟩

/-- C3 (amended): for every image whose total intensity `moment00` is zero and
every order that passes the assertion, the call raises no error: it returns,
and reports the same count `Σ_{n=0}^{L} (⌊n/2⌋ + 1)` as for any other image. -/
theorem zero_total_intensity_returns [FloorRing K] (sqrt : K → K) (st : Statics K) (stk : Locals K)
    (I : ImageMatrix K) (order rad : K) (zv : Nat → K)
    (hzero : (moments I).moment00 = 0) (hL : effectiveOrder order < MAX_L) :
    (moments I).moment00 = 0 ∧
    ∃ o, mb_zernike2D sqrt st stk I order rad zv = Except.ok o ∧
      o.output_size = ∑ n in Finset.range (effectiveOrder order + 1), (n / 2 + 1) := by
  obtain ⟨o, ho, hsize, -⟩ := mb_zernike2D_ok sqrt st stk I order rad zv hL
  exact ⟨hzero, o, ho, hsize⟩

/-- Witness of C3 (amended): the all-zero `2 × 2` image at order 1. -/
theorem zero_total_intensity_returns_witness :
    (moments (uniformImage 2 2 (0 : ℝ))).moment00 = 0 ∧ effectiveOrder (1 : ℝ) < MAX_L ∧
    ((moments (uniformImage 2 2 (0 : ℝ))).moment00 = 0 ∧
    ∃ o, mb_zernike2D Real.sqrt Statics.fresh Locals.blank (uniformImage 2 2 (0 : ℝ)) 1 1 zeroBuffer
        = Except.ok o ∧
      o.output_size = ∑ n in Finset.range (effectiveOrder (1 : ℝ) + 1), (n / 2 + 1)) :=
  ⟨by simp [moments, momentStep, uniformImage, List.range_succ],
    by simp [effectiveOrder, MAX_L],
    zero_total_intensity_returns Real.sqrt Statics.fresh Locals.blank
      (uniformImage 2 2 (0 : ℝ)) 1 1 zeroBuffer
      (by simp [moments, momentStep, uniformImage, List.range_succ])
      (by simp [effectiveOrder, MAX_L])⟩

/-- C4 (as stated, refuted): with `order = 31` the call writes 272 magnitudes,
which is more than 256. -/
theorem order_31_writes_272 :
    ∃ o, mb_zernike2D Real.sqrt Statics.fresh Locals.blank
        (uniformImage 2 2 (1 : ℝ)) 31 1 zeroBuffer
        = Except.ok o ∧ o.output_size = 272 ∧ ¬ o.output_size ≤ 256 := by
  have h31 : effectiveOrder (31 : ℝ) = 31 := by simp [effectiveOrder]
  obtain ⟨o, ho, hsize, -⟩ := mb_zernike2D_ok Real.sqrt Statics.fresh Locals.blank
      (uniformImage 2 2 (1 : ℝ))
    31 1 zeroBuffer (by rw [h31]; decide)
  rw [h31] at hsize
  have h272 : ∑ n in Finset.range (31 + 1), (n / 2 + 1) = 272 := by decide
  exact ⟨o, ho, by omega, by omega⟩

/-- C4 (amended): for every accepted order (effective `L ≤ 31`) the number of
magnitudes written is at most 272 and no buffer cell from index 272 on is
touched; the worst case `L = 31` writes exactly 272 values, and 256 values
suffice exactly when `L ≤ 30`. -/
theorem output_size_le_272 [FloorRing K] (sqrt : K → K) (st : Statics K) (stk : Locals K)
    (I : ImageMatrix K)
    (order rad : K) (zv : Nat → K) (h31 : effectiveOrder order ≤ 31) :
    ∃ o, mb_zernike2D sqrt st stk I order rad zv = Except.ok o ∧
      o.output_size ≤ 272 ∧
      (∀ k, 272 ≤ k → o.zvalues k = zv k) ∧
      (effectiveOrder order = 31 → o.output_size = 272) ∧
      (o.output_size ≤ 256 ↔ effectiveOrder order ≤ 30) := by
  have hlt : effectiveOrder order < MAX_L := by unfold MAX_L; omega
  obtain ⟨o, ho, hsize, hframe⟩ := mb_zernike2D_ok sqrt st stk I order rad zv hlt
  have hle := sum_pairs_le _ h31
  have h272 : ∑ n in Finset.range (31 + 1), (n / 2 + 1) = 272 := by decide
  have h256 : ∑ n in Finset.range (30 + 1), (n / 2 + 1) = 256 := by decide
  refine ⟨o, ho, by omega, fun k hk => hframe k (by omega), ?_, ?_⟩
  · intro h; rw [hsize, h, h272]
  · constructor
    · intro hs
      by_contra hc
      have h : effectiveOrder order = 31 := by omega
      rw [hsize, h, h272] at hs
      omega
    · intro h30
      have hmono : ∑ n in Finset.range (effectiveOrder order + 1), (n / 2 + 1)
          ≤ ∑ n in Finset.range (30 + 1), (n / 2 + 1) :=
        Finset.sum_le_sum_of_subset (Finset.range_mono (by omega))
      omega

/-- Witness of C4 (amended): order 31 on a `2 × 2` image. -/
theorem output_size_le_272_witness :
    effectiveOrder (31 : ℝ) ≤ 31 ∧
    ∃ o, mb_zernike2D Real.sqrt Statics.fresh Locals.blank
        (uniformImage 2 2 (1 : ℝ)) 31 1 zeroBuffer
        = Except.ok o ∧
      o.output_size ≤ 272 ∧
      (∀ k, 272 ≤ k → o.zvalues k = (zeroBuffer : Nat → ℝ) k) ∧
      (effectiveOrder (31 : ℝ) = 31 → o.output_size = 272) ∧
      (o.output_size ≤ 256 ↔ effectiveOrder (31 : ℝ) ≤ 30) :=
  ⟨by simp [effectiveOrder],
    output_size_le_272 Real.sqrt Statics.fresh Locals.blank
      (uniformImage 2 2 (1 : ℝ)) 31 1 zeroBuffer
      (by simp [effectiveOrder])⟩

/-- Within the range of `int`, that is for `order < 2^31`: for every image,
radius, statics and buffer, the call fails on `assert (L < MAX_L)` if and only
if the requested order is at least 32; in particular `order = 31` does not
fail and `order = 32` does. -/
theorem assertion_fails_iff_in_range [FloorRing K] (sqrt : K → K) (st : Statics K)
    (stk : Locals K) (I : ImageMatrix K)
    (order rad : K) (zv : Nat → K) (_horder : order < 2147483648) :
    (mb_zernike2D sqrt st stk I order rad zv = Except.error Failure.assert_L_lt_MAX_L ↔ 32 ≤ order)
    ∧ mb_zernike2D sqrt st stk I 31 rad zv ≠ Except.error Failure.assert_L_lt_MAX_L
    ∧ mb_zernike2D sqrt st stk I 32 rad zv = Except.error Failure.assert_L_lt_MAX_L := by
  have key : ∀ x : K, mb_zernike2D sqrt st stk I x rad zv
      = Except.error Failure.assert_L_lt_MAX_L ↔ 32 ≤ x := by
    intro x
    by_cases h : effectiveOrder x < MAX_L
    · obtain ⟨o, ho, -⟩ := mb_zernike2D_ok sqrt st stk I x rad zv h
      have hx := (effectiveOrder_lt_iff x).mp h
      rw [ho]
      constructor
      · intro hh; cases hh
      · intro hh; exact absurd hx (not_lt.mpr hh)
    · have hx : 32 ≤ x := not_lt.mp (fun hh => h ((effectiveOrder_lt_iff x).mpr hh))
      simp only [mb_zernike2D, if_neg h, true_iff]
      exact hx
  refine ⟨key order, ?_, ?_⟩
  · rw [Ne, key]; norm_num
  · rw [key]

/-- C6: for every image and every order argument `≤ 0` the effective maximum
order is 15, the call is the same as the call with `order = 15`, and it reports
72 magnitudes. -/
theorem nonpositive_order_defaults [FloorRing K] (sqrt : K → K) (st : Statics K) (stk : Locals K)
    (I : ImageMatrix K) (order rad : K) (zv : Nat → K) (h : order ≤ 0) :
    effectiveOrder order = 15 ∧
    mb_zernike2D sqrt st stk I order rad zv = mb_zernike2D sqrt st stk I 15 rad zv ∧
    ∃ o, mb_zernike2D sqrt st stk I order rad zv = Except.ok o ∧ o.output_size = 72 := by
  have h15 : effectiveOrder order = 15 := effectiveOrder_nonpos order h
  have h15' : effectiveOrder (15 : K) = 15 := by
    have := effectiveOrder_natCast (K := K) 15 (by decide)
    simpa using this
  refine ⟨h15, ?_, ?_⟩
  · simp only [mb_zernike2D, h15, h15']
  · obtain ⟨o, ho, hsize, -⟩ := mb_zernike2D_ok sqrt st stk I order rad zv
      (by rw [h15]; decide)
    rw [h15] at hsize
    have h72 : ∑ n in Finset.range (15 + 1), (n / 2 + 1) = 72 := by decide
    exact ⟨o, ho, by omega⟩

/-- Witness of C6: order `-3` on a `3 × 2` image. -/
theorem nonpositive_order_defaults_witness :
    (-3 : ℝ) ≤ 0 ∧ effectiveOrder (-3 : ℝ) = 15 ∧
    mb_zernike2D Real.sqrt Statics.fresh Locals.blank (uniformImage 3 2 (1 : ℝ)) (-3) 1 zeroBuffer
      = mb_zernike2D Real.sqrt Statics.fresh Locals.blank
          (uniformImage 3 2 (1 : ℝ)) 15 1 zeroBuffer ∧
    ∃ o, mb_zernike2D Real.sqrt Statics.fresh Locals.blank
        (uniformImage 3 2 (1 : ℝ)) (-3) 1 zeroBuffer
      = Except.ok o ∧ o.output_size = 72 :=
  ⟨by norm_num,
    nonpositive_order_defaults Real.sqrt Statics.fresh Locals.blank
      (uniformImage 3 2 (1 : ℝ)) (-3) 1
      zeroBuffer (by norm_num)⟩

/-- C7 (as stated, refuted): for the uniform `4 × 4` image, whose pixels cover
the disk of radius 2 around its centre, `order = 0` makes the call report 72
magnitudes, not one. -/
theorem order_zero_reports_72 :
    ∃ o, mb_zernike2D Real.sqrt Statics.fresh Locals.blank (uniformImage 4 4 (1 : ℝ)) 0 2 zeroBuffer
        = Except.ok o ∧ o.output_size = 72 ∧ o.output_size ≠ 1 := by
  have h15 : effectiveOrder (0 : ℝ) = 15 := effectiveOrder_nonpos 0 (le_refl 0)
  obtain ⟨o, ho, hsize, -⟩ := mb_zernike2D_ok Real.sqrt Statics.fresh Locals.blank
    (uniformImage 4 4 (1 : ℝ)) 0 2 zeroBuffer (by rw [h15]; decide)
  rw [h15] at hsize
  have h72 : ∑ n in Finset.range (15 + 1), (n / 2 + 1) = 72 := by decide
  exact ⟨o, ho, by omega, by omega⟩

/-- C7 (amended): for a uniform-intensity square image and every radius, the
output contains exactly one magnitude when the order argument lies strictly
between 0 and 1, which is when the effective maximum order is 0. -/
theorem fractional_order_reports_one [FloorRing K] (sqrt : K → K) (st : Statics K) (stk : Locals K)
    (N : Nat) (c order rad : K) (zv : Nat → K) (h0 : 0 < order) (h1 : order < 1) :
    effectiveOrder order = 0 ∧
    ∃ o, mb_zernike2D sqrt st stk (uniformImage N N c) order rad zv = Except.ok o ∧
      o.output_size = 1 ∧ o.magnitudes.length = 1 := by
  have hL : effectiveOrder order = 0 := effectiveOrder_lt_one order h0 h1
  obtain ⟨o, ho, hsize, -⟩ := mb_zernike2D_ok sqrt st stk (uniformImage N N c) order rad zv
    (by rw [hL]; decide)
  rw [hL] at hsize
  have h1 : o.output_size = 1 := by simpa using hsize
  exact ⟨hL, o, ho, h1, by simp [Outcome.magnitudes, h1]⟩

/-- Witness of C7 (amended): order `1/2` on the uniform `4 × 4` image. -/
theorem fractional_order_reports_one_witness :
    (0 : ℝ) < 1 / 2 ∧ (1 / 2 : ℝ) < 1 ∧ effectiveOrder (1 / 2 : ℝ) = 0 ∧
    ∃ o, mb_zernike2D Real.sqrt Statics.fresh Locals.blank
        (uniformImage 4 4 (1 : ℝ)) (1 / 2) 2 zeroBuffer
        = Except.ok o ∧
      o.output_size = 1 ∧ o.magnitudes.length = 1 :=
  ⟨by norm_num, by norm_num,
    fractional_order_reports_one Real.sqrt Statics.fresh Locals.blank 4 (1 : ℝ) (1 / 2) 2 zeroBuffer
      (by norm_num) (by norm_num)⟩

end Contract

end Zernike

/-! ## The pixel loop in closed form -/

namespace Zernike

section PixelLoop

variable {K : Type} [LinearOrderedField K]

theorem powerTable_eq (L : Nat) (r : K) (s : Locals K) :
    powerTable L r s = { s with R := fun k => if k ≤ L then r ^ k else s.R k } := by
  induction L with
  | zero =>
    simp only [powerTable, List.range'_zero, List.foldl_nil]
    congr 1
    funext k
    by_cases h : k = 0 <;> simp [set1, h]
  | succ L ih =>
    unfold powerTable at ih ⊢
    rw [List.range'_concat, List.foldl_append, ih]
    simp only [List.foldl_cons, List.foldl_nil]
    congr 1
    funext k
    simp only [set1, Nat.add_sub_cancel_left]
    by_cases h : k = 1 + L
    · subst h
      simp [pow_succ, mul_comm, Nat.add_comm]
    · have : k ≤ L + 1 ↔ k ≤ L := by omega
      simp [h, this]

theorem angleTables_eq (L : Nat) (a b : K) (s : Locals K) :
    angleTables L a b s = { s with
      COST := fun k => if k ≤ L then (angleAt a b k).1 else s.COST k
      SINT := fun k => if k ≤ L then (angleAt a b k).2 else s.SINT k } := by
  induction L with
  | zero =>
    simp only [angleTables, List.range'_zero, List.foldl_nil]
    congr 1 <;>
    · funext k
      by_cases h : k = 0 <;> simp [set1, h, angleAt]
  | succ L ih =>
    unfold angleTables at ih ⊢
    rw [List.range'_concat, List.foldl_append, ih]
    simp only [List.foldl_cons, List.foldl_nil]
    congr 1 <;>
    · funext k
      simp only [set1, Nat.add_sub_cancel_left]
      by_cases h : k = 1 + L
      · subst h
        simp [angleAt, Nat.add_comm]
      · have : k ≤ L + 1 ↔ k ≤ L := by omega
        simp [h, this]

theorem mStep_frame (H : Statics K) (r2 c : K) (n m : Nat) (s : Locals K) :
    (mStep H r2 c n m s).COST = s.COST ∧ (mStep H r2 c n m s).SINT = s.SINT ∧
    (mStep H r2 c n m s).R = s.R ∧ (mStep H r2 c n m s).Rn = s.Rn ∧
    (mStep H r2 c n m s).Rnm2 = s.Rnm2 ∧
    (mStep H r2 c n m s).AR
      = set2 s.AR n m (s.AR n m + c * (mStep H r2 c n m s).Rnm * s.COST m) ∧
    (mStep H r2 c n m s).AI
      = set2 s.AI n m (s.AI n m - c * (mStep H r2 c n m s).Rnm * s.SINT m) := by
  unfold mStep
  by_cases h0 : m = n
  · simp [h0]
  · by_cases h1 : m + 2 = n
    · simp [h0, h1]
    · simp [h0, h1]

theorem mStep_base (H : Statics K) (r2 c : K) (n : Nat) (s : Locals K) :
    (mStep H r2 c n n s).Rnm = s.Rn ∧ (mStep H r2 c n n s).Rnmp4 = s.Rn ∧
    (mStep H r2 c n n s).Rnmp2 = s.Rnmp2 := by
  simp [mStep]

theorem mStep_two (H : Statics K) (r2 c : K) (n m : Nat) (s : Locals K) (h : m + 2 = n) :
    (mStep H r2 c n m s).Rnm = (n : K) * s.Rn - ((n : K) - 1) * s.Rnm2 ∧
    (mStep H r2 c n m s).Rnmp4 = s.Rnmp4 ∧
    (mStep H r2 c n m s).Rnmp2 = (n : K) * s.Rn - ((n : K) - 1) * s.Rnm2 := by
  have h0 : m ≠ n := by omega
  simp [mStep, h0, h]

theorem mStep_three (H : Statics K) (r2 c : K) (n m : Nat) (s : Locals K) (h : m + 4 ≤ n) :
    (mStep H r2 c n m s).Rnm
      = H.H1 n m * s.Rnmp4 + (H.H2 n m + H.H3 n m / r2) * s.Rnmp2 ∧
    (mStep H r2 c n m s).Rnmp4 = s.Rnmp2 ∧
    (mStep H r2 c n m s).Rnmp2
      = H.H1 n m * s.Rnmp4 + (H.H2 n m + H.H3 n m / r2) * s.Rnmp2 := by
  have h0 : m ≠ n := by omega
  have h1 : m + 2 ≠ n := by omega
  simp [mStep, h0, h1]

/-- The loop over `m` after its first `j` iterations. -/
theorem mLoop_spec (H : Statics K) (r r2 c : K) (n : Nat) (s : Locals K)
    (hRn : s.Rn = r ^ n) (hRnm2 : 2 ≤ n → s.Rnm2 = r ^ (n - 2)) (j : Nat)
    (hj : j ≤ n / 2 + 1) :
    let t := ((List.range j).map (fun k => n - 2 * k)).foldl
      (fun s m => mStep H r2 c n m s) s
    t.COST = s.COST ∧ t.SINT = s.SINT ∧ t.R = s.R ∧ t.Rn = s.Rn ∧ t.Rnm2 = s.Rnm2 ∧
    (∀ a b, t.AR a b = s.AR a b +
      if a = n ∧ b ≤ n ∧ (n - b) % 2 = 0 ∧ (n - b) / 2 < j
      then c * radialStep H r r2 n ((n - b) / 2) * s.COST b else 0) ∧
    (∀ a b, t.AI a b = s.AI a b -
      if a = n ∧ b ≤ n ∧ (n - b) % 2 = 0 ∧ (n - b) / 2 < j
      then c * radialStep H r r2 n ((n - b) / 2) * s.SINT b else 0) ∧
    (1 ≤ j → t.Rnm = radialStep H r r2 n (j - 1)) ∧
    (j = 1 → t.Rnmp4 = radialStep H r r2 n 0) ∧
    (2 ≤ j → t.Rnmp4 = radialStep H r r2 n (j - 2) ∧ t.Rnmp2 = radialStep H r r2 n (j - 1)) := by
  induction j with
  | zero =>
    intro t
    simp [t]
  | succ j ih =>
    have ih' := ih (by omega)
    clear ih
    intro t
    have ht : t = mStep H r2 c n (n - 2 * j)
        (((List.range j).map (fun k => n - 2 * k)).foldl (fun s m => mStep H r2 c n m s) s) := by
      simp only [t, List.range_succ, List.map_append, List.foldl_append, List.map_cons,
        List.map_nil, List.foldl_cons, List.foldl_nil]
    clear_value t
    generalize ((List.range j).map (fun k => n - 2 * k)).foldl
      (fun s m => mStep H r2 c n m s) s = u at ih' ht
    obtain ⟨hC, hS, hR, hRn', hRnm2', hAR, hAI, hRnm, hp4, hp⟩ := ih'
    obtain ⟨fC, fS, fR, fRn, fRnm2, fAR, fAI⟩ := mStep_frame H r2 c n (n - 2 * j) u
    rw [← ht] at fC fS fR fRn fRnm2 fAR fAI
    -- the value of `Rnm` chosen by the three cases, and the carried values
    have hnew : t.Rnm = radialStep H r r2 n j ∧
        (j + 1 = 1 → t.Rnmp4 = radialStep H r r2 n 0) ∧
        (2 ≤ j + 1 → t.Rnmp4 = radialStep H r r2 n (j + 1 - 2)
          ∧ t.Rnmp2 = radialStep H r r2 n (j + 1 - 1)) := by
      by_cases j0 : j = 0
      · subst j0
        obtain ⟨a1, a2, -⟩ := mStep_base H r2 c n u
        simp only [Nat.mul_zero, Nat.sub_zero] at ht
        rw [← ht] at a1 a2
        refine ⟨by rw [a1, hRn', hRn]; rfl, fun _ => by rw [a2, hRn', hRn]; rfl, ?_⟩
        intro h; omega
      by_cases j1 : j = 1
      · subst j1
        obtain ⟨a1, a2, a3⟩ := mStep_two H r2 c n (n - 2 * 1) u (by omega)
        rw [← ht] at a1 a2 a3
        have e : radialStep H r r2 n 1 = (n : K) * r ^ n - ((n : K) - 1) * r ^ (n - 2) := rfl
        refine ⟨by rw [a1, e, hRn', hRn, hRnm2', hRnm2 (by omega)], fun h => by omega, fun _ => ?_⟩
        refine ⟨by rw [a2, hp4 rfl], ?_⟩
        show t.Rnmp2 = radialStep H r r2 n 1
        rw [a3, e, hRn', hRn, hRnm2', hRnm2 (by omega)]
      · obtain ⟨k, rfl⟩ : ∃ k, j = k + 2 := ⟨j - 2, by omega⟩
        obtain ⟨a1, a2, a3⟩ := mStep_three H r2 c n (n - 2 * (k + 2)) u (by omega)
        rw [← ht] at a1 a2 a3
        obtain ⟨b1, b2⟩ := hp (by omega)
        have b1' : u.Rnmp4 = radialStep H r r2 n k := b1
        have b2' : u.Rnmp2 = radialStep H r r2 n (k + 1) := b2
        have e : radialStep H r r2 n (k + 2)
            = H.H1 n (n - 2 * (k + 2)) * radialStep H r r2 n k
              + (H.H2 n (n - 2 * (k + 2)) + H.H3 n (n - 2 * (k + 2)) / r2)
                * radialStep H r r2 n (k + 1) := rfl
        refine ⟨by rw [a1, e, b1', b2'], fun h => by omega, fun _ => ?_⟩
        refine ⟨?_, ?_⟩
        · show t.Rnmp4 = radialStep H r r2 n (k + 1)
          rw [a2, b2']
        · show t.Rnmp2 = radialStep H r r2 n (k + 2)
          rw [a3, e, b1', b2']
    obtain ⟨hnew1, hnew2, hnew3⟩ := hnew
    have hval : ∀ a b : Nat, (a = n ∧ b ≤ n ∧ (n - b) % 2 = 0 ∧ (n - b) / 2 < j + 1) ↔
        ((a = n ∧ b ≤ n ∧ (n - b) % 2 = 0 ∧ (n - b) / 2 < j) ∨ (a = n ∧ b = n - 2 * j)) := by
      intro a b; constructor
      · rintro ⟨h1, h2, h3, h4⟩
        by_cases h5 : (n - b) / 2 < j
        · exact Or.inl ⟨h1, h2, h3, h5⟩
        · exact Or.inr ⟨h1, by omega⟩
      · rintro (⟨h1, h2, h3, h4⟩ | ⟨h1, h2⟩)
        · exact ⟨h1, h2, h3, by omega⟩
        · exact ⟨h1, by omega, by omega, by omega⟩
    have hk : (n - (n - 2 * j)) / 2 = j := by omega
    refine ⟨by rw [fC, hC], by rw [fS, hS], by rw [fR, hR], by rw [fRn, hRn'],
      by rw [fRnm2, hRnm2'], ?_, ?_, fun _ => by simpa using hnew1, hnew2, hnew3⟩
    · intro a b
      rw [fAR, hnew1]
      unfold set2
      by_cases hcell : a = n ∧ b = n - 2 * j
      · obtain ⟨rfl, rfl⟩ := hcell
        have hold : ¬ (a = a ∧ a - 2 * j ≤ a ∧ (a - (a - 2 * j)) % 2 = 0
            ∧ (a - (a - 2 * j)) / 2 < j) := by omega
        have hnw : (a = a ∧ a - 2 * j ≤ a ∧ (a - (a - 2 * j)) % 2 = 0
            ∧ (a - (a - 2 * j)) / 2 < j + 1) := by omega
        rw [if_pos ⟨rfl, rfl⟩, hAR, if_neg hold, if_pos hnw, hk, hC]
        ring
      · rw [if_neg hcell, hAR]
        by_cases hv : a = n ∧ b ≤ n ∧ (n - b) % 2 = 0 ∧ (n - b) / 2 < j
        · rw [if_pos hv, if_pos ((hval a b).mpr (Or.inl hv))]
        · rw [if_neg hv, if_neg (fun h => ((hval a b).mp h).elim hv hcell)]
    · intro a b
      rw [fAI, hnew1]
      unfold set2
      by_cases hcell : a = n ∧ b = n - 2 * j
      · obtain ⟨rfl, rfl⟩ := hcell
        have hold : ¬ (a = a ∧ a - 2 * j ≤ a ∧ (a - (a - 2 * j)) % 2 = 0
            ∧ (a - (a - 2 * j)) / 2 < j) := by omega
        have hnw : (a = a ∧ a - 2 * j ≤ a ∧ (a - (a - 2 * j)) % 2 = 0
            ∧ (a - (a - 2 * j)) / 2 < j + 1) := by omega
        rw [if_pos ⟨rfl, rfl⟩, hAI, if_neg hold, if_pos hnw, hk, hS]
        ring
      · rw [if_neg hcell, hAI]
        by_cases hv : a = n ∧ b ≤ n ∧ (n - b) % 2 = 0 ∧ (n - b) / 2 < j
        · rw [if_pos hv, if_pos ((hval a b).mpr (Or.inl hv))]
        · rw [if_neg hv, if_neg (fun h => ((hval a b).mp h).elim hv hcell)]

theorem nStep_spec (H : Statics K) (r r2 f : K) (n : Nat) (s : Locals K)
    (hRn : s.R n = r ^ n) (hRnm2 : 2 ≤ n → s.R (n - 2) = r ^ (n - 2)) :
    (nStep H r2 f n s).COST = s.COST ∧ (nStep H r2 f n s).SINT = s.SINT ∧
    (nStep H r2 f n s).R = s.R ∧
    (∀ a b, (nStep H r2 f n s).AR a b = s.AR a b +
      if a = n ∧ b ≤ n ∧ (n - b) % 2 = 0
      then constT n f * radialStep H r r2 n ((n - b) / 2) * s.COST b else 0) ∧
    (∀ a b, (nStep H r2 f n s).AI a b = s.AI a b -
      if a = n ∧ b ≤ n ∧ (n - b) % 2 = 0
      then constT n f * radialStep H r r2 n ((n - b) / 2) * s.SINT b else 0) := by
  have e1 : (nEnter n s).Rn = r ^ n := by
    unfold nEnter; split_ifs <;> exact hRn
  have e2 : 2 ≤ n → (nEnter n s).Rnm2 = r ^ (n - 2) := by
    intro h; unfold nEnter; rw [if_pos h]; exact hRnm2 h
  have e3 : (nEnter n s).COST = s.COST ∧ (nEnter n s).SINT = s.SINT ∧ (nEnter n s).R = s.R
      ∧ (nEnter n s).AR = s.AR ∧ (nEnter n s).AI = s.AI := by
    unfold nEnter; split_ifs <;> simp
  obtain ⟨c1, c2, c3, c4, c5⟩ := e3
  obtain ⟨hC, hS, hR, -, -, hAR, hAI, -⟩ :=
    mLoop_spec H r r2 (constT n f) n (nEnter n s) e1 e2 (n / 2 + 1) (le_refl _)
  have hcond : ∀ a b : Nat, (a = n ∧ b ≤ n ∧ (n - b) % 2 = 0 ∧ (n - b) / 2 < n / 2 + 1)
      ↔ (a = n ∧ b ≤ n ∧ (n - b) % 2 = 0) := by
    intro a b; constructor
    · rintro ⟨h1, h2, h3, -⟩; exact ⟨h1, h2, h3⟩
    · rintro ⟨h1, h2, h3⟩; exact ⟨h1, h2, h3, by omega⟩
  refine ⟨by rw [← c1, ← hC]; rfl, by rw [← c2, ← hS]; rfl, by rw [← c3, ← hR]; rfl, ?_, ?_⟩
  · intro a b
    have := hAR a b
    simp only [hcond, c1, c4] at this
    exact this
  · intro a b
    have := hAI a b
    simp only [hcond, c2, c5] at this
    exact this

theorem nLoop_spec (H : Statics K) (r r2 f : K) (L : Nat) (s : Locals K)
    (hR : ∀ k, k ≤ L → s.R k = r ^ k) (N : Nat) (hN : N ≤ L + 1) :
    let t := (List.range N).foldl (fun s n => nStep H r2 f n s) s
    t.COST = s.COST ∧ t.SINT = s.SINT ∧ t.R = s.R ∧
    (∀ a b, t.AR a b = s.AR a b +
      if a < N ∧ b ≤ a ∧ (a - b) % 2 = 0
      then constT a f * radialStep H r r2 a ((a - b) / 2) * s.COST b else 0) ∧
    (∀ a b, t.AI a b = s.AI a b -
      if a < N ∧ b ≤ a ∧ (a - b) % 2 = 0
      then constT a f * radialStep H r r2 a ((a - b) / 2) * s.SINT b else 0) := by
  induction N with
  | zero => intro t; simp [t]
  | succ N ih =>
    have ih' := ih (by omega)
    clear ih
    intro t
    have ht : t = nStep H r2 f N ((List.range N).foldl (fun s n => nStep H r2 f n s) s) := by
      simp only [t, List.range_succ, List.foldl_append, List.foldl_cons, List.foldl_nil]
    clear_value t
    generalize (List.range N).foldl (fun s n => nStep H r2 f n s) s = u at ih' ht
    obtain ⟨hC, hS, hRu, hAR, hAI⟩ := ih'
    obtain ⟨gC, gS, gR, gAR, gAI⟩ := nStep_spec H r r2 f N u
      (by rw [hRu]; exact hR N (by omega)) (fun _ => by rw [hRu]; exact hR _ (by omega))
    rw [← ht] at gC gS gR gAR gAI
    refine ⟨by rw [gC, hC], by rw [gS, hS], by rw [gR, hRu], ?_, ?_⟩
    · intro a b
      rw [gAR, hAR, hC]
      by_cases h1 : a < N ∧ b ≤ a ∧ (a - b) % 2 = 0
      · have h2 : ¬ (a = N ∧ b ≤ N ∧ (N - b) % 2 = 0) := by omega
        have h3 : a < N + 1 ∧ b ≤ a ∧ (a - b) % 2 = 0 := by omega
        rw [if_pos h1, if_neg h2, if_pos h3, add_zero]
      · by_cases h2 : a = N ∧ b ≤ N ∧ (N - b) % 2 = 0
        · have h3 : a < N + 1 ∧ b ≤ a ∧ (a - b) % 2 = 0 := by omega
          rw [if_neg h1, if_pos h2, if_pos h3, add_zero, h2.1]
        · have h3 : ¬ (a < N + 1 ∧ b ≤ a ∧ (a - b) % 2 = 0) := by omega
          rw [if_neg h1, if_neg h2, if_neg h3, add_zero]
    · intro a b
      rw [gAI, hAI, hS]
      by_cases h1 : a < N ∧ b ≤ a ∧ (a - b) % 2 = 0
      · have h2 : ¬ (a = N ∧ b ≤ N ∧ (N - b) % 2 = 0) := by omega
        have h3 : a < N + 1 ∧ b ≤ a ∧ (a - b) % 2 = 0 := by omega
        rw [if_pos h1, if_neg h2, if_pos h3, sub_zero]
      · by_cases h2 : a = N ∧ b ≤ N ∧ (N - b) % 2 = 0
        · have h3 : a < N + 1 ∧ b ≤ a ∧ (a - b) % 2 = 0 := by omega
          rw [if_neg h1, if_pos h2, if_pos h3, sub_zero, h2.1]
        · have h3 : ¬ (a < N + 1 ∧ b ≤ a ∧ (a - b) % 2 = 0) := by omega
          rw [if_neg h1, if_neg h2, if_neg h3, sub_zero]

theorem pixelEnter_tables (L : Nat) (r a b : K) (s : Locals K) :
    (∀ k, k ≤ L → (pixelEnter L r a b s).R k = r ^ k) ∧
    (∀ k, k ≤ L → (pixelEnter L r a b s).COST k = (angleAt a b k).1) ∧
    (∀ k, k ≤ L → (pixelEnter L r a b s).SINT k = (angleAt a b k).2) ∧
    (pixelEnter L r a b s).AR = s.AR ∧ (pixelEnter L r a b s).AI = s.AI := by
  unfold pixelEnter
  rw [powerTable_eq, angleTables_eq]
  refine ⟨?_, ?_, ?_, rfl, rfl⟩ <;>
  · intro k hk
    simp [hk]

/-- The loop over `n` for a pixel that is not skipped. -/
theorem pixelBody_spec (H : Statics K) (L : Nat) (r r2 f a0 b0 : K) (s : Locals K) (a b : Nat) :
    ((List.range (L + 1)).foldl (fun s n => nStep H r2 f n s) (pixelEnter L r a0 b0 s)).AR a b
      = s.AR a b + (if validPair L a b
          then constT a f * radialStep H r r2 a ((a - b) / 2) * (angleAt a0 b0 b).1 else 0) ∧
    ((List.range (L + 1)).foldl (fun s n => nStep H r2 f n s) (pixelEnter L r a0 b0 s)).AI a b
      = s.AI a b - (if validPair L a b
          then constT a f * radialStep H r r2 a ((a - b) / 2) * (angleAt a0 b0 b).2 else 0) := by
  obtain ⟨hR, hC, hS, hAR, hAI⟩ := pixelEnter_tables L r a0 b0 s
  obtain ⟨-, -, -, gAR, gAI⟩ := nLoop_spec H r r2 f L _ hR (L + 1) (le_refl _)
  by_cases hv : validPair L a b
  · obtain ⟨v1, v2, v3⟩ := hv
    have hv' : a < L + 1 ∧ b ≤ a ∧ (a - b) % 2 = 0 := ⟨by omega, v2, v3⟩
    rw [if_pos ⟨v1, v2, v3⟩, if_pos ⟨v1, v2, v3⟩]
    constructor
    · rw [gAR a b, if_pos hv', hAR, hC b (by omega)]
    · rw [gAI a b, if_pos hv', hAI, hS b (by omega)]
  · have hv' : ¬ (a < L + 1 ∧ b ≤ a ∧ (a - b) % 2 = 0) := by
      intro h; exact hv ⟨by omega, h.2.1, h.2.2⟩
    rw [if_neg hv, if_neg hv]
    constructor
    · rw [gAR a b, if_neg hv', hAR]
    · rw [gAI a b, if_neg hv', hAI]

/-- What one execution of the body of the pixel loop does to the accumulators. -/
theorem pixelStep_spec (sqrt : K → K) (H : Statics K) (I : ImageMatrix K) (L : Nat)
    (rad sum cx cy : K) (i j : Nat) (s : Locals K) (a b : Nat) :
    (pixelStep sqrt H I L rad sum cx cy i j s).AR a b = s.AR a b +
      (if validPair L a b then pixelTermR sqrt H I rad sum cx cy i j a b else 0) ∧
    (pixelStep sqrt H I L rad sum cx cy i j s).AI a b = s.AI a b -
      (if validPair L a b then pixelTermI sqrt H I rad sum cx cy i j a b else 0) := by
  unfold pixelStep pixelTermR pixelTermI
  simp only
  by_cases hskip : sqrt ((((i : K) + 1 - cx) / rad) * (((i : K) + 1 - cx) / rad)
        + (((j : K) + 1 - cy) / rad) * (((j : K) + 1 - cy) / rad)) < (DBL_EPSILON : K) ∨
      sqrt ((((i : K) + 1 - cx) / rad) * (((i : K) + 1 - cx) / rad)
        + (((j : K) + 1 - cy) / rad) * (((j : K) + 1 - cy) / rad)) > 1
  · simp only [if_pos hskip, ite_self, add_zero, sub_zero, and_self]
  · simp only [if_neg hskip]
    exact pixelBody_spec H L _ _ _ _ _ s a b

/-- The accumulators after the pixel loop: each cell has gained the sum of the
contributions of all pixels. -/
theorem pixelLoop_spec (sqrt : K → K) (H : Statics K) (I : ImageMatrix K) (L : Nat)
    (rad sum cx cy : K) (s : Locals K) (a b : Nat) :
    (pixelLoop sqrt H I L rad sum cx cy s).AR a b = s.AR a b +
      (if validPair L a b then ∑ i in Finset.range I.width, ∑ j in Finset.range I.height,
        pixelTermR sqrt H I rad sum cx cy i j a b else 0) ∧
    (pixelLoop sqrt H I L rad sum cx cy s).AI a b = s.AI a b -
      (if validPair L a b then ∑ i in Finset.range I.width, ∑ j in Finset.range I.height,
        pixelTermI sqrt H I rad sum cx cy i j a b else 0) := by
  have row : ∀ (i h : Nat) (s : Locals K),
      ((List.range h).foldl (fun s j => pixelStep sqrt H I L rad sum cx cy i j s) s).AR a b
        = s.AR a b + (if validPair L a b then ∑ j in Finset.range h,
            pixelTermR sqrt H I rad sum cx cy i j a b else 0) ∧
      ((List.range h).foldl (fun s j => pixelStep sqrt H I L rad sum cx cy i j s) s).AI a b
        = s.AI a b - (if validPair L a b then ∑ j in Finset.range h,
            pixelTermI sqrt H I rad sum cx cy i j a b else 0) := by
    intro i h s
    induction h with
    | zero => simp
    | succ h ih =>
      rw [List.range_succ, List.foldl_append]
      simp only [List.foldl_cons, List.foldl_nil]
      obtain ⟨p1, p2⟩ := pixelStep_spec sqrt H I L rad sum cx cy i h
        ((List.range h).foldl (fun s j => pixelStep sqrt H I L rad sum cx cy i j s) s) a b
      rw [p1, p2, ih.1, ih.2, Finset.sum_range_succ, Finset.sum_range_succ]
      by_cases hv : validPair L a b
      · simp only [if_pos hv]; constructor <;> ring
      · simp only [if_neg hv]; constructor <;> ring
  have cols : ∀ (w : Nat) (s : Locals K),
      ((List.range w).foldl (fun s i => (List.range I.height).foldl
          (fun s j => pixelStep sqrt H I L rad sum cx cy i j s) s) s).AR a b
        = s.AR a b + (if validPair L a b then ∑ i in Finset.range w,
            ∑ j in Finset.range I.height, pixelTermR sqrt H I rad sum cx cy i j a b else 0) ∧
      ((List.range w).foldl (fun s i => (List.range I.height).foldl
          (fun s j => pixelStep sqrt H I L rad sum cx cy i j s) s) s).AI a b
        = s.AI a b - (if validPair L a b then ∑ i in Finset.range w,
            ∑ j in Finset.range I.height, pixelTermI sqrt H I rad sum cx cy i j a b else 0) := by
    intro w s
    induction w with
    | zero => simp
    | succ w ih =>
      rw [List.range_succ, List.foldl_append]
      simp only [List.foldl_cons, List.foldl_nil]
      obtain ⟨p1, p2⟩ := row w I.height
        ((List.range w).foldl (fun s i => (List.range I.height).foldl
          (fun s j => pixelStep sqrt H I L rad sum cx cy i j s) s) s)
      rw [p1, p2, ih.1, ih.2, Finset.sum_range_succ, Finset.sum_range_succ]
      by_cases hv : validPair L a b
      · simp only [if_pos hv]; constructor <;> ring
      · simp only [if_neg hv]; constructor <;> ring
  exact cols I.width s

end PixelLoop

/-! ## The magnitude loop in closed form -/

theorem emit_append {K : Type} (xs ys : List K) (z : Nat → K) (k : Nat) :
    emit (xs ++ ys) z k = emit ys (emit xs z k).1 (emit xs z k).2 := by
  simp [emit, List.foldl_append]

theorem emit_cons {K : Type} (x : K) (xs : List K) (z : Nat → K) (k : Nat) :
    emit (x :: xs) z k = emit xs (set1 z k x) (k + 1) := rfl

theorem emit_nil {K : Type} (z : Nat → K) (k : Nat) : emit ([] : List K) z k = (z, k) := rfl

section Magnitudes

variable {K : Type} [LinearOrderedField K]

/-- One row of the magnitude loop. -/
theorem extractRow_spec (sqrt : K → K) (n : Nat) (l : List Nat) (hl : l.Nodup) (e : Extract K) :
    (((l.foldl (fun s m => extractStep sqrt n m s) e).zvalues,
      (l.foldl (fun s m => extractStep sqrt n m s) e).numZ)
      = emit ((l.filter (fun m => (n - m) % 2 = 0)).map (fun m => magnitude sqrt e.AR e.AI n m))
          e.zvalues e.numZ) ∧
    (∀ a b, (a ≠ n ∨ b ∉ l) →
      (l.foldl (fun s m => extractStep sqrt n m s) e).AR a b = e.AR a b ∧
      (l.foldl (fun s m => extractStep sqrt n m s) e).AI a b = e.AI a b) := by
  induction l generalizing e with
  | nil => exact ⟨rfl, fun _ _ _ => ⟨rfl, rfl⟩⟩
  | cons m l ih =>
    obtain ⟨hm, hl'⟩ := List.nodup_cons.mp hl
    obtain ⟨ih1, ih2⟩ := ih hl' (extractStep sqrt n m e)
    have hstep : ∀ a b, (a ≠ n ∨ b ≠ m) →
        (extractStep sqrt n m e).AR a b = e.AR a b ∧ (extractStep sqrt n m e).AI a b = e.AI a b := by
      intro a b hab
      have : ¬ (a = n ∧ b = m) := by tauto
      unfold extractStep
      split_ifs <;> simp [set2, this]
    have hmag : ∀ m' ∈ l.filter (fun m => (n - m) % 2 = 0),
        magnitude sqrt (extractStep sqrt n m e).AR (extractStep sqrt n m e).AI n m'
          = magnitude sqrt e.AR e.AI n m' := by
      intro m' hm'
      have hne : m' ≠ m := by
        rintro rfl
        exact hm (List.mem_of_mem_filter hm')
      obtain ⟨h1, h2⟩ := hstep n m' (Or.inr hne)
      unfold magnitude
      rw [h1, h2]
    constructor
    · rw [List.foldl_cons, ih1, List.map_congr_left hmag]
      by_cases hp : (n - m) % 2 = 0
      · rw [List.filter_cons_of_pos (by simpa using hp), List.map_cons, emit_cons]
        simp [extractStep, hp, magnitude, set2]
        rfl
      · rw [List.filter_cons_of_neg (by simpa using hp)]
        simp [extractStep, hp]
    · intro a b hab
      rw [List.foldl_cons]
      have hab' : a ≠ n ∨ b ∉ l := by
        rcases hab with h | h
        · exact Or.inl h
        · exact Or.inr (fun hb => h (List.mem_cons_of_mem _ hb))
      have hab'' : a ≠ n ∨ b ≠ m := by
        rcases hab with h | h
        · exact Or.inl h
        · exact Or.inr (fun hb => h (by rw [hb]; exact List.mem_cons_self _ _))
      obtain ⟨h1, h2⟩ := ih2 a b hab'
      obtain ⟨h3, h4⟩ := hstep a b hab''
      exact ⟨by rw [h1, h3], by rw [h2, h4]⟩

/-- The magnitude loop over the rows `0 .. N-1`. -/
theorem extractLoop_spec (sqrt : K → K) (AR AI : Nat → Nat → K) (zv : Nat → K) (N : Nat) :
    let t := (List.range N).foldl
      (fun s n => (List.range (n + 1)).foldl (fun s m => extractStep sqrt n m s) s)
      ({ AR := AR, AI := AI, zvalues := zv, numZ := 0 } : Extract K)
    (t.zvalues, t.numZ)
      = emit (((List.range N).flatMap (fun n => (rowPairs n).map (fun m => (n, m)))).map
          (fun p => magnitude sqrt AR AI p.1 p.2)) zv 0 ∧
    (∀ a b, N ≤ a → t.AR a b = AR a b ∧ t.AI a b = AI a b) := by
  induction N with
  | zero => intro t; exact ⟨rfl, fun _ _ _ => ⟨rfl, rfl⟩⟩
  | succ N ih =>
    intro t
    have ht : t = (List.range (N + 1)).foldl (fun s m => extractStep sqrt N m s)
        ((List.range N).foldl
          (fun s n => (List.range (n + 1)).foldl (fun s m => extractStep sqrt n m s) s)
          ({ AR := AR, AI := AI, zvalues := zv, numZ := 0 } : Extract K)) := by
      simp only [t, List.range_succ, List.foldl_append, List.foldl_cons, List.foldl_nil]
    clear_value t
    generalize (List.range N).foldl
          (fun s n => (List.range (n + 1)).foldl (fun s m => extractStep sqrt n m s) s)
          ({ AR := AR, AI := AI, zvalues := zv, numZ := 0 } : Extract K) = u at ih ht
    obtain ⟨ih1, ih2⟩ := ih
    obtain ⟨r1, r2⟩ := extractRow_spec sqrt N (List.range (N + 1)) (List.nodup_range _) u
    rw [← ht] at r1 r2
    constructor
    · have hsplit : ((List.range (N + 1)).flatMap (fun n => (rowPairs n).map (fun m => (n, m)))).map
            (fun p => magnitude sqrt AR AI p.1 p.2)
          = ((List.range N).flatMap (fun n => (rowPairs n).map (fun m => (n, m)))).map
              (fun p => magnitude sqrt AR AI p.1 p.2)
            ++ (rowPairs N).map (fun m => magnitude sqrt AR AI N m) := by
        rw [List.range_succ, List.flatMap_append, List.map_append]
        simp [List.map_map, Function.comp_def]
      have hrow : ∀ m ∈ rowPairs N, magnitude sqrt u.AR u.AI N m = magnitude sqrt AR AI N m := by
        intro m _
        obtain ⟨h1, h2⟩ := ih2 N m (le_refl _)
        simp only [magnitude, h1, h2]
      rw [r1, hsplit, emit_append, ← ih1, ← List.map_congr_left hrow]
      rfl
    · intro a b hab
      obtain ⟨h1, h2⟩ := r2 a b (Or.inl (by omega))
      obtain ⟨h3, h4⟩ := ih2 a b (by omega)
      exact ⟨by rw [h1, h3], by rw [h2, h4]⟩

/-- The magnitude loop writes the magnitudes of the valid cells, in the order
of `validPairs`, from index 0 on. -/
theorem extract_spec (sqrt : K → K) (L : Nat) (AR AI : Nat → Nat → K) (zv : Nat → K) :
    ((extract sqrt L AR AI zv).zvalues, (extract sqrt L AR AI zv).numZ)
      = emit ((validPairs L).map (fun p => magnitude sqrt AR AI p.1 p.2)) zv 0 :=
  (extractLoop_spec sqrt AR AI zv (L + 1)).1

theorem mem_validPairs (L : Nat) (p : Nat × Nat) :
    p ∈ validPairs L ↔ validPair L p.1 p.2 := by
  obtain ⟨n, m⟩ := p
  simp only [validPairs, rowPairs, List.mem_flatMap, List.mem_range, List.mem_map,
    List.mem_filter, Prod.mk.injEq, decide_eq_true_eq, validPair]
  constructor
  · rintro ⟨a, ha, b, ⟨hb1, hb2⟩, rfl, rfl⟩
    exact ⟨by omega, by omega, hb2⟩
  · rintro ⟨h1, h2, h3⟩
    exact ⟨n, by omega, m, ⟨by omega, h3⟩, rfl, rfl⟩

/-- The output of the magnitude loop depends on the accumulators only through
the magnitudes of the valid cells. -/
theorem extract_congr (sqrt : K → K) (L : Nat) (AR AI AR' AI' : Nat → Nat → K) (zv : Nat → K)
    (h : ∀ n m, validPair L n m → magnitude sqrt AR AI n m = magnitude sqrt AR' AI' n m) :
    (extract sqrt L AR AI zv).zvalues = (extract sqrt L AR' AI' zv).zvalues ∧
    (extract sqrt L AR AI zv).numZ = (extract sqrt L AR' AI' zv).numZ := by
  have e1 := extract_spec sqrt L AR AI zv
  have e2 := extract_spec sqrt L AR' AI' zv
  have : (validPairs L).map (fun p => magnitude sqrt AR AI p.1 p.2)
      = (validPairs L).map (fun p => magnitude sqrt AR' AI' p.1 p.2) :=
    List.map_congr_left (fun p hp => h p.1 p.2 ((mem_validPairs L p).mp hp))
  rw [this, ← e2] at e1
  exact ⟨congrArg Prod.fst e1, congrArg Prod.snd e1⟩

/-- The zeroing loop clears every cell with `0 ≤ m ≤ n ≤ L` and no other. -/
theorem zeroAccumulators_spec (L : Nat) (s : Locals K) (a b : Nat) :
    (zeroAccumulators L s).AR a b = (if a ≤ L ∧ b ≤ a then 0 else s.AR a b) ∧
    (zeroAccumulators L s).AI a b = (if a ≤ L ∧ b ≤ a then 0 else s.AI a b) := by
  have row : ∀ (n M : Nat) (s : Locals K),
      ((List.range M).foldl
        (fun s m => { s with AR := set2 s.AR n m 0, AI := set2 s.AI n m 0 }) s).AR a b
        = (if a = n ∧ b < M then 0 else s.AR a b) ∧
      ((List.range M).foldl
        (fun s m => { s with AR := set2 s.AR n m 0, AI := set2 s.AI n m 0 }) s).AI a b
        = (if a = n ∧ b < M then 0 else s.AI a b) := by
    intro n M s
    induction M with
    | zero => simp
    | succ M ih =>
      rw [List.range_succ, List.foldl_append]
      simp only [List.foldl_cons, List.foldl_nil, set2]
      rw [ih.1, ih.2]
      by_cases h1 : a = n ∧ b = M
      · have h2 : a = n ∧ b < M + 1 := by omega
        simp [h1, h2]
      · by_cases h3 : a = n ∧ b < M
        · have h2 : a = n ∧ b < M + 1 := by omega
          simp [h1, h2, h3]
        · have h2 : ¬ (a = n ∧ b < M + 1) := by omega
          simp [h1, h2, h3]
  have rows : ∀ (N : Nat),
      ((List.range N).foldl (fun s n => (List.range (n + 1)).foldl
        (fun s m => { s with AR := set2 s.AR n m 0, AI := set2 s.AI n m 0 }) s) s).AR a b
        = (if a < N ∧ b ≤ a then 0 else s.AR a b) ∧
      ((List.range N).foldl (fun s n => (List.range (n + 1)).foldl
        (fun s m => { s with AR := set2 s.AR n m 0, AI := set2 s.AI n m 0 }) s) s).AI a b
        = (if a < N ∧ b ≤ a then 0 else s.AI a b) := by
    intro N
    induction N with
    | zero => simp
    | succ N ih =>
      rw [List.range_succ, List.foldl_append]
      simp only [List.foldl_cons, List.foldl_nil]
      rw [(row N (N + 1) _).1, (row N (N + 1) _).2, ih.1, ih.2]
      by_cases h1 : a = N ∧ b < N + 1
      · have h2 : a < N + 1 ∧ b ≤ a := by omega
        simp only [if_pos h1, if_pos h2, and_self]
      · by_cases h3 : a < N ∧ b ≤ a
        · have h2 : a < N + 1 ∧ b ≤ a := by omega
          simp only [if_neg h1, if_pos h2, if_pos h3, and_self]
        · have h2 : ¬ (a < N + 1 ∧ b ≤ a) := by omega
          simp only [if_neg h1, if_neg h2, if_neg h3, and_self]
  have := rows (L + 1)
  simp only [Nat.lt_succ_iff] at this
  exact this

/-- The accumulators at the end of the pixel loop, on the valid cells. -/
theorem accumulators_spec (sqrt : K → K) (H : Statics K) (stk : Locals K) (I : ImageMatrix K)
    (L : Nat) (rad : K) (n m : Nat) (hv : validPair L n m) :
    (pixelLoop sqrt H I L rad (moments I).sum ((moments I).moment10 / (moments I).moment00)
      ((moments I).moment01 / (moments I).moment00) (zeroAccumulators L stk)).AR n m
      = accumR sqrt H I rad n m ∧
    (pixelLoop sqrt H I L rad (moments I).sum ((moments I).moment10 / (moments I).moment00)
      ((moments I).moment01 / (moments I).moment00) (zeroAccumulators L stk)).AI n m
      = - accumI sqrt H I rad n m := by
  obtain ⟨p1, p2⟩ := pixelLoop_spec sqrt H I L rad (moments I).sum
    ((moments I).moment10 / (moments I).moment00) ((moments I).moment01 / (moments I).moment00)
    (zeroAccumulators L stk) n m
  obtain ⟨z1, z2⟩ := zeroAccumulators_spec L stk n m
  have hz : n ≤ L ∧ m ≤ n := ⟨hv.1, hv.2.1⟩
  rw [p1, p2, z1, z2, if_pos hz, if_pos hv, if_pos hz, if_pos hv]
  constructor
  · rw [zero_add]; rfl
  · rw [zero_sub]; rfl

/-- What a call that passes the assertion returns: the initialised statics,
and the magnitudes of the valid cells written in the order of `validPairs`
from index 0 of the buffer on. -/
theorem mb_zernike2D_spec [FloorRing K] (sqrt : K → K) (st : Statics K) (stk : Locals K)
    (I : ImageMatrix K) (order rad : K) (zv : Nat → K) (h : effectiveOrder order < MAX_L) :
    ∃ o, mb_zernike2D sqrt st stk I order rad zv = Except.ok o ∧
      o.statics = initStatics st ∧
      (o.zvalues, o.output_size) = emit ((validPairs (effectiveOrder order)).map
        (fun p => zernikeMagnitude sqrt (initStatics st) I (effectiveRadius I rad) p.1 p.2))
        zv 0 := by
  refine ⟨_, by simp only [mb_zernike2D, if_pos h]; rfl, rfl, ?_⟩
  simp only
  rw [extract_spec]
  congr 1
  apply List.map_congr_left
  intro p hp
  obtain ⟨a1, a2⟩ := accumulators_spec sqrt (initStatics st) stk I (effectiveOrder order)
    (effectiveRadius I rad) p.1 p.2 ((mem_validPairs _ p).mp hp)
  simp only [magnitude, zernikeMagnitude, a1, a2, neg_mul_neg]

end Magnitudes

end Zernike

/-! ## The centroid scan in closed form, and the quarter turn -/

namespace Zernike

section QuarterTurn

variable {K : Type} [LinearOrderedField K]

/-- The centroid scan in closed form. -/
theorem moments_spec (I : ImageMatrix K) :
    (moments I).sum = ∑ i in Finset.range I.width, ∑ j in Finset.range I.height, I.pixel i j ∧
    (moments I).moment00
      = ∑ i in Finset.range I.width, ∑ j in Finset.range I.height, I.pixel i j ∧
    (moments I).moment10
      = ∑ i in Finset.range I.width, ∑ j in Finset.range I.height, ((i : K) + 1) * I.pixel i j ∧
    (moments I).moment01
      = ∑ i in Finset.range I.width, ∑ j in Finset.range I.height, ((j : K) + 1) * I.pixel i j := by
  have row : ∀ (i h : Nat) (s : Moments K),
      (List.range h).foldl (fun s j => momentStep I i j s) s
        = { sum := s.sum + ∑ j in Finset.range h, I.pixel i j
            moment10 := s.moment10 + ∑ j in Finset.range h, ((i : K) + 1) * I.pixel i j
            moment00 := s.moment00 + ∑ j in Finset.range h, I.pixel i j
            moment01 := s.moment01 + ∑ j in Finset.range h, ((j : K) + 1) * I.pixel i j } := by
    intro i h s
    induction h with
    | zero => simp
    | succ h ih =>
      rw [List.range_succ, List.foldl_append, ih]
      simp only [List.foldl_cons, List.foldl_nil, momentStep, Finset.sum_range_succ, add_assoc]
  have cols : ∀ (w : Nat),
      (List.range w).foldl
        (fun s i => (List.range I.height).foldl (fun s j => momentStep I i j s) s)
        ({ sum := 0, moment10 := 0, moment00 := 0, moment01 := 0 } : Moments K)
        = { sum := ∑ i in Finset.range w, ∑ j in Finset.range I.height, I.pixel i j
            moment10 := ∑ i in Finset.range w, ∑ j in Finset.range I.height,
              ((i : K) + 1) * I.pixel i j
            moment00 := ∑ i in Finset.range w, ∑ j in Finset.range I.height, I.pixel i j
            moment01 := ∑ i in Finset.range w, ∑ j in Finset.range I.height,
              ((j : K) + 1) * I.pixel i j } := by
    intro w
    induction w with
    | zero => simp
    | succ w ih =>
      rw [List.range_succ, List.foldl_append, ih]
      simp only [List.foldl_cons, List.foldl_nil, row, Finset.sum_range_succ]
  unfold moments
  rw [cols]
  exact ⟨rfl, rfl, rfl, rfl⟩

/-- Summing over the pixels of the turned image is summing over the pixels of
the image. -/
theorem sum_quarterTurn (w h : Nat) (g : Nat → Nat → K) :
    ∑ i' in Finset.range h, ∑ j' in Finset.range w, g j' (h - 1 - i')
      = ∑ i in Finset.range w, ∑ j in Finset.range h, g i j := by
  rw [Finset.sum_comm]
  apply Finset.sum_congr rfl
  intro i _
  exact Finset.sum_range_reflect (fun j => g i j) h

theorem moments_quarterTurn (I : ImageMatrix K) :
    (moments (quarterTurn I)).sum = (moments I).sum ∧
    (moments (quarterTurn I)).moment00 = (moments I).moment00 ∧
    (moments (quarterTurn I)).moment10
      = ((I.height : K) + 1) * (moments I).moment00 - (moments I).moment01 ∧
    (moments (quarterTurn I)).moment01 = (moments I).moment10 := by
  obtain ⟨a1, a2, a3, a4⟩ := moments_spec I
  obtain ⟨b1, b2, b3, b4⟩ := moments_spec (quarterTurn I)
  have hw : (quarterTurn I).width = I.height := rfl
  have hh : (quarterTurn I).height = I.width := rfl
  have hp : ∀ i j, (quarterTurn I).pixel i j = I.pixel j (I.height - 1 - i) := fun _ _ => rfl
  simp only [hw, hh, hp] at b1 b2 b3 b4
  refine ⟨?_, ?_, ?_, ?_⟩
  · rw [b1, a1]
    exact sum_quarterTurn I.width I.height (fun i j => I.pixel i j)
  · rw [b2, a2]
    exact sum_quarterTurn I.width I.height (fun i j => I.pixel i j)
  · rw [b3, a2, a4, Finset.mul_sum, ← Finset.sum_sub_distrib]
    have : ∑ i' in Finset.range I.height, ∑ j' in Finset.range I.width,
          ((i' : K) + 1) * I.pixel j' (I.height - 1 - i')
        = ∑ i' in Finset.range I.height, ∑ j' in Finset.range I.width,
          (((I.height : K) + 1) - (((I.height - 1 - i' : Nat) : K) + 1))
            * I.pixel j' (I.height - 1 - i') := by
      apply Finset.sum_congr rfl
      intro i' hi'
      apply Finset.sum_congr rfl
      intro j' _
      have hi : i' < I.height := Finset.mem_range.mp hi'
      have : ((I.height - 1 - i' : Nat) : K) = (I.height : K) - 1 - (i' : K) := by
        rw [Nat.sub_sub, Nat.cast_sub (by omega)]
        push_cast
        ring
      rw [this]
      ring
    rw [this, sum_quarterTurn I.width I.height
      (fun i j => (((I.height : K) + 1) - ((j : K) + 1)) * I.pixel i j)]
    apply Finset.sum_congr rfl
    intro i _
    rw [Finset.mul_sum, ← Finset.sum_sub_distrib]
    apply Finset.sum_congr rfl
    intro j _
    ring
  · rw [b4, a3]
    exact sum_quarterTurn I.width I.height (fun i j => ((i : K) + 1) * I.pixel i j)

end QuarterTurn

end Zernike

/-! ## Rotation by a quarter turn -/

namespace Zernike

theorem emit_spec {K : Type} (vals : List K) (z : Nat → K) (k0 : Nat) :
    (emit vals z k0).2 = k0 + vals.length ∧
    (∀ k, k0 ≤ k → k < k0 + vals.length → vals[k - k0]? = some ((emit vals z k0).1 k)) ∧
    (∀ k, (k < k0 ∨ k0 + vals.length ≤ k) → (emit vals z k0).1 k = z k) := by
  induction vals generalizing z k0 with
  | nil =>
    refine ⟨rfl, ?_, fun _ _ => rfl⟩
    intro k h1 h2
    simp at h2
    omega
  | cons v vs ih =>
    obtain ⟨i1, i2, i3⟩ := ih (set1 z k0 v) (k0 + 1)
    rw [emit_cons]
    refine ⟨by rw [i1, List.length_cons]; omega, ?_, ?_⟩
    · intro k h1 h2
      rw [List.length_cons] at h2
      by_cases hk : k = k0
      · subst hk
        rw [i3 k (Or.inl (by omega))]
        simp [set1]
      · have := i2 k (by omega) (by omega)
        rw [← this]
        have e : k - k0 = (k - (k0 + 1)) + 1 := by omega
        rw [e, List.getElem?_cons_succ]
    · intro k hk
      rw [List.length_cons] at hk
      rw [i3 k (by omega)]
      have : k ≠ k0 := by omega
      simp [set1, this]

section Rotation

variable {K : Type} [LinearOrderedField K]

theorem angleAt_quarter (a b : K) (m : Nat) :
    (angleAt (-b) a m).1
      = (quarter m).1 * (angleAt a b m).1 - (quarter m).2 * (angleAt a b m).2 ∧
    (angleAt (-b) a m).2
      = (quarter m).2 * (angleAt a b m).1 + (quarter m).1 * (angleAt a b m).2 := by
  induction m with
  | zero => simp [angleAt, quarter]
  | succ m ih =>
    obtain ⟨h1, h2⟩ := ih
    simp only [angleAt, quarter, h1, h2]
    constructor <;> ring

theorem quarter_norm (m : Nat) :
    (quarter m).1 * (quarter m).1 + (quarter m).2 * (quarter m).2 = (1 : K) := by
  induction m with
  | zero => simp [quarter]
  | succ m ih =>
    simp only [quarter]
    linear_combination ih

/-- The contribution of a pixel of the turned image is the contribution of the
pixel it comes from, rotated by `quarter m`. -/
theorem pixelTerm_quarterTurn (sqrt : K → K) (H : Statics K) (I : ImageMatrix K)
    (rad S cx cy : K) (i j n m : Nat) (hj : j < I.height) :
    pixelTermR sqrt H (quarterTurn I) rad S (((I.height : K) + 1) - cy) cx
        (I.height - 1 - j) i n m
      = (quarter m).1 * pixelTermR sqrt H I rad S cx cy i j n m
        - (quarter m).2 * pixelTermI sqrt H I rad S cx cy i j n m ∧
    pixelTermI sqrt H (quarterTurn I) rad S (((I.height : K) + 1) - cy) cx
        (I.height - 1 - j) i n m
      = (quarter m).2 * pixelTermR sqrt H I rad S cx cy i j n m
        + (quarter m).1 * pixelTermI sqrt H I rad S cx cy i j n m := by
  have hcast : ((I.height - 1 - j : Nat) : K) = (I.height : K) - 1 - (j : K) := by
    rw [Nat.sub_sub, Nat.cast_sub (by omega)]
    push_cast
    ring
  have hx : (((I.height - 1 - j : Nat) : K) + 1 - (((I.height : K) + 1) - cy)) / rad
      = -(((j : K) + 1 - cy) / rad) := by
    rw [hcast]; ring
  have hpix : (quarterTurn I).pixel (I.height - 1 - j) i = I.pixel i j := by
    show I.pixel i (I.height - 1 - (I.height - 1 - j)) = I.pixel i j
    congr 1
    omega
  have hr2 : -(((j : K) + 1 - cy) / rad) * -(((j : K) + 1 - cy) / rad)
        + (((i : K) + 1 - cx) / rad) * (((i : K) + 1 - cx) / rad)
      = (((i : K) + 1 - cx) / rad) * (((i : K) + 1 - cx) / rad)
        + (((j : K) + 1 - cy) / rad) * (((j : K) + 1 - cy) / rad) := by ring
  unfold pixelTermR pixelTermI
  simp only [hx, hpix, hr2, neg_div]
  split_ifs with hskip
  · simp
  · obtain ⟨q1, q2⟩ := angleAt_quarter
      ((((i : K) + 1 - cx) / rad) / sqrt ((((i : K) + 1 - cx) / rad) * (((i : K) + 1 - cx) / rad)
        + (((j : K) + 1 - cy) / rad) * (((j : K) + 1 - cy) / rad)))
      ((((j : K) + 1 - cy) / rad) / sqrt ((((i : K) + 1 - cx) / rad) * (((i : K) + 1 - cx) / rad)
        + (((j : K) + 1 - cy) / rad) * (((j : K) + 1 - cy) / rad))) m
    rw [q1, q2]
    constructor <;> ring

theorem sum_pixels_quarterTurn (w h : Nat) (T : Nat → Nat → K) :
    ∑ i' in Finset.range h, ∑ j' in Finset.range w, T i' j'
      = ∑ i in Finset.range w, ∑ j in Finset.range h, T (h - 1 - j) i := by
  rw [← sum_quarterTurn w h (fun i j => T (h - 1 - j) i)]
  apply Finset.sum_congr rfl
  intro i' hi'
  have hi : i' < h := Finset.mem_range.mp hi'
  have : h - 1 - (h - 1 - i') = i' := by omega
  simp only [this]

/-- The accumulators of the turned image are those of the image, rotated by
`quarter m`. -/
theorem accum_quarterTurn (sqrt : K → K) (H : Statics K) (I : ImageMatrix K) (rad : K)
    (n m : Nat) (hS : (moments I).moment00 ≠ 0) :
    accumR sqrt H (quarterTurn I) rad n m
      = (quarter m).1 * accumR sqrt H I rad n m - (quarter m).2 * accumI sqrt H I rad n m ∧
    accumI sqrt H (quarterTurn I) rad n m
      = (quarter m).2 * accumR sqrt H I rad n m + (quarter m).1 * accumI sqrt H I rad n m := by
  obtain ⟨m1, m2, m3, m4⟩ := moments_quarterTurn I
  have hcx : (moments (quarterTurn I)).moment10 / (moments (quarterTurn I)).moment00
      = ((I.height : K) + 1) - (moments I).moment01 / (moments I).moment00 := by
    rw [m2, m3]; field_simp
  have hcy : (moments (quarterTurn I)).moment01 / (moments (quarterTurn I)).moment00
      = (moments I).moment10 / (moments I).moment00 := by
    rw [m2, m4]
  have hw : (quarterTurn I).width = I.height := rfl
  have hh : (quarterTurn I).height = I.width := rfl
  have eR := sum_pixels_quarterTurn I.width I.height (fun i' j' =>
    pixelTermR sqrt H (quarterTurn I) rad (moments I).sum
      (((I.height : K) + 1) - (moments I).moment01 / (moments I).moment00)
      ((moments I).moment10 / (moments I).moment00) i' j' n m)
  have eI := sum_pixels_quarterTurn I.width I.height (fun i' j' =>
    pixelTermI sqrt H (quarterTurn I) rad (moments I).sum
      (((I.height : K) + 1) - (moments I).moment01 / (moments I).moment00)
      ((moments I).moment10 / (moments I).moment00) i' j' n m)
  unfold accumR accumI
  rw [m1, hcx, hcy, hw, hh]
  refine ⟨eR.trans ?_, eI.trans ?_⟩
  · rw [Finset.mul_sum, Finset.mul_sum, ← Finset.sum_sub_distrib]
    apply Finset.sum_congr rfl
    intro i _
    rw [Finset.mul_sum, Finset.mul_sum, ← Finset.sum_sub_distrib]
    apply Finset.sum_congr rfl
    intro j hj
    exact (pixelTerm_quarterTurn sqrt H I rad _ _ _ i j n m (Finset.mem_range.mp hj)).1
  · rw [Finset.mul_sum, Finset.mul_sum, ← Finset.sum_add_distrib]
    apply Finset.sum_congr rfl
    intro i _
    rw [Finset.mul_sum, Finset.mul_sum, ← Finset.sum_add_distrib]
    apply Finset.sum_congr rfl
    intro j hj
    exact (pixelTerm_quarterTurn sqrt H I rad _ _ _ i j n m (Finset.mem_range.mp hj)).2

theorem zernikeMagnitude_quarterTurn (sqrt : K → K) (H : Statics K) (I : ImageMatrix K)
    (rad : K) (n m : Nat) (hS : (moments I).moment00 ≠ 0) :
    zernikeMagnitude sqrt H (quarterTurn I) rad n m = zernikeMagnitude sqrt H I rad n m := by
  obtain ⟨h1, h2⟩ := accum_quarterTurn sqrt H I rad n m hS
  unfold zernikeMagnitude
  rw [h1, h2]
  congr 2
  linear_combination (accumR sqrt H I rad n m * accumR sqrt H I rad n m
    + accumI sqrt H I rad n m * accumI sqrt H I rad n m) * quarter_norm (K := K) m

theorem effectiveRadius_quarterTurn (I : ImageMatrix K) (rad : K) :
    effectiveRadius (quarterTurn I) rad = effectiveRadius I rad := by
  have : smallerSide (quarterTurn I) = smallerSide I := by
    unfold smallerSide quarterTurn
    simp only
    split_ifs <;> omega
  unfold effectiveRadius
  rw [this]

/-- Once `init` is cleared the initialiser does nothing. -/
theorem initStatics_idem (s : Statics K) (h : s.init = false) : initStatics s = s := by
  unfold initStatics
  simp [h]

/-- C9: for every image with non-zero total intensity, every accepted order
and every radius (in particular every `rad > 0`), the call on the image turned
by a quarter turn reports the same count and writes the same magnitude at every
output position as the call on the image itself, in exact arithmetic and
whatever the uninitialised locals and the two buffers hold; the two calls may
start from the same statics or follow one another, as long as they work with
the same tables. -/
theorem quarterTurn_invariance [FloorRing K] (sqrt : K → K) (st st' : Statics K)
    (stk stk' : Locals K) (I : ImageMatrix K) (order rad : K) (zv zv' : Nat → K)
    (hst : initStatics st' = initStatics st)
    (hS : (moments I).moment00 ≠ 0) (hL : effectiveOrder order < MAX_L) :
    ∃ o o', mb_zernike2D sqrt st stk I order rad zv = Except.ok o ∧
      mb_zernike2D sqrt st' stk' (quarterTurn I) order rad zv' = Except.ok o' ∧
      o'.output_size = o.output_size ∧
      ∀ k, k < o.output_size → o'.zvalues k = o.zvalues k := by
  obtain ⟨o, ho, -, hz⟩ := mb_zernike2D_spec sqrt st stk I order rad zv hL
  obtain ⟨o', ho', -, hz'⟩ := mb_zernike2D_spec sqrt st' stk' (quarterTurn I) order rad zv' hL
  have hlist : (validPairs (effectiveOrder order)).map
      (fun p => zernikeMagnitude sqrt (initStatics st') (quarterTurn I)
        (effectiveRadius (quarterTurn I) rad) p.1 p.2)
      = (validPairs (effectiveOrder order)).map
      (fun p => zernikeMagnitude sqrt (initStatics st) I (effectiveRadius I rad) p.1 p.2) := by
    apply List.map_congr_left
    intro p _
    rw [hst, effectiveRadius_quarterTurn, zernikeMagnitude_quarterTurn _ _ _ _ _ _ hS]
  rw [hlist] at hz'
  obtain ⟨e1, e2, -⟩ := emit_spec ((validPairs (effectiveOrder order)).map
      (fun p => zernikeMagnitude sqrt (initStatics st) I (effectiveRadius I rad) p.1 p.2)) zv 0
  obtain ⟨e1', e2', -⟩ := emit_spec ((validPairs (effectiveOrder order)).map
      (fun p => zernikeMagnitude sqrt (initStatics st) I (effectiveRadius I rad) p.1 p.2)) zv' 0
  rw [← hz] at e1 e2
  rw [← hz'] at e1' e2'
  simp only at e1 e2 e1' e2'
  refine ⟨o, o', ho, ho', by rw [e1, e1'], ?_⟩
  intro k hk
  have a := e2 k (Nat.zero_le _) (by omega)
  have b := e2' k (Nat.zero_le _) (by omega)
  rw [a] at b
  exact (Option.some.inj b).symm

/-- Witness of C9: the `3 × 2` ramp image and its quarter turn, at order 4 and
radius 2, the second call starting from the statics left by the first. -/
theorem quarterTurn_invariance_witness :
    initStatics (initStatics (Statics.fresh : Statics ℝ)) = initStatics Statics.fresh ∧
    (moments (rampImage 3 2 : ImageMatrix ℝ)).moment00 ≠ 0 ∧ effectiveOrder (4 : ℝ) < MAX_L ∧
    ∃ o o', mb_zernike2D Real.sqrt Statics.fresh Locals.blank (rampImage 3 2) 4 2 zeroBuffer
        = Except.ok o ∧
      mb_zernike2D Real.sqrt (initStatics Statics.fresh) Locals.blank
        (quarterTurn (rampImage 3 2)) 4 2 zeroBuffer = Except.ok o' ∧
      o'.output_size = o.output_size ∧
      ∀ k, k < o.output_size → o'.zvalues k = o.zvalues k :=
  ⟨initStatics_idem _ rfl,
    by rw [(moments_spec _).2.1]; simp [rampImage, Finset.sum_range_succ]; norm_num,
    by simp [effectiveOrder, MAX_L],
    quarterTurn_invariance Real.sqrt Statics.fresh (initStatics Statics.fresh) Locals.blank
      Locals.blank (rampImage 3 2) 4 2 zeroBuffer zeroBuffer (initStatics_idem _ rfl)
      (by rw [(moments_spec _).2.1]; simp [rampImage, Finset.sum_range_succ]; norm_num)
      (by simp [effectiveOrder, MAX_L])⟩

end Rotation

end Zernike

/-! ## The radial recurrence -/

namespace Zernike

theorem nEnter_spec {K : Type} (n : Nat) (s : Locals K) :
    (nEnter n s).Rn = s.R n ∧ (2 ≤ n → (nEnter n s).Rnm2 = s.R (n - 2)) ∧
    (nEnter n s).R = s.R ∧ (nEnter n s).COST = s.COST ∧ (nEnter n s).SINT = s.SINT ∧
    (nEnter n s).AR = s.AR ∧ (nEnter n s).AI = s.AI ∧
    (nEnter n s).Rnmp2 = s.Rnmp2 ∧ (nEnter n s).Rnmp4 = s.Rnmp4 := by
  unfold nEnter
  by_cases h : n ≥ 2
  · simp [h]
  · simp only [if_neg h]
    refine ⟨trivial, fun h' => absurd h' h, trivial, trivial, trivial, trivial, trivial,
      trivial, trivial⟩

theorem repetitions_take (n k : Nat) (hk : 2 * k ≤ n) :
    (repetitions n).take (k + 1) = (List.range (k + 1)).map (fun k => n - 2 * k) := by
  unfold repetitions
  rw [← List.map_take, List.take_range]
  congr 2
  omega

section RadialRecurrence

variable {K : Type} [LinearOrderedField K]

/-- The relation between the three coefficients of lines 99-101 on which the
three-term recurrence rests. -/
theorem coef_core (m p : Nat) (hp : 1 ≤ p) (v : K) :
    ((m : K) + v + 2) * ((m : K) + v + 1)
      = coefH1 (m + 2 * p) m * (v * (v - 1))
        + coefH2 (m + 2 * p) m * (((m : K) + v + 2) * v)
        - coefH3 (m + 2 * p) m * (((m : K) + p + v + 1) * ((p : K) - v)) := by
  unfold coefH1 coefH2 coefH3
  push_cast
  have hp' : (1 : K) ≤ (p : K) := by exact_mod_cast hp
  have hm : (0 : K) ≤ (m : K) := Nat.cast_nonneg m
  have h1 : ((m : K) + 2 * (p : K) + m + 2) ≠ 0 := by positivity
  have h2 : ((m : K) + 2 * (p : K) - m) ≠ 0 := by
    have : (m : K) + 2 * (p : K) - m = 2 * p := by ring
    rw [this]; positivity
  have h3 : ((m : K) + 3) ≠ 0 := by positivity
  field_simp
  ring

theorem radialCoef_ratio1 (m w u : Nat) :
    (radialCoef (m + 4) w u : K) * (((m : K) + u + 4) * ((m : K) + u + 3))
      = radialCoef m w (u + 2) * (((u : K) + 2) * ((u : K) + 1)) := by
  have e1 : m + 4 + 2 * u + w = m + 2 * (u + 2) + w := by ring
  have f1 : m + 4 + u = (m + u + 2) + 1 + 1 := by ring
  have f2 : m + (u + 2) = m + u + 2 := by ring
  unfold radialCoef
  rw [e1, f1, f2]
  simp only [Nat.factorial_succ]
  push_cast
  have h2 : ((m + u + 2).factorial : K) ≠ 0 := by positivity
  have h3 : (u.factorial : K) ≠ 0 := by positivity
  have h4 : (w.factorial : K) ≠ 0 := by positivity
  field_simp
  ring

theorem radialCoef_ratio2 (m w u : Nat) :
    (radialCoef (m + 2) w u : K) * ((m : K) + u + 2)
      = radialCoef m w (u + 1) * ((u : K) + 1) := by
  have e1 : m + 2 + 2 * u + w = m + 2 * (u + 1) + w := by ring
  have f1 : m + 2 + u = (m + u + 1) + 1 := by ring
  have f2 : m + (u + 1) = m + u + 1 := by ring
  unfold radialCoef
  rw [e1, f1, f2]
  simp only [Nat.factorial_succ]
  push_cast
  have h2 : ((m + u + 1).factorial : K) ≠ 0 := by positivity
  have h3 : (u.factorial : K) ≠ 0 := by positivity
  have h4 : (w.factorial : K) ≠ 0 := by positivity
  field_simp
  ring

theorem radialCoef_ratio3 (m w u : Nat) :
    (radialCoef (m + 2) w u : K) * (((m : K) + u + 2) * ((m : K) + u + 1))
      = - (radialCoef m (w + 1) u * (((m : K) + 2 * u + w + 2) * ((w : K) + 1))) := by
  have e1 : m + 2 + 2 * u + w = (m + 2 * u + w + 1) + 1 := by ring
  have e2 : m + 2 * u + (w + 1) = m + 2 * u + w + 1 := by ring
  have f1 : m + 2 + u = (m + u) + 1 + 1 := by ring
  unfold radialCoef
  rw [e1, e2, f1]
  simp only [Nat.factorial_succ, pow_succ]
  push_cast
  have h1 : ((m + 2 * u + w + 1).factorial : K) ≠ 0 := by positivity
  have h2 : ((m + u).factorial : K) ≠ 0 := by positivity
  have h3 : (u.factorial : K) ≠ 0 := by positivity
  have h4 : (w.factorial : K) ≠ 0 := by positivity
  field_simp
  ring

theorem radialCoef_interior (m w u : Nat) :
    (radialCoef m (w + 1) (u + 2) : K)
      = coefH1 (m + 2 * (w + u + 3)) m * radialCoef (m + 4) (w + 1) u
        + coefH2 (m + 2 * (w + u + 3)) m * radialCoef (m + 2) (w + 1) (u + 1)
        + coefH3 (m + 2 * (w + u + 3)) m * radialCoef (m + 2) w (u + 2) := by
  have R1 := radialCoef_ratio1 (K := K) m (w + 1) u
  have R2 := radialCoef_ratio2 (K := K) m (w + 1) (u + 1)
  have R3 := radialCoef_ratio3 (K := K) m w (u + 2)
  have core := coef_core (K := K) m (w + u + 3) (by omega) ((u : K) + 2)
  push_cast at R2 R3 core
  have hD : (((m : K) + u + 4) * ((m : K) + u + 3)) ≠ 0 := by positivity
  have key : ((radialCoef m (w + 1) (u + 2) : K)
      - (coefH1 (m + 2 * (w + u + 3)) m * radialCoef (m + 4) (w + 1) u
        + coefH2 (m + 2 * (w + u + 3)) m * radialCoef (m + 2) (w + 1) (u + 1)
        + coefH3 (m + 2 * (w + u + 3)) m * radialCoef (m + 2) w (u + 2)))
      * (((m : K) + u + 4) * ((m : K) + u + 3)) = 0 := by
    linear_combination (radialCoef m (w + 1) (u + 2) : K) * core
      - coefH1 (m + 2 * (w + u + 3)) m * R1
      - coefH2 (m + 2 * (w + u + 3)) m * ((m : K) + u + 4) * R2
      - coefH3 (m + 2 * (w + u + 3)) m * R3
  rcases mul_eq_zero.mp key with h | h
  · exact sub_eq_zero.mp h
  · exact absurd h hD

theorem radialCoef_first (m w : Nat) :
    (radialCoef m (w + 2) 0 : K)
      = coefH3 (m + 2 * (w + 2)) m * radialCoef (m + 2) (w + 1) 0 := by
  have R3 := radialCoef_ratio3 (K := K) m (w + 1) 0
  have core := coef_core (K := K) m (w + 2) (by omega) 0
  push_cast at R3 core
  have hD : (((m : K) + 2) * ((m : K) + 1)) ≠ 0 := by positivity
  have key : ((radialCoef m (w + 2) 0 : K)
      - coefH3 (m + 2 * (w + 2)) m * radialCoef (m + 2) (w + 1) 0)
      * (((m : K) + 2) * ((m : K) + 1)) = 0 := by
    linear_combination (radialCoef m (w + 2) 0 : K) * core
      - coefH3 (m + 2 * (w + 2)) m * R3
  rcases mul_eq_zero.mp key with h | h
  · exact sub_eq_zero.mp h
  · exact absurd h hD

theorem radialCoef_second (m w : Nat) :
    (radialCoef m (w + 1) 1 : K)
      = coefH2 (m + 2 * (w + 2)) m * radialCoef (m + 2) (w + 1) 0
        + coefH3 (m + 2 * (w + 2)) m * radialCoef (m + 2) w 1 := by
  have R2 := radialCoef_ratio2 (K := K) m (w + 1) 0
  have R3 := radialCoef_ratio3 (K := K) m w 1
  have core := coef_core (K := K) m (w + 2) (by omega) 1
  push_cast at R2 R3 core
  have hD : (((m : K) + 3) * ((m : K) + 2)) ≠ 0 := by positivity
  have key : ((radialCoef m (w + 1) 1 : K)
      - (coefH2 (m + 2 * (w + 2)) m * radialCoef (m + 2) (w + 1) 0
        + coefH3 (m + 2 * (w + 2)) m * radialCoef (m + 2) w 1))
      * (((m : K) + 3) * ((m : K) + 2)) = 0 := by
    linear_combination (radialCoef m (w + 1) 1 : K) * core
      - coefH2 (m + 2 * (w + 2)) m * ((m : K) + 3) * R2
      - coefH3 (m + 2 * (w + 2)) m * R3
  rcases mul_eq_zero.mp key with h | h
  · exact sub_eq_zero.mp h
  · exact absurd h hD

theorem radialCoef_last (m u : Nat) :
    (radialCoef m 0 (u + 2) : K)
      = coefH1 (m + 2 * (u + 2)) m * radialCoef (m + 4) 0 u
        + coefH2 (m + 2 * (u + 2)) m * radialCoef (m + 2) 0 (u + 1) := by
  have R1 := radialCoef_ratio1 (K := K) m 0 u
  have R2 := radialCoef_ratio2 (K := K) m 0 (u + 1)
  have core := coef_core (K := K) m (u + 2) (by omega) ((u : K) + 2)
  push_cast at R2 core
  have hD : (((m : K) + u + 4) * ((m : K) + u + 3)) ≠ 0 := by positivity
  have key : ((radialCoef m 0 (u + 2) : K)
      - (coefH1 (m + 2 * (u + 2)) m * radialCoef (m + 4) 0 u
        + coefH2 (m + 2 * (u + 2)) m * radialCoef (m + 2) 0 (u + 1)))
      * (((m : K) + u + 4) * ((m : K) + u + 3)) = 0 := by
    linear_combination (radialCoef m 0 (u + 2) : K) * core
      - coefH1 (m + 2 * (u + 2)) m * R1
      - coefH2 (m + 2 * (u + 2)) m * ((m : K) + u + 4) * R2
  rcases mul_eq_zero.mp key with h | h
  · exact sub_eq_zero.mp h
  · exact absurd h hD

/-- The Zernike radial polynomial of order `m + 2p` and repetition `m`, written
by ascending powers of `r`. -/
theorem zernikeRadial_ascending (m p : Nat) (r : K) :
    zernikeRadial (m + 2 * p) m r
      = ∑ u in Finset.range (p + 1), radialCoef m (p - u) u * r ^ (m + 2 * u) := by
  unfold zernikeRadial
  have hp : (m + 2 * p - m) / 2 = p := by omega
  have hq : (m + 2 * p + m) / 2 = m + p := by omega
  rw [hp, hq, ← Finset.sum_range_reflect]
  apply Finset.sum_congr rfl
  intro u hu
  have hu' : u < p + 1 := Finset.mem_range.mp hu
  have e1 : p + 1 - 1 - u = p - u := by omega
  have e2 : m + 2 * p - (p - u) = m + 2 * u + (p - u) := by omega
  have e3 : m + p - (p - u) = m + u := by omega
  have e4 : p - (p - u) = u := by omega
  have e5 : m + 2 * p - 2 * (p - u) = m + 2 * u := by omega
  rw [e1, e2, e3, e4, e5]
  rfl

theorem sum_range_peel (f : Nat → K) (P : Nat) :
    ∑ u in Finset.range (P + 3), f u
      = f 0 + f 1 + ∑ t in Finset.range P, f (t + 2) + f (P + 2) := by
  rw [Finset.sum_range_succ, Finset.sum_range_succ', Finset.sum_range_succ']
  ring

theorem sum_range_peel_front (f : Nat → K) (P : Nat) :
    ∑ u in Finset.range (P + 2), f u = f 0 + f 1 + ∑ t in Finset.range P, f (t + 2) := by
  rw [Finset.sum_range_succ', Finset.sum_range_succ']
  ring

theorem sum_range_peel_ends (f : Nat → K) (P : Nat) :
    ∑ u in Finset.range (P + 2), f u = f 0 + ∑ t in Finset.range P, f (t + 1) + f (P + 1) := by
  rw [Finset.sum_range_succ, Finset.sum_range_succ']
  ring

/-- The three-term recurrence of lines 158-162 holds for the Zernike radial
polynomials, with the coefficients of lines 99-101. -/
theorem zernikeRadial_recurrence (m P : Nat) (r : K) (hr : r ≠ 0) :
    zernikeRadial (m + 2 * (P + 2)) m r
      = coefH1 (m + 2 * (P + 2)) m * zernikeRadial (m + 2 * (P + 2)) (m + 4) r
        + (coefH2 (m + 2 * (P + 2)) m + coefH3 (m + 2 * (P + 2)) m / (r * r))
          * zernikeRadial (m + 2 * (P + 2)) (m + 2) r := by
  have hA : zernikeRadial (m + 2 * (P + 2)) m r
      = ∑ u in Finset.range (P + 3), radialCoef m (P + 2 - u) u * r ^ (m + 2 * u) :=
    zernikeRadial_ascending m (P + 2) r
  have hB1 : zernikeRadial (m + 2 * (P + 2)) (m + 2) r
      = ∑ u in Finset.range (P + 2), radialCoef (m + 2) (P + 1 - u) u * r ^ (m + 2 + 2 * u) := by
    have := zernikeRadial_ascending (m + 2) (P + 1) r
    rwa [show m + 2 + 2 * (P + 1) = m + 2 * (P + 2) by ring] at this
  have hB2 : zernikeRadial (m + 2 * (P + 2)) (m + 4) r
      = ∑ u in Finset.range (P + 1), radialCoef (m + 4) (P - u) u * r ^ (m + 4 + 2 * u) := by
    have := zernikeRadial_ascending (m + 4) P r
    rwa [show m + 4 + 2 * P = m + 2 * (P + 2) by ring] at this
  rw [hA, hB1, hB2]
  have EA := sum_range_peel (fun u => (radialCoef m (P + 2 - u) u : K) * r ^ (m + 2 * u)) P
  have E1a := sum_range_peel_ends
    (fun u => (radialCoef (m + 2) (P + 1 - u) u : K) * r ^ (m + 2 + 2 * u)) P
  have E1b := sum_range_peel_front
    (fun u => (radialCoef (m + 2) (P + 1 - u) u : K) * r ^ (m + 2 + 2 * u)) P
  have E2 := Finset.sum_range_succ
    (fun u => (radialCoef (m + 4) (P - u) u : K) * r ^ (m + 4 + 2 * u)) P
  simp only at EA E1a E1b E2
  have hrr : r * r ≠ 0 := mul_ne_zero hr hr
  -- the four kinds of coefficients
  have hi : (radialCoef m (P + 2 - 0) 0 : K) * r ^ (m + 2 * 0)
      = coefH3 (m + 2 * (P + 2)) m / (r * r)
        * (radialCoef (m + 2) (P + 1 - 0) 0 * r ^ (m + 2 + 2 * 0)) := by
    simp only [Nat.sub_zero, Nat.mul_zero, Nat.add_zero]
    rw [radialCoef_first m P]
    field_simp
    ring
  have hii : (radialCoef m (P + 2 - 1) 1 : K) * r ^ (m + 2 * 1)
      = coefH2 (m + 2 * (P + 2)) m * (radialCoef (m + 2) (P + 1 - 0) 0 * r ^ (m + 2 + 2 * 0))
        + coefH3 (m + 2 * (P + 2)) m / (r * r)
          * (radialCoef (m + 2) (P + 1 - 1) 1 * r ^ (m + 2 + 2 * 1)) := by
    simp only [Nat.sub_zero, Nat.mul_zero, Nat.add_zero, Nat.add_sub_cancel]
    rw [show P + 2 - 1 = P + 1 by omega, radialCoef_second m P]
    field_simp
    ring
  have hiv : (radialCoef m (P + 2 - (P + 2)) (P + 2) : K) * r ^ (m + 2 * (P + 2))
      = coefH1 (m + 2 * (P + 2)) m * (radialCoef (m + 4) (P - P) P * r ^ (m + 4 + 2 * P))
        + coefH2 (m + 2 * (P + 2)) m
          * (radialCoef (m + 2) (P + 1 - (P + 1)) (P + 1) * r ^ (m + 2 + 2 * (P + 1))) := by
    simp only [Nat.sub_self]
    rw [radialCoef_last m P]
    ring
  have hint : ∀ t ∈ Finset.range P,
      (radialCoef m (P + 2 - (t + 2)) (t + 2) : K) * r ^ (m + 2 * (t + 2))
      = coefH1 (m + 2 * (P + 2)) m * (radialCoef (m + 4) (P - t) t * r ^ (m + 4 + 2 * t))
        + coefH2 (m + 2 * (P + 2)) m
          * (radialCoef (m + 2) (P + 1 - (t + 1)) (t + 1) * r ^ (m + 2 + 2 * (t + 1)))
        + coefH3 (m + 2 * (P + 2)) m / (r * r)
          * (radialCoef (m + 2) (P + 1 - (t + 2)) (t + 2) * r ^ (m + 2 + 2 * (t + 2))) := by
    intro t ht
    have ht' : t < P := Finset.mem_range.mp ht
    obtain ⟨w, rfl⟩ : ∃ w, P = w + t + 1 := ⟨P - t - 1, by omega⟩
    have := radialCoef_interior (K := K) m w t
    rw [show w + t + 1 + 2 - (t + 2) = w + 1 by omega, show w + t + 1 - t = w + 1 by omega,
      show w + t + 1 + 1 - (t + 1) = w + 1 by omega, show w + t + 1 + 1 - (t + 2) = w by omega,
      show w + t + 1 + 2 = w + t + 3 by omega, this]
    field_simp
    ring
  have Int := Finset.sum_congr rfl hint
  rw [Finset.sum_add_distrib, Finset.sum_add_distrib, ← Finset.mul_sum, ← Finset.mul_sum,
    ← Finset.mul_sum] at Int
  linear_combination EA - coefH1 (m + 2 * (P + 2)) m * E2 - coefH2 (m + 2 * (P + 2)) m * E1a
    - coefH3 (m + 2 * (P + 2)) m / (r * r) * E1b + Int + hi + hii + hiv

theorem zernikeRadial_self (n : Nat) (r : K) : zernikeRadial n n r = r ^ n := by
  have h := zernikeRadial_ascending n 0 r
  simp only [Nat.mul_zero, Nat.add_zero, zero_add, Finset.sum_range_one, Nat.sub_zero] at h
  rw [h]
  have : (n.factorial : K) ≠ 0 := by positivity
  simp [radialCoef, this]

theorem zernikeRadial_two (m : Nat) (r : K) :
    zernikeRadial (m + 2) m r
      = ((m + 2 : Nat) : K) * r ^ (m + 2) - (((m + 2 : Nat) : K) - 1) * r ^ m := by
  have h := zernikeRadial_ascending m 1 r
  simp only [Nat.mul_one, Finset.sum_range_succ, Finset.sum_range_zero, zero_add,
    Nat.sub_zero, Nat.sub_self, Nat.mul_zero, Nat.add_zero] at h
  rw [h]
  have h1 : (m.factorial : K) ≠ 0 := by positivity
  have e1 : m + 2 = (m + 1) + 1 := rfl
  simp only [radialCoef, Nat.mul_zero, Nat.add_zero, Nat.mul_one, Nat.factorial_zero,
    Nat.factorial_one, Nat.cast_one, mul_one, pow_one, pow_zero, one_mul]
  rw [e1]
  simp only [Nat.factorial_succ]
  push_cast
  field_simp
  ring

/-- The three assignments of lines 99-101, with the closed forms. -/
theorem initEntry_eq (n m : Nat) (h : n ≠ m) (s : Statics K) :
    initEntry n m s = { s with
      H1 := set2 s.H1 n m (coefH1 n m)
      H2 := set2 s.H2 n m (coefH2 n m)
      H3 := set2 s.H3 n m (coefH3 n m) } := by
  simp [initEntry, h, set2, coefH1, coefH2, coefH3]

/-- The initialiser writes the closed forms into the cells `m < n < MAX_L`,
leaves every other cell as it was, and clears `init`. -/
theorem initStatics_spec (s : Statics K) (hs : s.init = true) (a b : Nat) :
    (initStatics s).init = false ∧
    (initStatics s).H1 a b = (if a < MAX_L ∧ b < a then coefH1 a b else s.H1 a b) ∧
    (initStatics s).H2 a b = (if a < MAX_L ∧ b < a then coefH2 a b else s.H2 a b) ∧
    (initStatics s).H3 a b = (if a < MAX_L ∧ b < a then coefH3 a b else s.H3 a b) := by
  have row : ∀ (n M : Nat) (s : Statics K), M ≤ n + 1 →
      ((List.range M).foldl (fun s m => initEntry n m s) s).H1 a b
        = (if a = n ∧ b < M ∧ b < n then coefH1 a b else s.H1 a b) ∧
      ((List.range M).foldl (fun s m => initEntry n m s) s).H2 a b
        = (if a = n ∧ b < M ∧ b < n then coefH2 a b else s.H2 a b) ∧
      ((List.range M).foldl (fun s m => initEntry n m s) s).H3 a b
        = (if a = n ∧ b < M ∧ b < n then coefH3 a b else s.H3 a b) := by
    intro n M s hM
    induction M with
    | zero => simp
    | succ M ih =>
      obtain ⟨i1, i2, i3⟩ := ih (by omega)
      rw [List.range_succ, List.foldl_append]
      simp only [List.foldl_cons, List.foldl_nil]
      by_cases hnM : n = M
      · have e : ∀ t : Statics K, initEntry n M t = t := by
          intro t; simp [initEntry, hnM]
        rw [e, i1, i2, i3]
        have hc : (a = n ∧ b < M + 1 ∧ b < n) ↔ (a = n ∧ b < M ∧ b < n) := by omega
        simp only [hc, and_self]
      · rw [initEntry_eq n M hnM]
        simp only [set2]
        rw [i1, i2, i3]
        by_cases h1 : a = n ∧ b = M
        · have h2 : a = n ∧ b < M + 1 ∧ b < n := by omega
          obtain ⟨ha, hb⟩ := h1
          have hlt : M < n := by omega
          simp [ha, hb, hlt]
        · by_cases h3 : a = n ∧ b < M ∧ b < n
          · have h2 : a = n ∧ b < M + 1 ∧ b < n := by omega
            simp only [if_neg h1, if_pos h2, if_pos h3, and_self]
          · have h2 : ¬ (a = n ∧ b < M + 1 ∧ b < n) := by omega
            simp only [if_neg h1, if_neg h2, if_neg h3, and_self]
  have rows : ∀ (N : Nat),
      ((List.range N).foldl
        (fun s n => (List.range (n + 1)).foldl (fun s m => initEntry n m s) s) s).H1 a b
        = (if a < N ∧ b < a then coefH1 a b else s.H1 a b) ∧
      ((List.range N).foldl
        (fun s n => (List.range (n + 1)).foldl (fun s m => initEntry n m s) s) s).H2 a b
        = (if a < N ∧ b < a then coefH2 a b else s.H2 a b) ∧
      ((List.range N).foldl
        (fun s n => (List.range (n + 1)).foldl (fun s m => initEntry n m s) s) s).H3 a b
        = (if a < N ∧ b < a then coefH3 a b else s.H3 a b) := by
    intro N
    induction N with
    | zero => simp
    | succ N ih =>
      obtain ⟨i1, i2, i3⟩ := ih
      rw [List.range_succ, List.foldl_append]
      simp only [List.foldl_cons, List.foldl_nil]
      obtain ⟨r1, r2, r3⟩ := row N (N + 1) ((List.range N).foldl
        (fun s n => (List.range (n + 1)).foldl (fun s m => initEntry n m s) s) s) (le_refl _)
      rw [r1, r2, r3, i1, i2, i3]
      by_cases h1 : a = N ∧ b < N + 1 ∧ b < N
      · have h2 : a < N + 1 ∧ b < a := by omega
        simp only [if_pos h1, if_pos h2, and_self]
      · by_cases h3 : a < N ∧ b < a
        · have h2 : a < N + 1 ∧ b < a := by omega
          simp only [if_neg h1, if_pos h2, if_pos h3, and_self]
        · have h2 : ¬ (a < N + 1 ∧ b < a) := by omega
          simp only [if_neg h1, if_neg h2, if_neg h3, and_self]
  unfold initStatics
  rw [if_pos hs]
  exact ⟨rfl, rows MAX_L⟩

/-- With the tables of the initialiser, the three cases of lines 151-162
compute the Zernike radial polynomial. -/
theorem radialStep_eq_zernikeRadial (H : Statics K)
    (hH : ∀ n m, m < n → n < MAX_L →
      H.H1 n m = coefH1 n m ∧ H.H2 n m = coefH2 n m ∧ H.H3 n m = coefH3 n m)
    (r : K) (hr : r ≠ 0) (n : Nat) (hn : n < MAX_L) (k : Nat) (hk : 2 * k ≤ n) :
    radialStep H r (r * r) n k = zernikeRadial n (n - 2 * k) r := by
  induction k using Nat.strong_induction_on with
  | _ k ih =>
    by_cases k0 : k = 0
    · subst k0
      simp only [radialStep, Nat.mul_zero, Nat.sub_zero, zernikeRadial_self]
    by_cases k1 : k = 1
    · subst k1
      obtain ⟨m, rfl⟩ : ∃ m, n = m + 2 := ⟨n - 2, by omega⟩
      have := zernikeRadial_two m r
      simp only [radialStep, Nat.mul_one, Nat.add_sub_cancel]
      rw [this]
    · obtain ⟨P, rfl⟩ : ∃ P, k = P + 2 := ⟨k - 2, by omega⟩
      obtain ⟨m, rfl⟩ : ∃ m, n = m + 2 * (P + 2) := ⟨n - 2 * (P + 2), by omega⟩
      have e0 : m + 2 * (P + 2) - 2 * (P + 2) = m := by omega
      have e1 : m + 2 * (P + 2) - 2 * (P + 1) = m + 2 := by omega
      have e2 : m + 2 * (P + 2) - 2 * P = m + 4 := by omega
      have i1 := ih P (by omega) (by omega)
      have i2 := ih (P + 1) (by omega) (by omega)
      rw [e2] at i1
      rw [e1] at i2
      obtain ⟨t1, t2, t3⟩ := hH (m + 2 * (P + 2)) m (by omega) hn
      show H.H1 _ _ * radialStep H r (r * r) _ P
        + (H.H2 _ _ + H.H3 _ _ / (r * r)) * radialStep H r (r * r) _ (P + 1) = _
      rw [e0, i1, i2, t1, t2, t3]
      exact (zernikeRadial_recurrence m P r hr).symm

/-- The tables every call works with, whether it is the call that initialises
them or a later one. -/
theorem tables_ready (st : Statics K)
    (hst : st.init = true ∨ ∃ st0 : Statics K, st0.init = true ∧ st = initStatics st0)
    (n m : Nat) (hm : m < n) (hn : n < MAX_L) :
    (initStatics st).H1 n m = coefH1 n m ∧ (initStatics st).H2 n m = coefH2 n m ∧
    (initStatics st).H3 n m = coefH3 n m := by
  have hc : n < MAX_L ∧ m < n := ⟨hn, hm⟩
  rcases hst with h | ⟨st0, h0, rfl⟩
  · obtain ⟨-, a1, a2, a3⟩ := initStatics_spec st h n m
    rw [a1, a2, a3, if_pos hc, if_pos hc, if_pos hc]
    exact ⟨rfl, rfl, rfl⟩
  · obtain ⟨a0, a1, a2, a3⟩ := initStatics_spec st0 h0 n m
    have : initStatics (initStatics st0) = initStatics st0 := initStatics_idem _ a0
    rw [this, a1, a2, a3, if_pos hc, if_pos hc, if_pos hc]
    exact ⟨rfl, rfl, rfl⟩

/-- The variable `Rnm` just after the iteration for `(n, n - 2k)`. -/
theorem localsAfter_Rnm (H : Statics K) (L : Nat) (r r2 f a b : K) (n k : Nat) (s : Locals K)
    (hn : n ≤ L) (hk : 2 * k ≤ n) :
    (localsAfter H L r r2 f a b n k s).Rnm = radialStep H r r2 n k := by
  unfold localsAfter
  rw [repetitions_take n k hk]
  obtain ⟨hR, -⟩ := pixelEnter_tables L r a b s
  obtain ⟨-, -, gR, -⟩ := nLoop_spec H r r2 f L (pixelEnter L r a b s) hR n (by omega)
  obtain ⟨e1, e2, -⟩ := nEnter_spec n
    ((List.range n).foldl (fun s n' => nStep H r2 f n' s) (pixelEnter L r a b s))
  rw [gR] at e1 e2
  obtain ⟨-, -, -, -, -, -, -, hRnm, -⟩ := mLoop_spec H r r2 (constT n f) n _
    (by rw [e1]; exact hR n hn) (fun h => by rw [e2 h]; exact hR _ (by omega)) (k + 1) (by omega)
  exact hRnm (by omega)

end RadialRecurrence

/-- C10: for every accepted order `L`, every pixel that is not skipped, every
`n ≤ L` and every `m ≤ n` with `n - m` even, the variable `Rnm` just after the
three cases of lines 151-162 have run for `(n, m)` equals the Zernike radial
polynomial `R_n^m(r)` in exact real arithmetic, and so what the body of the
pixel loop adds to `AR[n][m]` and subtracts from `AI[n][m]` is
`const_t * R_n^m(r)` times `COST[m]` and `SINT[m]`.  The statics are those of
any call: not yet initialised on entry, or initialised by an earlier call. -/
theorem radial_value_is_zernike (st : Statics ℝ)
    (hst : st.init = true ∨ ∃ st0 : Statics ℝ, st0.init = true ∧ st = initStatics st0)
    (I : ImageMatrix ℝ) (L : Nat) (hL : L < MAX_L) (rad sum cx cy : ℝ) (i j : Nat)
    (s : Locals ℝ) (n m : Nat) (hn : n ≤ L) (hm : m ≤ n) (hpar : (n - m) % 2 = 0) :
    let x := ((i : ℝ) + 1 - cx) / rad
    let y := ((j : ℝ) + 1 - cy) / rad
    let r2 := x * x + y * y
    let r := Real.sqrt r2
    let f := I.pixel i j / sum
    ¬ (r < (DBL_EPSILON : ℝ) ∨ r > 1) →
    (localsAfter (initStatics st) L r r2 f (x / r) (y / r) n ((n - m) / 2) s).Rnm
      = zernikeRadial n m r ∧
    (pixelStep Real.sqrt (initStatics st) I L rad sum cx cy i j s).AR n m
      = s.AR n m + constT n f * zernikeRadial n m r * (angleAt (x / r) (y / r) m).1 ∧
    (pixelStep Real.sqrt (initStatics st) I L rad sum cx cy i j s).AI n m
      = s.AI n m - constT n f * zernikeRadial n m r * (angleAt (x / r) (y / r) m).2 := by
  intro x y r2 r f hns
  have hr2 : 0 ≤ r2 := add_nonneg (mul_self_nonneg x) (mul_self_nonneg y)
  have hrr : r2 = r * r := (Real.mul_self_sqrt hr2).symm
  have heps : (0 : ℝ) < (DBL_EPSILON : ℝ) := by
    unfold DBL_EPSILON; norm_num
  have hr : r ≠ 0 := by
    have : (DBL_EPSILON : ℝ) ≤ r := not_lt.mp (fun h => hns (Or.inl h))
    exact ne_of_gt (lt_of_lt_of_le heps this)
  have hk : 2 * ((n - m) / 2) ≤ n := by omega
  have hnm : n - 2 * ((n - m) / 2) = m := by omega
  have hrad : radialStep (initStatics st) r r2 n ((n - m) / 2) = zernikeRadial n m r := by
    have := radialStep_eq_zernikeRadial (initStatics st) (tables_ready st hst) r hr n
      (by omega) ((n - m) / 2) hk
    rw [hnm, ← hrr] at this
    exact this
  refine ⟨?_, ?_, ?_⟩
  · rw [localsAfter_Rnm _ _ _ _ _ _ _ _ _ _ hn hk, hrad]
  · have hv : validPair L n m := ⟨hn, hm, hpar⟩
    rw [(pixelStep_spec Real.sqrt (initStatics st) I L rad sum cx cy i j s n m).1, if_pos hv]
    unfold pixelTermR
    simp only
    rw [if_neg hns, hrad]
  · have hv : validPair L n m := ⟨hn, hm, hpar⟩
    rw [(pixelStep_spec Real.sqrt (initStatics st) I L rad sum cx cy i j s n m).2, if_pos hv]
    unfold pixelTermI
    simp only
    rw [if_neg hns, hrad]

/-- Witness of C10: the pixel at distance `1/2` from the centroid, `n = 4`,
`m = 0`, with the tables of a first call. -/
theorem radial_value_is_zernike_witness :
    ((Statics.fresh : Statics ℝ).init = true ∨
      ∃ st0 : Statics ℝ, st0.init = true ∧ Statics.fresh = initStatics st0) ∧
    4 < MAX_L ∧ 4 ≤ 4 ∧ 0 ≤ 4 ∧ (4 - 0) % 2 = 0 ∧
    (let x := (((0 : Nat) : ℝ) + 1 - 1) / 1
     let y := (((0 : Nat) : ℝ) + 1 - 1 / 2) / 1
     let r2 := x * x + y * y
     let r := Real.sqrt r2
     let f := (uniformImage 2 2 (1 : ℝ)).pixel 0 0 / 4
     ¬ (r < (DBL_EPSILON : ℝ) ∨ r > 1) ∧
     (localsAfter (initStatics Statics.fresh) 4 r r2 f (x / r) (y / r) 4 ((4 - 0) / 2)
        Locals.blank).Rnm = zernikeRadial 4 0 r ∧
     (pixelStep Real.sqrt (initStatics Statics.fresh) (uniformImage 2 2 (1 : ℝ)) 4 1 4 1 (1 / 2)
        0 0 Locals.blank).AR 4 0
      = (Locals.blank : Locals ℝ).AR 4 0
        + constT 4 f * zernikeRadial 4 0 r * (angleAt (x / r) (y / r) 0).1 ∧
     (pixelStep Real.sqrt (initStatics Statics.fresh) (uniformImage 2 2 (1 : ℝ)) 4 1 4 1 (1 / 2)
        0 0 Locals.blank).AI 4 0
      = (Locals.blank : Locals ℝ).AI 4 0
        - constT 4 f * zernikeRadial 4 0 r * (angleAt (x / r) (y / r) 0).2) := by
  refine ⟨Or.inl rfl, by decide, by decide, by decide, by decide, ?_⟩
  intro x y r2 r f
  have hr : r = 1 / 2 := by
    have h2 : r2 = (1 / 2) ^ 2 := by simp only [r2, x, y]; norm_num
    show Real.sqrt r2 = 1 / 2
    rw [h2]
    exact Real.sqrt_sq (by norm_num)
  have hns : ¬ (r < (DBL_EPSILON : ℝ) ∨ r > 1) := by
    rw [hr]; unfold DBL_EPSILON; norm_num
  exact ⟨hns, radial_value_is_zernike Statics.fresh (Or.inl rfl) (uniformImage 2 2 (1 : ℝ)) 4
    (by decide) 1 4 1 (1 / 2) 0 0 Locals.blank 4 0 (by decide) (by decide) (by decide) hns⟩

end Zernike

/-! ## The routine on two small images -/

namespace Zernike

section Evaluation

variable {K : Type} [LinearOrderedField K]

/-- For a uniform square image the accumulators of the repetition `m = 0`
vanish: the image is its own quarter turn, and the quarter turn rotates the
pair of accumulators by a right angle. -/
theorem accum_uniform_zero (sqrt : K → K) (H : Statics K) (N : Nat) (c rad : K) (n : Nat)
    (hS : (moments (uniformImage N N c)).moment00 ≠ 0) :
    accumR sqrt H (uniformImage N N c) rad n 0 = 0 ∧
    accumI sqrt H (uniformImage N N c) rad n 0 = 0 := by
  have hq : quarterTurn (uniformImage N N c) = uniformImage N N c := rfl
  obtain ⟨h1, h2⟩ := accum_quarterTurn sqrt H (uniformImage N N c) rad n 0 hS
  rw [hq] at h1 h2
  simp only [quarter, zero_mul, one_mul, zero_sub, add_zero] at h1 h2
  constructor
  · linarith
  · linarith

/-- The first cell written is the magnitude of `(0, 0)`. -/
theorem first_magnitude [FloorRing K] (sqrt : K → K) (st : Statics K) (stk : Locals K)
    (I : ImageMatrix K) (order rad : K) (zv : Nat → K) (h : effectiveOrder order < MAX_L) :
    ∃ o, mb_zernike2D sqrt st stk I order rad zv = Except.ok o ∧
      o.zvalues 0 = zernikeMagnitude sqrt (initStatics st) I (effectiveRadius I rad) 0 0 := by
  obtain ⟨o, ho, -, hz⟩ := mb_zernike2D_spec sqrt st stk I order rad zv h
  refine ⟨o, ho, ?_⟩
  obtain ⟨-, e2, -⟩ := emit_spec ((validPairs (effectiveOrder order)).map
      (fun p => zernikeMagnitude sqrt (initStatics st) I (effectiveRadius I rad) p.1 p.2)) zv 0
  rw [← hz] at e2
  have hmem : (0, 0) ∈ validPairs (effectiveOrder order) :=
    (mem_validPairs _ (0, 0)).mpr ⟨Nat.zero_le _, le_refl _, rfl⟩
  have hlen : 0 < (validPairs (effectiveOrder order)).length := List.length_pos_of_mem hmem
  have hhead : (validPairs (effectiveOrder order))[0]? = some (0, 0) := by
    unfold validPairs
    rw [List.range_succ_eq_map, List.flatMap_cons]
    have h0 : (rowPairs 0).map (fun m => ((0 : Nat), m)) = [(0, 0)] := by decide
    rw [h0, List.singleton_append, List.getElem?_cons_zero]
  have := e2 0 (le_refl _) (by simpa using hlen)
  simp only [Nat.sub_zero, List.getElem?_map, hhead, Option.map_some'] at this
  exact (Option.some.inj this).symm

end Evaluation

theorem PI_pos : (0 : ℝ) < (PI : ℝ) := by
  unfold PI; norm_num

/-- The contributions of a pixel whose distance to the centroid and direction
from the centroid are known. -/
theorem pixelTerm_eval (H : Statics ℝ) (I : ImageMatrix ℝ) (rad S cx cy : ℝ) (i j n m : Nat)
    (r a b : ℝ) (hr0 : 0 ≤ r)
    (hr : (((i : ℝ) + 1 - cx) / rad) * (((i : ℝ) + 1 - cx) / rad)
      + (((j : ℝ) + 1 - cy) / rad) * (((j : ℝ) + 1 - cy) / rad) = r ^ 2)
    (ha : (((i : ℝ) + 1 - cx) / rad) / r = a) (hb : (((j : ℝ) + 1 - cy) / rad) / r = b)
    (hns : ¬ (r < (DBL_EPSILON : ℝ) ∨ r > 1)) :
    pixelTermR Real.sqrt H I rad S cx cy i j n m
      = constT n (I.pixel i j / S) * radialStep H r (r ^ 2) n ((n - m) / 2)
        * (angleAt a b m).1 ∧
    pixelTermI Real.sqrt H I rad S cx cy i j n m
      = constT n (I.pixel i j / S) * radialStep H r (r ^ 2) n ((n - m) / 2)
        * (angleAt a b m).2 := by
  unfold pixelTermR pixelTermI
  simp only
  rw [hr, Real.sqrt_sq hr0, if_neg hns, if_neg hns, ha, hb]
  exact ⟨rfl, rfl⟩

theorem moments_ramp21 :
    (moments (rampImage 2 1 : ImageMatrix ℝ)).sum = 3 ∧
    (moments (rampImage 2 1 : ImageMatrix ℝ)).moment00 = 3 ∧
    (moments (rampImage 2 1 : ImageMatrix ℝ)).moment10 = 5 ∧
    (moments (rampImage 2 1 : ImageMatrix ℝ)).moment01 = 3 := by
  obtain ⟨a1, a2, a3, a4⟩ := moments_spec (rampImage 2 1 : ImageMatrix ℝ)
  rw [a1, a2, a3, a4]
  simp only [rampImage, Finset.sum_range_succ, Finset.sum_range_zero]
  norm_num

/-- The accumulators of `(1, 1)` on the two-pixel ramp, for a radius `rad` of
absolute value `A` between `2/3` and `2`. -/
theorem accum_ramp21 (H : Statics ℝ) (rad A : ℝ) (hA : rad = A ∨ rad = -A) (h1 : 2 / 3 ≤ A)
    (h2 : A ≤ 2) :
    accumR Real.sqrt H (rampImage 2 1) rad 1 1 = 8 / (9 * (PI : ℝ) * A) ∧
    accumI Real.sqrt H (rampImage 2 1) rad 1 1 = 0 := by
  obtain ⟨m1, m2, m3, m4⟩ := moments_ramp21
  have hPI := PI_pos
  have habs : 0 < A := by linarith
  have hne : A ≠ 0 := ne_of_gt habs
  have heps : (DBL_EPSILON : ℝ) < 1 / 8 := by unfold DBL_EPSILON; norm_num
  have hinv : 1 / A ≤ 3 / 2 := by
    rw [div_le_iff₀ habs]; linarith
  have hinv' : 1 / 2 ≤ 1 / A := by
    rw [le_div_iff₀ habs]; linarith
  have hns0 : ¬ (2 / 3 / A < (DBL_EPSILON : ℝ) ∨ 2 / 3 / A > 1) := by
    have : 2 / 3 / A = 2 / 3 * (1 / A) := by ring
    rw [this]; push_neg; constructor <;> nlinarith
  have hns1 : ¬ (1 / 3 / A < (DBL_EPSILON : ℝ) ∨ 1 / 3 / A > 1) := by
    have : 1 / 3 / A = 1 / 3 * (1 / A) := by ring
    rw [this]; push_neg; constructor <;> nlinarith
  unfold accumR accumI
  rw [m1, m2, m3, m4]
  simp only [Finset.sum_range_succ, Finset.sum_range_zero, zero_add,
    show (rampImage 2 1 : ImageMatrix ℝ).width = 2 from rfl,
    show (rampImage 2 1 : ImageMatrix ℝ).height = 1 from rfl]
  have hfin : ∀ (t0 t1 : ℝ × ℝ) (a0 a1 : ℝ), (a0 = 1 ∨ a0 = -1) → (a1 = 1 ∨ a1 = -1) →
      t0.1 = constT 1 ((rampImage 2 1 : ImageMatrix ℝ).pixel 0 0 / 3)
        * radialStep H (2 / 3 / A) ((2 / 3 / A) ^ 2) 1 ((1 - 1) / 2) * (angleAt a0 0 1).1 →
      t0.2 = constT 1 ((rampImage 2 1 : ImageMatrix ℝ).pixel 0 0 / 3)
        * radialStep H (2 / 3 / A) ((2 / 3 / A) ^ 2) 1 ((1 - 1) / 2) * (angleAt a0 0 1).2 →
      t1.1 = constT 1 ((rampImage 2 1 : ImageMatrix ℝ).pixel 1 0 / 3)
        * radialStep H (1 / 3 / A) ((1 / 3 / A) ^ 2) 1 ((1 - 1) / 2) * (angleAt a1 0 1).1 →
      t1.2 = constT 1 ((rampImage 2 1 : ImageMatrix ℝ).pixel 1 0 / 3)
        * radialStep H (1 / 3 / A) ((1 / 3 / A) ^ 2) 1 ((1 - 1) / 2) * (angleAt a1 0 1).2 →
      t0.1 + t1.1 = 8 / (9 * (PI : ℝ) * A) ∧ t0.2 + t1.2 = 0 := by
    intro t0 t1 a0 a1 h0 h1 e1 e2 e3 e4
    have s0 : a0 * a0 = 1 := by rcases h0 with rfl | rfl <;> norm_num
    have s1 : a1 * a1 = 1 := by rcases h1 with rfl | rfl <;> norm_num
    rw [e1, e2, e3, e4]
    simp only [constT, radialStep, angleAt, pow_one, rampImage, mul_zero, zero_mul, sub_zero,
      add_zero, s0, s1]
    push_cast
    constructor
    · field_simp
      ring
    · simp
  rcases hA with rfl | rfl
  · have e0 := pixelTerm_eval H (rampImage 2 1) rad 3 (5 / 3) (3 / 3) 0 0 1 1 (2 / 3 / rad)
      (-1) 0 (by positivity) (by field_simp; ring) (by field_simp; ring) (by simp) hns0
    have e1 := pixelTerm_eval H (rampImage 2 1) rad 3 (5 / 3) (3 / 3) 1 0 1 1 (1 / 3 / rad)
      1 0 (by positivity) (by field_simp; ring) (by field_simp; ring) (by simp) hns1
    exact hfin (_, _) (_, _) (-1) 1 (Or.inr rfl) (Or.inl rfl) e0.1 e0.2 e1.1 e1.2
  · have hA' : -A ≠ 0 := neg_ne_zero.mpr hne
    have e0 := pixelTerm_eval H (rampImage 2 1) (-A) 3 (5 / 3) (3 / 3) 0 0 1 1 (2 / 3 / A)
      1 0 (by positivity) (by field_simp; ring) (by field_simp; ring) (by simp) hns0
    have e1 := pixelTerm_eval H (rampImage 2 1) (-A) 3 (5 / 3) (3 / 3) 1 0 1 1 (1 / 3 / A)
      (-1) 0 (by positivity) (by field_simp; ring) (by field_simp; ring) (by simp) hns1
    exact hfin (_, _) (_, _) 1 (-1) (Or.inl rfl) (Or.inr rfl) e0.1 e0.2 e1.1 e1.2

/-- With effective order 1 the second cell written is the magnitude of
`(1, 1)`. -/
theorem second_magnitude_order_one (st : Statics ℝ) (stk : Locals ℝ) (I : ImageMatrix ℝ)
    (rad : ℝ) (zv : Nat → ℝ) :
    ∃ o, mb_zernike2D Real.sqrt st stk I 1 rad zv = Except.ok o ∧
      o.zvalues 1
        = zernikeMagnitude Real.sqrt (initStatics st) I (effectiveRadius I rad) 1 1 := by
  have hL : effectiveOrder (1 : ℝ) = 1 := by simp [effectiveOrder]
  obtain ⟨o, ho, -, hz⟩ := mb_zernike2D_spec Real.sqrt st stk I 1 rad zv (by rw [hL]; decide)
  refine ⟨o, ho, ?_⟩
  rw [hL] at hz
  have hpairs : validPairs 1 = [(0, 0), (1, 1)] := by decide
  obtain ⟨-, e2, -⟩ := emit_spec ((validPairs 1).map
      (fun p => zernikeMagnitude Real.sqrt (initStatics st) I (effectiveRadius I rad) p.1 p.2))
      zv 0
  rw [← hz] at e2
  have := e2 1 (Nat.zero_le _) (by rw [hpairs]; simp)
  rw [hpairs] at this
  simp only [List.map_cons, List.map_nil, Nat.sub_zero, List.getElem?_cons_succ,
    List.getElem?_cons_zero] at this
  exact (Option.some.inj this).symm

theorem zernikeMagnitude_ramp21 (H : Statics ℝ) (rad A : ℝ) (hA : rad = A ∨ rad = -A)
    (h1 : 2 / 3 ≤ A) (h2 : A ≤ 2) :
    zernikeMagnitude Real.sqrt H (rampImage 2 1) rad 1 1 = 8 / (9 * (PI : ℝ) * A) := by
  obtain ⟨a1, a2⟩ := accum_ramp21 H rad A hA h1 h2
  have hPI := PI_pos
  have hpos : 0 ≤ 8 / (9 * (PI : ℝ) * A) := by
    have : 0 < A := by linarith
    positivity
  unfold zernikeMagnitude
  rw [a1, a2, mul_zero, add_zero, Real.sqrt_mul_self hpos, abs_of_nonneg hpos]

/-- C2 (the code at a negative radius): on the image of width 2 and height 1
with intensities 1 and 2, for which `min(width, height) = 1`, the argument
`rad = -2` is kept as the radius, and the call returns `4/(9 PI)` as its second
magnitude, whereas the call with `rad = min(width, height) = 1` returns
`8/(9 PI)`. -/
theorem negative_radius_changes_output :
    effectiveRadius (rampImage 2 1 : ImageMatrix ℝ) (-2) = -2 ∧
    ((smallerSide (rampImage 2 1 : ImageMatrix ℝ) : Nat) : ℝ) = 1 ∧
    ∃ o o', mb_zernike2D Real.sqrt Statics.fresh Locals.blank (rampImage 2 1) 1 (-2) zeroBuffer
        = Except.ok o ∧
      mb_zernike2D Real.sqrt Statics.fresh Locals.blank (rampImage 2 1) 1 1 zeroBuffer
        = Except.ok o' ∧
      o.zvalues 1 = 4 / (9 * (PI : ℝ)) ∧ o'.zvalues 1 = 8 / (9 * (PI : ℝ)) ∧
      o.zvalues 1 ≠ o'.zvalues 1 := by
  have hPI := PI_pos
  have r1 : effectiveRadius (rampImage 2 1 : ImageMatrix ℝ) (-2) = -2 := by
    simp [effectiveRadius]
  have r2 : effectiveRadius (rampImage 2 1 : ImageMatrix ℝ) 1 = 1 := by
    simp [effectiveRadius]
  obtain ⟨o, ho, hz⟩ := second_magnitude_order_one Statics.fresh Locals.blank
    (rampImage 2 1) (-2) zeroBuffer
  obtain ⟨o', ho', hz'⟩ := second_magnitude_order_one Statics.fresh Locals.blank
    (rampImage 2 1) 1 zeroBuffer
  rw [r1, zernikeMagnitude_ramp21 _ (-2) 2 (Or.inr rfl) (by norm_num) (by norm_num)] at hz
  rw [r2, zernikeMagnitude_ramp21 _ 1 1 (Or.inl rfl) (by norm_num) (by norm_num)] at hz'
  have v : o.zvalues 1 = 4 / (9 * (PI : ℝ)) := by rw [hz]; field_simp; ring
  have v' : o'.zvalues 1 = 8 / (9 * (PI : ℝ)) := by rw [hz']; field_simp
  refine ⟨r1, by simp [smallerSide, rampImage], o, o', ho, ho', v, v', ?_⟩
  rw [v, v']
  intro h
  field_simp at h
  norm_num at h

theorem moments_uniform22 :
    (moments (uniformImage 2 2 (1 : ℝ))).sum = 4 ∧
    (moments (uniformImage 2 2 (1 : ℝ))).moment00 = 4 ∧
    (moments (uniformImage 2 2 (1 : ℝ))).moment10 = 6 ∧
    (moments (uniformImage 2 2 (1 : ℝ))).moment01 = 6 := by
  obtain ⟨a1, a2, a3, a4⟩ := moments_spec (uniformImage 2 2 (1 : ℝ))
  rw [a1, a2, a3, a4]
  simp only [uniformImage, Finset.sum_range_succ, Finset.sum_range_zero]
  norm_num

/-- C8 (the code on a uniform square): on the `2 × 2` image of intensity 1
with radius 2, no pixel is skipped and the normalised total-intensity moment
is `1/PI`, but the first magnitude the call writes is 0. -/
theorem uniform_first_magnitude_is_zero :
    ∃ o, mb_zernike2D Real.sqrt Statics.fresh Locals.blank (uniformImage 2 2 (1 : ℝ)) 0 2
        zeroBuffer = Except.ok o ∧
      o.zvalues 0 = 0 ∧
      totalIntensityMoment Real.sqrt (uniformImage 2 2 (1 : ℝ)) 2 = 1 / (PI : ℝ) ∧
      o.zvalues 0 ≠ totalIntensityMoment Real.sqrt (uniformImage 2 2 (1 : ℝ)) 2 := by
  have hPI := PI_pos
  obtain ⟨m1, m2, m3, m4⟩ := moments_uniform22
  obtain ⟨o, ho, hz⟩ := first_magnitude Real.sqrt Statics.fresh Locals.blank
    (uniformImage 2 2 (1 : ℝ)) 0 2 zeroBuffer
    (by rw [effectiveOrder_nonpos 0 (le_refl 0)]; decide)
  obtain ⟨a1, a2⟩ := accum_uniform_zero Real.sqrt (initStatics (Statics.fresh : Statics ℝ)) 2
    (1 : ℝ) (effectiveRadius (uniformImage 2 2 (1 : ℝ)) 2) 0 (by rw [m2]; norm_num)
  have v : o.zvalues 0 = 0 := by
    rw [hz]
    unfold zernikeMagnitude
    rw [a1, a2]
    simp
  have hns : ¬ (Real.sqrt (1 / 8) < (DBL_EPSILON : ℝ) ∨ Real.sqrt (1 / 8) > 1) := by
    push_neg
    constructor
    · rw [Real.le_sqrt' (by unfold DBL_EPSILON; norm_num)]
      unfold DBL_EPSILON
      norm_num
    · rw [Real.sqrt_le_one]
      norm_num
  have t : totalIntensityMoment Real.sqrt (uniformImage 2 2 (1 : ℝ)) 2 = 1 / (PI : ℝ) := by
    unfold totalIntensityMoment
    rw [m1, m2, m3, m4]
    have key : ∀ i ∈ Finset.range 2, ∀ j ∈ Finset.range 2,
        (let x := ((i : ℝ) + 1 - 6 / 4) / 2
         let y := ((j : ℝ) + 1 - 6 / 4) / 2
         let r := Real.sqrt (x * x + y * y)
         if r < (DBL_EPSILON : ℝ) ∨ r > 1 then (0 : ℝ)
         else (uniformImage 2 2 (1 : ℝ)).pixel i j / 4) = 1 / 4 := by
      intro i hi j hj
      have hi' : i < 2 := Finset.mem_range.mp hi
      have hj' : j < 2 := Finset.mem_range.mp hj
      have h8 : ((i : ℝ) + 1 - 6 / 4) / 2 * (((i : ℝ) + 1 - 6 / 4) / 2)
          + ((j : ℝ) + 1 - 6 / 4) / 2 * (((j : ℝ) + 1 - 6 / 4) / 2) = 1 / 8 := by
        interval_cases i <;> interval_cases j <;> norm_num
      simp only [h8, if_neg hns, uniformImage]
    have hw : (uniformImage 2 2 (1 : ℝ)).width = 2 := rfl
    have hh : (uniformImage 2 2 (1 : ℝ)).height = 2 := rfl
    rw [hw, hh, Finset.sum_congr rfl (fun i hi => Finset.sum_congr rfl (key i hi))]
    simp only [Finset.sum_const, Finset.card_range]
    norm_num
  refine ⟨o, ho, v, t, ?_⟩
  rw [v, t]
  exact ne_of_lt (by positivity)

end Zernike

/-! ## The output sequence -/

namespace Zernike

/-- The magnitude loop visits the valid cells in ascending order of `n` and,
within one `n`, of `m`. -/
theorem validPairs_ordered (L : Nat) : (validPairs L).Pairwise visitedBefore := by
  unfold validPairs
  rw [List.pairwise_flatMap]
  constructor
  · intro n _
    rw [List.pairwise_map]
    unfold rowPairs
    apply List.Pairwise.filter
    exact (List.pairwise_lt_range (n + 1)).imp (fun h => Or.inr ⟨rfl, h⟩)
  · apply (List.pairwise_lt_range (L + 1)).imp
    intro a b hab x hx y hy
    obtain ⟨m, -, rfl⟩ := List.mem_map.mp hx
    obtain ⟨m', -, rfl⟩ := List.mem_map.mp hy
    exact Or.inl hab

/-- A list is the sequence of the first cells of a buffer that holds it. -/
theorem range_map_eq {α : Type} (l : List α) (z : Nat → α)
    (h : ∀ k, k < l.length → l[k]? = some (z k)) : (List.range l.length).map z = l := by
  apply List.ext_getElem?
  intro k
  by_cases hk : k < l.length
  · rw [h k hk, List.getElem?_map, List.getElem?_range hk]
    rfl
  · rw [List.getElem?_eq_none (by simpa using hk), List.getElem?_eq_none (by simpa using hk)]

section
variable {K : Type} [LinearOrderedField K]

/-- The routine as one expression: the assertion, then the statics of the
initialiser and the magnitudes of the valid cells written from index 0 on. -/
theorem mb_zernike2D_eq [FloorRing K] (sqrt : K → K) (st : Statics K) (stk : Locals K)
    (I : ImageMatrix K) (order rad : K) (zv : Nat → K) :
    mb_zernike2D sqrt st stk I order rad zv
      = if effectiveOrder order < MAX_L then
          Except.ok
            { statics := initStatics st
              zvalues := (emit ((validPairs (effectiveOrder order)).map
                (fun p => zernikeMagnitude sqrt (initStatics st) I (effectiveRadius I rad)
                  p.1 p.2)) zv 0).1
              output_size := (emit ((validPairs (effectiveOrder order)).map
                (fun p => zernikeMagnitude sqrt (initStatics st) I (effectiveRadius I rad)
                  p.1 p.2)) zv 0).2 }
        else Except.error Failure.assert_L_lt_MAX_L := by
  by_cases h : effectiveOrder order < MAX_L
  · obtain ⟨o, ho, h1, h2⟩ := mb_zernike2D_spec sqrt st stk I order rad zv h
    rw [if_pos h, ho, ← h2, ← h1]
  · rw [if_neg h]
    simp only [mb_zernike2D, if_neg h]

/-- The result of a call that passes the assertion, in terms of the locals
at the end of the pixel loop. -/
theorem mb_zernike2D_accumulated [FloorRing K] (sqrt : K → K) (st : Statics K)
    (stk : Locals K) (I : ImageMatrix K) (order rad : K) (zv : Nat → K)
    (h : effectiveOrder order < MAX_L) :
    ∃ o, mb_zernike2D sqrt st stk I order rad zv = Except.ok o ∧
      o.magnitudes = (validPairs (effectiveOrder order)).map (fun p =>
        magnitude sqrt (accumulated sqrt st stk I order rad).AR
          (accumulated sqrt st stk I order rad).AI p.1 p.2) ∧
      o.output_size = (validPairs (effectiveOrder order)).length := by
  refine ⟨_, by simp only [mb_zernike2D, if_pos h]; rfl, ?_, ?_⟩
  · have hs := extract_spec sqrt (effectiveOrder order) (accumulated sqrt st stk I order rad).AR
      (accumulated sqrt st stk I order rad).AI zv
    obtain ⟨e1, e2, -⟩ := emit_spec ((validPairs (effectiveOrder order)).map (fun p =>
        magnitude sqrt (accumulated sqrt st stk I order rad).AR
          (accumulated sqrt st stk I order rad).AI p.1 p.2)) zv 0
    rw [← hs] at e1 e2
    simp only [zero_add, Nat.sub_zero] at e1 e2
    unfold Outcome.magnitudes
    show (List.range (extract sqrt (effectiveOrder order) (accumulated sqrt st stk I order rad).AR
      (accumulated sqrt st stk I order rad).AI zv).numZ).map
      (extract sqrt (effectiveOrder order) (accumulated sqrt st stk I order rad).AR
      (accumulated sqrt st stk I order rad).AI zv).zvalues = _
    rw [e1]
    exact range_map_eq _ _ (fun k hk => e2 k (Nat.zero_le _) hk)
  · have hs := extract_spec sqrt (effectiveOrder order) (accumulated sqrt st stk I order rad).AR
      (accumulated sqrt st stk I order rad).AI zv
    obtain ⟨e1, -, -⟩ := emit_spec ((validPairs (effectiveOrder order)).map (fun p =>
        magnitude sqrt (accumulated sqrt st stk I order rad).AR
          (accumulated sqrt st stk I order rad).AI p.1 p.2)) zv 0
    rw [← hs] at e1
    simp only [zero_add, List.length_map] at e1
    exact e1

end

/-- C11: for every image with non-zero total intensity and every accepted
order `L`, in exact real arithmetic, the output sequence of the call is the
list of `sqrt(AR[n][m]^2 + AI[n][m]^2)`, with `AR`, `AI` the accumulators at
the end of the pixel loop, over the cells `(n, m)` with `0 ≤ m ≤ n ≤ L` and
`n - m` even, each once, taken with `n` ascending and, within one `n`, `m`
ascending; every emitted value is non-negative. -/
theorem output_sequence (st : Statics ℝ) (stk : Locals ℝ) (I : ImageMatrix ℝ) (order rad : ℝ)
    (zv : Nat → ℝ) (_hS : (moments I).sum ≠ 0) (h : effectiveOrder order < MAX_L) :
    ∃ o, mb_zernike2D Real.sqrt st stk I order rad zv = Except.ok o ∧
      o.magnitudes = (validPairs (effectiveOrder order)).map (fun p =>
        Real.sqrt ((accumulated Real.sqrt st stk I order rad).AR p.1 p.2 ^ 2
          + (accumulated Real.sqrt st stk I order rad).AI p.1 p.2 ^ 2)) ∧
      (∀ n m, (n, m) ∈ validPairs (effectiveOrder order)
        ↔ (m ≤ n ∧ n ≤ effectiveOrder order ∧ (n - m) % 2 = 0)) ∧
      (validPairs (effectiveOrder order)).Pairwise visitedBefore ∧
      (∀ v ∈ o.magnitudes, 0 ≤ v) := by
  obtain ⟨o, ho, hm, -⟩ := mb_zernike2D_accumulated Real.sqrt st stk I order rad zv h
  have hm' : o.magnitudes = (validPairs (effectiveOrder order)).map (fun p =>
        Real.sqrt ((accumulated Real.sqrt st stk I order rad).AR p.1 p.2 ^ 2
          + (accumulated Real.sqrt st stk I order rad).AI p.1 p.2 ^ 2)) := by
    rw [hm]
    apply List.map_congr_left
    intro p _
    unfold magnitude
    rw [abs_of_nonneg (Real.sqrt_nonneg _), sq, sq]
  refine ⟨o, ho, hm', ?_, validPairs_ordered _, ?_⟩
  · intro n m
    rw [mem_validPairs]
    unfold validPair
    constructor
    · rintro ⟨a, b, c⟩; exact ⟨b, a, c⟩
    · rintro ⟨a, b, c⟩; exact ⟨b, a, c⟩
  · intro v hv
    rw [hm'] at hv
    obtain ⟨p, -, rfl⟩ := List.mem_map.mp hv
    exact Real.sqrt_nonneg _

/-- Witness of C11: order 3 on the `3 × 2` ramp image. -/
theorem output_sequence_witness :
    (moments (rampImage 3 2 : ImageMatrix ℝ)).sum ≠ 0 ∧
    effectiveOrder (3 : ℝ) < MAX_L ∧
    ∃ o, mb_zernike2D Real.sqrt Statics.fresh Locals.blank (rampImage 3 2) 3 2 zeroBuffer
        = Except.ok o ∧
      o.magnitudes = (validPairs (effectiveOrder (3 : ℝ))).map (fun p =>
        Real.sqrt
          ((accumulated Real.sqrt Statics.fresh Locals.blank (rampImage 3 2) 3 2).AR p.1 p.2 ^ 2
          + (accumulated Real.sqrt Statics.fresh Locals.blank (rampImage 3 2) 3 2).AI p.1 p.2
            ^ 2)) ∧
      (∀ n m, (n, m) ∈ validPairs (effectiveOrder (3 : ℝ))
        ↔ (m ≤ n ∧ n ≤ effectiveOrder (3 : ℝ) ∧ (n - m) % 2 = 0)) ∧
      (validPairs (effectiveOrder (3 : ℝ))).Pairwise visitedBefore ∧
      (∀ v ∈ o.magnitudes, 0 ≤ v) :=
  ⟨by rw [(moments_spec _).1]; simp [rampImage, Finset.sum_range_succ]; norm_num,
    by simp [effectiveOrder, MAX_L],
    output_sequence Statics.fresh Locals.blank (rampImage 3 2) 3 2 zeroBuffer
      (by rw [(moments_spec _).1]; simp [rampImage, Finset.sum_range_succ]; norm_num)
      (by simp [effectiveOrder, MAX_L])⟩

end Zernike

/-! ## The statics across calls -/

namespace Zernike

section
variable {K : Type} [LinearOrderedField K]

/-- The initialiser always leaves `init` cleared. -/
theorem initStatics_init (s : Statics K) : (initStatics s).init = false := by
  unfold initStatics
  by_cases h : s.init = true
  · rw [if_pos h]
  · rw [if_neg h]
    simpa using h

/-- Running the initialiser twice is running it once. -/
theorem initStatics_initStatics (s : Statics K) : initStatics (initStatics s) = initStatics s :=
  initStatics_idem _ (initStatics_init s)

variable [FloorRing K]

/-- The statics after one call: those of the initialiser when the call passes
the assertion, unchanged otherwise. -/
theorem staticsAfterCall_eq (sqrt : K → K) (st : Statics K) (c : Call K) :
    staticsAfterCall sqrt st c
      = if effectiveOrder c.order < MAX_L then initStatics st else st := by
  unfold staticsAfterCall
  rw [mb_zernike2D_eq]
  by_cases h : effectiveOrder c.order < MAX_L
  · simp only [if_pos h]
  · simp only [if_neg h]

/-- Whatever calls came before, the next call works with the same tables. -/
theorem initStatics_staticsAfter (sqrt : K → K) (st : Statics K) (calls : List (Call K)) :
    initStatics (staticsAfter sqrt st calls) = initStatics st := by
  unfold staticsAfter
  induction calls generalizing st with
  | nil => rfl
  | cons c cs ih =>
    rw [List.foldl_cons, ih, staticsAfterCall_eq]
    by_cases h : effectiveOrder c.order < MAX_L
    · rw [if_pos h, initStatics_initStatics]
    · rw [if_neg h]

/-- After a non-empty sequence of calls that pass the assertion the statics
are those left by the initialiser in the first call. -/
theorem staticsAfter_passing (sqrt : K → K) (st : Statics K) (calls : List (Call K))
    (hne : calls ≠ []) (hpass : ∀ c ∈ calls, effectiveOrder c.order < MAX_L) :
    staticsAfter sqrt st calls = initStatics st := by
  unfold staticsAfter
  induction calls generalizing st with
  | nil => exact absurd rfl hne
  | cons c cs ih =>
    have hc : effectiveOrder c.order < MAX_L := hpass c (List.mem_cons_self _ _)
    rw [List.foldl_cons, staticsAfterCall_eq, if_pos hc]
    by_cases hcs : cs = []
    · subst hcs; rfl
    · rw [ih (initStatics st) hcs (fun c' hc' => hpass c' (List.mem_cons_of_mem _ hc')),
        initStatics_initStatics]

/-- C12: for every image, order and radius, the result of a call made after
any number of earlier calls with arbitrary arguments, starting from the
statics of program start (`init = 1`), is the result of the same call made
first: the same failure, or the same buffer and the same count; this holds
whatever the uninitialised locals of the calls contain. -/
theorem deterministic_across_calls (sqrt : K → K) (calls : List (Call K))
    (stk stk' : Locals K) (I : ImageMatrix K) (order rad : K) (zv : Nat → K) :
    (staticsAfter sqrt Statics.fresh calls = Statics.fresh
      ∨ (staticsAfter sqrt Statics.fresh calls).init = false) ∧
    Except.map (fun o => (o.zvalues, o.output_size))
        (mb_zernike2D sqrt (staticsAfter sqrt Statics.fresh calls) stk' I order rad zv)
      = Except.map (fun o => (o.zvalues, o.output_size))
        (mb_zernike2D sqrt Statics.fresh stk I order rad zv) := by
  constructor
  · unfold staticsAfter
    have key : ∀ (cs : List (Call K)) (st : Statics K),
        (st = Statics.fresh ∨ st.init = false) →
        (cs.foldl (fun st c => staticsAfterCall sqrt st c) st = Statics.fresh
          ∨ (cs.foldl (fun st c => staticsAfterCall sqrt st c) st).init = false) := by
      intro cs
      induction cs with
      | nil => intro st h; exact h
      | cons c cs ih =>
        intro st h
        rw [List.foldl_cons]
        apply ih
        rw [staticsAfterCall_eq]
        by_cases hc : effectiveOrder c.order < MAX_L
        · rw [if_pos hc]; exact Or.inr (initStatics_init st)
        · rw [if_neg hc]; exact h
    exact key calls Statics.fresh (Or.inl rfl)
  · rw [mb_zernike2D_eq, mb_zernike2D_eq sqrt Statics.fresh, initStatics_staticsAfter]

/-- C17: over any sequence of calls that pass the order check, after the first
call and after every later one `init` is 0 and the statics are those the
initialiser left in the first call, so `init` goes from 1 to 0 in the first
call and never back; and from statics with `init = 0` no call changes `init`
or any entry of `H1`, `H2`, `H3`, whatever image, order and radius are
passed. -/
theorem init_flag_invariant (sqrt : K → K) (st : Statics K) (calls : List (Call K))
    (hpass : ∀ c ∈ calls, effectiveOrder c.order < MAX_L) :
    (∀ k, 0 < k → calls ≠ [] → (staticsAfter sqrt st (calls.take k)).init = false
      ∧ staticsAfter sqrt st (calls.take k) = initStatics st) ∧
    (st.init = false → staticsAfter sqrt st calls = st) ∧
    (∀ (c : Call K) (st' : Statics K), st'.init = false → staticsAfterCall sqrt st' c = st') := by
  refine ⟨?_, ?_, ?_⟩
  · intro k hk hne
    have hne' : calls.take k ≠ [] := by
      cases calls with
      | nil => exact absurd rfl hne
      | cons c cs =>
        obtain ⟨k', rfl⟩ : ∃ k', k = k' + 1 := ⟨k - 1, by omega⟩
        simp
    have h := staticsAfter_passing sqrt st (calls.take k) hne'
      (fun c hc => hpass c (List.mem_of_mem_take hc))
    exact ⟨by rw [h]; exact initStatics_init st, h⟩
  · intro hst
    by_cases hne : calls = []
    · subst hne; rfl
    · rw [staticsAfter_passing sqrt st calls hne hpass, initStatics_idem st hst]
  · intro c st' hst'
    rw [staticsAfterCall_eq]
    split_ifs
    · exact initStatics_idem st' hst'
    · rfl

end

end Zernike

/-! ## The coefficient tables -/

namespace Zernike

section
variable {K : Type} [LinearOrderedField K]

/-- C13: after the coefficient initialiser has run (in this call or in an
earlier one), for every pair `(n, m)` with `0 ≤ m < n < 32` the table entries
are `H3[n][m] = -4(m+2)(m+1) / ((n+m+2)(n-m))`,
`H2[n][m] = H3[n][m](n+m+4)(n-m-2) / (4(m+3)) + (m+2)` and
`H1[n][m] = (m+4)(m+3)/2 - (m+4) H2[n][m] + H3[n][m](n+m+6)(n-m-4)/8` in exact
arithmetic, and no divisor of these formulas is zero. -/
theorem table_entries (st : Statics K)
    (hst : st.init = true ∨ ∃ st0 : Statics K, st0.init = true ∧ st = initStatics st0)
    (n m : Nat) (hm : m < n) (hn : n < 32) :
    (initStatics st).H3 n m
      = -4 * ((m : K) + 2) * ((m : K) + 1) / (((n : K) + m + 2) * ((n : K) - m)) ∧
    (initStatics st).H2 n m
      = (initStatics st).H3 n m * ((n : K) + m + 4) * ((n : K) - m - 2) / (4 * ((m : K) + 3))
        + ((m : K) + 2) ∧
    (initStatics st).H1 n m
      = ((m : K) + 4) * ((m : K) + 3) / 2 - ((m : K) + 4) * (initStatics st).H2 n m
        + (initStatics st).H3 n m * ((n : K) + m + 6) * ((n : K) - m - 4) / 8 ∧
    ((n : K) + m + 2) * ((n : K) - m) ≠ 0 ∧ 4 * ((m : K) + 3) ≠ 0 ∧ (2 : K) ≠ 0 ∧ (8 : K) ≠ 0 := by
  obtain ⟨h1, h2, h3⟩ := tables_ready st hst n m hm (by unfold MAX_L; exact hn)
  have hnm : (0 : K) < (n : K) - m := by
    have : (m : K) < (n : K) := by exact_mod_cast hm
    linarith
  refine ⟨?_, ?_, ?_, ?_, by positivity, by norm_num, by norm_num⟩
  · rw [h3]; unfold coefH3; ring
  · rw [h2, h3]; unfold coefH2; ring
  · rw [h1, h2, h3]; unfold coefH1; ring
  · exact mul_ne_zero (by positivity) (ne_of_gt hnm)

/-- Witness of C13: the entry `(4, 0)` of the tables of a first call. -/
theorem table_entries_witness :
    ((Statics.fresh : Statics ℚ).init = true
      ∨ ∃ st0 : Statics ℚ, st0.init = true ∧ Statics.fresh = initStatics st0) ∧
    0 < 4 ∧ 4 < 32 ∧
    (initStatics (Statics.fresh : Statics ℚ)).H3 4 0
      = -4 * (((0 : Nat) : ℚ) + 2) * (((0 : Nat) : ℚ) + 1)
        / ((((4 : Nat) : ℚ) + (0 : Nat) + 2) * (((4 : Nat) : ℚ) - (0 : Nat))) ∧
    (initStatics (Statics.fresh : Statics ℚ)).H2 4 0
      = (initStatics (Statics.fresh : Statics ℚ)).H3 4 0 * (((4 : Nat) : ℚ) + (0 : Nat) + 4)
          * (((4 : Nat) : ℚ) - (0 : Nat) - 2) / (4 * (((0 : Nat) : ℚ) + 3))
        + (((0 : Nat) : ℚ) + 2) ∧
    (initStatics (Statics.fresh : Statics ℚ)).H1 4 0
      = (((0 : Nat) : ℚ) + 4) * (((0 : Nat) : ℚ) + 3) / 2
        - (((0 : Nat) : ℚ) + 4) * (initStatics (Statics.fresh : Statics ℚ)).H2 4 0
        + (initStatics (Statics.fresh : Statics ℚ)).H3 4 0 * (((4 : Nat) : ℚ) + (0 : Nat) + 6)
          * (((4 : Nat) : ℚ) - (0 : Nat) - 4) / 8 ∧
    (((4 : Nat) : ℚ) + (0 : Nat) + 2) * (((4 : Nat) : ℚ) - (0 : Nat)) ≠ 0 ∧
    4 * (((0 : Nat) : ℚ) + 3) ≠ 0 ∧ (2 : ℚ) ≠ 0 ∧ (8 : ℚ) ≠ 0 :=
  ⟨Or.inl rfl, by decide, by decide,
    table_entries Statics.fresh (Or.inl rfl) 4 0 (by decide) (by decide)⟩

/-- The three coefficients of lines 99-101 add up to one. -/
theorem coef_sum (n m : Nat) (hm : m < n) :
    (coefH1 n m + coefH2 n m + coefH3 n m : K) = 1 := by
  have hnm : (0 : K) < (n : K) - m := by
    have : (m : K) < (n : K) := by exact_mod_cast hm
    linarith
  have h1 : ((n : K) + m + 2) ≠ 0 := by positivity
  have h2 : ((n : K) - m) ≠ 0 := ne_of_gt hnm
  have h3 : ((m : K) + 3) ≠ 0 := by positivity
  unfold coefH1 coefH2 coefH3
  field_simp
  ring

/-- With tables whose coefficients add up to one, every value of `Rnm` at
`r = 1` is one. -/
theorem radialStep_one (H : Statics K) (n : Nat)
    (hH : ∀ m, m + 4 ≤ n → H.H1 n m + H.H2 n m + H.H3 n m = 1) (k : Nat) (hk : 2 * k ≤ n) :
    radialStep H 1 1 n k = 1 := by
  induction k using Nat.strong_induction_on with
  | _ k ih =>
    by_cases k0 : k = 0
    · subst k0; simp [radialStep]
    by_cases k1 : k = 1
    · subst k1; simp [radialStep]
    · obtain ⟨P, rfl⟩ : ∃ P, k = P + 2 := ⟨k - 2, by omega⟩
      show H.H1 _ _ * radialStep H 1 1 n P
        + (H.H2 _ _ + H.H3 _ _ / 1) * radialStep H 1 1 n (P + 1) = 1
      rw [ih P (by omega) (by omega), ih (P + 1) (by omega) (by omega)]
      have := hH (n - 2 * (P + 2)) (by omega)
      linear_combination this

/-- C20: for every pair `(n, m)` with `0 ≤ m < n < 32` the initialised
coefficients satisfy `H1[n][m] + H2[n][m] + H3[n][m] = 1` in exact arithmetic;
so at `r = 1` (`r2 = 1`) the three-term case of line 159 turns
`Rnmp4 = Rnmp2 = 1` into `Rnm = 1`, which is the value `R_n^m(1) = 1` of the
Zernike radial polynomial. -/
theorem coefficients_sum_to_one (st : Statics K)
    (hst : st.init = true ∨ ∃ st0 : Statics K, st0.init = true ∧ st = initStatics st0)
    (n m : Nat) (hm : m < n) (hn : n < 32) :
    (initStatics st).H1 n m + (initStatics st).H2 n m + (initStatics st).H3 n m = 1 ∧
    (∀ (c : K) (s : Locals K), m + 4 ≤ n → s.Rnmp4 = 1 → s.Rnmp2 = 1 →
      (mStep (initStatics st) 1 c n m s).Rnm = 1) ∧
    ((n - m) % 2 = 0 → zernikeRadial n m (1 : K) = 1) := by
  have hsum : ∀ a b, b < a → a < 32 →
      (initStatics st).H1 a b + (initStatics st).H2 a b + (initStatics st).H3 a b = 1 := by
    intro a b hb ha
    obtain ⟨h1, h2, h3⟩ := tables_ready st hst a b hb (by unfold MAX_L; exact ha)
    rw [h1, h2, h3]
    exact coef_sum a b hb
  refine ⟨hsum n m hm hn, ?_, ?_⟩
  · intro c s h4 hp4 hp2
    rw [(mStep_three (initStatics st) 1 c n m s h4).1, hp4, hp2]
    linear_combination hsum n m hm hn
  · intro hpar
    have hk : 2 * ((n - m) / 2) ≤ n := by omega
    have hnm : n - 2 * ((n - m) / 2) = m := by omega
    have h1 := radialStep_eq_zernikeRadial (initStatics st) (tables_ready st hst) 1 one_ne_zero n
      (by unfold MAX_L; exact hn) ((n - m) / 2) hk
    rw [hnm, mul_one] at h1
    rw [← h1]
    exact radialStep_one (initStatics st) n (fun b hb => hsum n b (by omega) hn) _ hk

/-- Witness of C20: the entry `(4, 0)` of the tables of a first call. -/
theorem coefficients_sum_to_one_witness :
    ((Statics.fresh : Statics ℚ).init = true
      ∨ ∃ st0 : Statics ℚ, st0.init = true ∧ Statics.fresh = initStatics st0) ∧
    0 < 4 ∧ 4 < 32 ∧
    (initStatics (Statics.fresh : Statics ℚ)).H1 4 0
      + (initStatics (Statics.fresh : Statics ℚ)).H2 4 0
      + (initStatics (Statics.fresh : Statics ℚ)).H3 4 0 = 1 ∧
    (∀ (c : ℚ) (s : Locals ℚ), 0 + 4 ≤ 4 → s.Rnmp4 = 1 → s.Rnmp2 = 1 →
      (mStep (initStatics Statics.fresh) 1 c 4 0 s).Rnm = 1) ∧
    ((4 - 0) % 2 = 0 → zernikeRadial 4 0 (1 : ℚ) = 1) :=
  ⟨Or.inl rfl, by decide, by decide,
    coefficients_sum_to_one Statics.fresh (Or.inl rfl) 4 0 (by decide) (by decide)⟩

end

end Zernike

/-! ## Carried values of the radial recurrence, and the angular tables -/

namespace Zernike

section
variable {K : Type} [LinearOrderedField K]

/-- The iteration for `(n, n - 2k)` starts from the locals left by the
iteration for `(n, n - 2(k-1))`. -/
theorem localsAfter_succ (H : Statics K) (L : Nat) (r r2 f a b : K) (n k : Nat) (s : Locals K)
    (hk : 2 * (k + 1) ≤ n) :
    localsAfter H L r r2 f a b n (k + 1) s
      = mStep H r2 (constT n f) n (n - 2 * (k + 1)) (localsAfter H L r r2 f a b n k s) := by
  unfold localsAfter
  rw [repetitions_take n (k + 1) hk, repetitions_take n k (by omega), List.range_succ,
    List.map_append, List.foldl_append]
  rfl

/-- The variables `Rnmp2` and `Rnmp4` after the iteration for `(n, n - 2k)`,
`k ≥ 1`. -/
theorem localsAfter_carried (H : Statics K) (L : Nat) (r r2 f a b : K) (n k : Nat)
    (s : Locals K) (hn : n ≤ L) (hk1 : 1 ≤ k) (hk : 2 * k ≤ n) :
    (localsAfter H L r r2 f a b n k s).Rnmp2 = radialStep H r r2 n k ∧
    (localsAfter H L r r2 f a b n k s).Rnmp4 = radialStep H r r2 n (k - 1) := by
  unfold localsAfter
  rw [repetitions_take n k hk]
  obtain ⟨hR, -⟩ := pixelEnter_tables L r a b s
  obtain ⟨-, -, gR, -⟩ := nLoop_spec H r r2 f L (pixelEnter L r a b s) hR n (by omega)
  obtain ⟨e1, e2, -⟩ := nEnter_spec n
    ((List.range n).foldl (fun s n' => nStep H r2 f n' s) (pixelEnter L r a b s))
  rw [gR] at e1 e2
  obtain ⟨-, -, -, -, -, -, -, -, -, hp⟩ := mLoop_spec H r r2 (constT n f) n _
    (by rw [e1]; exact hR n hn) (fun h => by rw [e2 h]; exact hR _ (by omega)) (k + 1) (by omega)
  obtain ⟨p4, p2⟩ := hp (by omega)
  exact ⟨p2, p4⟩

/-- C16: for every pixel that is not skipped, every `n` with `4 ≤ n ≤ L` and
every `m ≤ n - 4` with `n - m` even, the iteration for `(n, m)` starts from the
locals left by the iteration for `(n, m+2)`, in which `Rnmp2` is the value of
`Rnm` computed for `(n, m+2)` and `Rnmp4` the value of `Rnm` computed for
`(n, m+4)` of the same pixel and the same `n`; so the three-term case combines
these two values.  This holds whatever the locals contain when the body of the
pixel loop is entered, that is whatever earlier orders and pixels left. -/
theorem carried_radial_values (H : Statics K) (L : Nat) (r r2 f a b : K) (n m : Nat)
    (s : Locals K) (hn : n ≤ L) (hm : m + 4 ≤ n) (hpar : (n - m) % 2 = 0) :
    localsAfter H L r r2 f a b n ((n - m) / 2) s
      = mStep H r2 (constT n f) n m (localsAfter H L r r2 f a b n ((n - (m + 2)) / 2) s) ∧
    (localsAfter H L r r2 f a b n ((n - (m + 2)) / 2) s).Rnmp2
      = (localsAfter H L r r2 f a b n ((n - (m + 2)) / 2) s).Rnm ∧
    (localsAfter H L r r2 f a b n ((n - (m + 2)) / 2) s).Rnmp4
      = (localsAfter H L r r2 f a b n ((n - (m + 4)) / 2) s).Rnm ∧
    (localsAfter H L r r2 f a b n ((n - m) / 2) s).Rnm
      = H.H1 n m * (localsAfter H L r r2 f a b n ((n - (m + 4)) / 2) s).Rnm
        + (H.H2 n m + H.H3 n m / r2)
          * (localsAfter H L r r2 f a b n ((n - (m + 2)) / 2) s).Rnm := by
  obtain ⟨k, hk⟩ : ∃ k, (n - m) / 2 = k + 2 := ⟨(n - m) / 2 - 2, by omega⟩
  have e2 : (n - (m + 2)) / 2 = k + 1 := by omega
  have e4 : (n - (m + 4)) / 2 = k := by omega
  have hmk : n - 2 * (k + 1 + 1) = m := by omega
  have hstep := localsAfter_succ H L r r2 f a b n (k + 1) s (by omega)
  rw [hmk] at hstep
  obtain ⟨c2, c4⟩ := localsAfter_carried H L r r2 f a b n (k + 1) s hn (by omega) (by omega)
  have r1 := localsAfter_Rnm H L r r2 f a b n (k + 1) s hn (by omega)
  have r0 := localsAfter_Rnm H L r r2 f a b n k s hn (by omega)
  rw [hk, e2, e4]
  refine ⟨hstep, by rw [c2, r1], by rw [c4, r0]; rfl, ?_⟩
  rw [hstep, (mStep_three H r2 (constT n f) n m _ hm).1, c2, c4, r1, r0]
  rfl

/-- Witness of C16: `n = 6`, `m = 0` at order 6. -/
theorem carried_radial_values_witness :
    6 ≤ 6 ∧ 0 + 4 ≤ 6 ∧ (6 - 0) % 2 = 0 ∧
    (localsAfter (initStatics (Statics.fresh : Statics ℚ)) 6 (1 / 2) (1 / 4) 1 0 1 6
        ((6 - 0) / 2) Locals.blank
      = mStep (initStatics Statics.fresh) (1 / 4) (constT 6 1) 6 0
          (localsAfter (initStatics Statics.fresh) 6 (1 / 2) (1 / 4) 1 0 1 6 ((6 - (0 + 2)) / 2)
            Locals.blank) ∧
    (localsAfter (initStatics (Statics.fresh : Statics ℚ)) 6 (1 / 2) (1 / 4) 1 0 1 6
        ((6 - (0 + 2)) / 2) Locals.blank).Rnmp2
      = (localsAfter (initStatics (Statics.fresh : Statics ℚ)) 6 (1 / 2) (1 / 4) 1 0 1 6
        ((6 - (0 + 2)) / 2) Locals.blank).Rnm ∧
    (localsAfter (initStatics (Statics.fresh : Statics ℚ)) 6 (1 / 2) (1 / 4) 1 0 1 6
        ((6 - (0 + 2)) / 2) Locals.blank).Rnmp4
      = (localsAfter (initStatics (Statics.fresh : Statics ℚ)) 6 (1 / 2) (1 / 4) 1 0 1 6
        ((6 - (0 + 4)) / 2) Locals.blank).Rnm ∧
    (localsAfter (initStatics (Statics.fresh : Statics ℚ)) 6 (1 / 2) (1 / 4) 1 0 1 6
        ((6 - 0) / 2) Locals.blank).Rnm
      = (initStatics (Statics.fresh : Statics ℚ)).H1 6 0
          * (localsAfter (initStatics (Statics.fresh : Statics ℚ)) 6 (1 / 2) (1 / 4) 1 0 1 6
            ((6 - (0 + 4)) / 2) Locals.blank).Rnm
        + ((initStatics (Statics.fresh : Statics ℚ)).H2 6 0
            + (initStatics (Statics.fresh : Statics ℚ)).H3 6 0 / (1 / 4))
          * (localsAfter (initStatics (Statics.fresh : Statics ℚ)) 6 (1 / 2) (1 / 4) 1 0 1 6
            ((6 - (0 + 2)) / 2) Locals.blank).Rnm) :=
  ⟨by decide, by decide, by decide,
    carried_radial_values (initStatics Statics.fresh) 6 (1 / 2) (1 / 4) 1 0 1 6 0 Locals.blank
      (by decide) (by decide) (by decide)⟩

end

/-- The angular tables in terms of the polar angle: the entry of index `m`
holds the cosine and the sine of `(m + 1) θ`. -/
theorem angleAt_cos_sin (θ : ℝ) (m : Nat) :
    angleAt (Real.cos θ) (Real.sin θ) m
      = (Real.cos (((m : ℝ) + 1) * θ), Real.sin (((m : ℝ) + 1) * θ)) := by
  induction m with
  | zero => simp [angleAt]
  | succ m ih =>
    have e : (((m + 1 : Nat) : ℝ) + 1) * θ = θ + ((m : ℝ) + 1) * θ := by push_cast; ring
    simp only [angleAt, ih, e, Real.cos_add, Real.sin_add]
    exact Prod.ext (by simp only) (by simp only; ring)

/-- C14 (the code at a pixel straight above the centroid): in the image of
width 1 and height 2 with both intensities 1, called with `rad = 1`, the
centroid is `(1, 3/2)`, so the pixel `(i, j) = (0, 1)` has the disk coordinates
`(x, y) = (0, 1/2)`, the radius `r = 1/2` and the polar angle `θ = π/2`, and
it is not skipped.  For it the tables built by lines 128-136 have
`COST[0] = 0`, `SINT[0] = 1` and `COST[1] = -1`, whereas `cos(0 θ) = 1`,
`sin(0 θ) = 0` and `cos(1 θ) = 0`. -/
theorem angular_tables_off_by_one :
    (moments (uniformImage 1 2 (1 : ℝ))).moment10 / (moments (uniformImage 1 2 (1 : ℝ))).moment00
      = 1 ∧
    (moments (uniformImage 1 2 (1 : ℝ))).moment01 / (moments (uniformImage 1 2 (1 : ℝ))).moment00
      = 3 / 2 ∧
    (((0 : Nat) : ℝ) + 1 - 1) / 1 = 0 ∧ (((1 : Nat) : ℝ) + 1 - 3 / 2) / 1 = 1 / 2 ∧
    Real.sqrt ((0 : ℝ) * 0 + 1 / 2 * (1 / 2)) = 1 / 2 ∧
    ¬ ((1 / 2 : ℝ) < (DBL_EPSILON : ℝ) ∨ (1 / 2 : ℝ) > 1) ∧
    Real.cos (Real.pi / 2) = (0 : ℝ) / (1 / 2) ∧ Real.sin (Real.pi / 2) = (1 / 2 : ℝ) / (1 / 2) ∧
    (pixelEnter 1 (1 / 2 : ℝ) (0 / (1 / 2)) ((1 / 2) / (1 / 2)) Locals.blank).COST 0 = 0 ∧
    Real.cos (0 * (Real.pi / 2)) = 1 ∧
    (pixelEnter 1 (1 / 2 : ℝ) (0 / (1 / 2)) ((1 / 2) / (1 / 2)) Locals.blank).SINT 0 = 1 ∧
    Real.sin (0 * (Real.pi / 2)) = 0 ∧
    (pixelEnter 1 (1 / 2 : ℝ) (0 / (1 / 2)) ((1 / 2) / (1 / 2)) Locals.blank).COST 1 = -1 ∧
    Real.cos (1 * (Real.pi / 2)) = 0 := by
  obtain ⟨-, hC, hS, -⟩ := pixelEnter_tables 1 (1 / 2 : ℝ) (0 / (1 / 2)) ((1 / 2) / (1 / 2))
    Locals.blank
  obtain ⟨-, m2, m3, m4⟩ := moments_spec (uniformImage 1 2 (1 : ℝ))
  have hsq : Real.sqrt ((0 : ℝ) * 0 + 1 / 2 * (1 / 2)) = 1 / 2 := by
    have e : (0 : ℝ) * 0 + 1 / 2 * (1 / 2) = (1 / 2) ^ 2 := by norm_num
    rw [e, Real.sqrt_sq (by norm_num)]
  refine ⟨?_, ?_, by norm_num, by norm_num, hsq, ?_, by simp, by simp, ?_, by simp, ?_,
    by simp, ?_, by simp⟩
  · rw [m2, m3]; simp [uniformImage, Finset.sum_range_succ]
  · rw [m2, m4]; simp [uniformImage, Finset.sum_range_succ]; norm_num
  · simp only [DBL_EPSILON]; norm_num
  · rw [hC 0 (by decide)]; simp [angleAt]
  · rw [hS 0 (by decide)]; simp [angleAt]
  · rw [hC 1 (by decide)]; simp [angleAt]

end Zernike

/-! ## Scaling the intensities and negating the radius -/

namespace Zernike

section
variable {K : Type} [LinearOrderedField K]

/-- Two calls at the same order whose valid cells get the same magnitudes
report the same count and write the same values. -/
theorem mb_zernike2D_agree [FloorRing K] (sqrt : K → K) (st st' : Statics K)
    (stk stk' : Locals K) (I I' : ImageMatrix K) (order rad rad' : K) (zv zv' : Nat → K)
    (hL : effectiveOrder order < MAX_L)
    (hmag : ∀ p ∈ validPairs (effectiveOrder order),
      zernikeMagnitude sqrt (initStatics st') I' (effectiveRadius I' rad') p.1 p.2
        = zernikeMagnitude sqrt (initStatics st) I (effectiveRadius I rad) p.1 p.2) :
    ∃ o o', mb_zernike2D sqrt st stk I order rad zv = Except.ok o ∧
      mb_zernike2D sqrt st' stk' I' order rad' zv' = Except.ok o' ∧
      o'.output_size = o.output_size ∧
      ∀ k, k < o.output_size → o'.zvalues k = o.zvalues k := by
  obtain ⟨o, ho, -, hz⟩ := mb_zernike2D_spec sqrt st stk I order rad zv hL
  obtain ⟨o', ho', -, hz'⟩ := mb_zernike2D_spec sqrt st' stk' I' order rad' zv' hL
  rw [List.map_congr_left hmag] at hz'
  obtain ⟨e1, e2, -⟩ := emit_spec ((validPairs (effectiveOrder order)).map
      (fun p => zernikeMagnitude sqrt (initStatics st) I (effectiveRadius I rad) p.1 p.2)) zv 0
  obtain ⟨e1', e2', -⟩ := emit_spec ((validPairs (effectiveOrder order)).map
      (fun p => zernikeMagnitude sqrt (initStatics st) I (effectiveRadius I rad) p.1 p.2)) zv' 0
  rw [← hz] at e1 e2
  rw [← hz'] at e1' e2'
  simp only at e1 e2 e1' e2'
  refine ⟨o, o', ho, ho', by rw [e1, e1'], ?_⟩
  intro k hk
  have a := e2 k (Nat.zero_le _) (by omega)
  have b := e2' k (Nat.zero_le _) (by omega)
  rw [a] at b
  exact (Option.some.inj b).symm

/-! ### Scaling the intensities -/

theorem scaleImage_width (c : K) (I : ImageMatrix K) : (scaleImage c I).width = I.width := rfl

theorem scaleImage_height (c : K) (I : ImageMatrix K) : (scaleImage c I).height = I.height := rfl

theorem scaleImage_pixel (c : K) (I : ImageMatrix K) (i j : Nat) :
    (scaleImage c I).pixel i j = c * I.pixel i j := rfl

/-- The centroid scan of the scaled image: every accumulator is multiplied by
the factor. -/
theorem moments_scaleImage (c : K) (I : ImageMatrix K) :
    (moments (scaleImage c I)).sum = c * (moments I).sum ∧
    (moments (scaleImage c I)).moment00 = c * (moments I).moment00 ∧
    (moments (scaleImage c I)).moment10 = c * (moments I).moment10 ∧
    (moments (scaleImage c I)).moment01 = c * (moments I).moment01 := by
  obtain ⟨a1, a2, a3, a4⟩ := moments_spec I
  obtain ⟨b1, b2, b3, b4⟩ := moments_spec (scaleImage c I)
  rw [a1, a2, a3, a4, b1, b2, b3, b4]
  simp only [scaleImage_width, scaleImage_height, scaleImage_pixel, Finset.mul_sum]
  refine ⟨trivial, trivial, ?_, ?_⟩ <;>
  · apply Finset.sum_congr rfl
    intro i _
    apply Finset.sum_congr rfl
    intro j _
    exact mul_left_comm _ _ _

theorem pixelTerm_scaleImage (sqrt : K → K) (H : Statics K) (I : ImageMatrix K)
    (c rad S cx cy : K) (hc : c ≠ 0) (i j n m : Nat) :
    pixelTermR sqrt H (scaleImage c I) rad (c * S) cx cy i j n m
      = pixelTermR sqrt H I rad S cx cy i j n m ∧
    pixelTermI sqrt H (scaleImage c I) rad (c * S) cx cy i j n m
      = pixelTermI sqrt H I rad S cx cy i j n m := by
  unfold pixelTermR pixelTermI
  simp only [scaleImage_pixel, mul_div_mul_left _ _ hc, and_self]

theorem accum_scaleImage (sqrt : K → K) (H : Statics K) (I : ImageMatrix K) (c rad : K)
    (hc : c ≠ 0) (n m : Nat) :
    accumR sqrt H (scaleImage c I) rad n m = accumR sqrt H I rad n m ∧
    accumI sqrt H (scaleImage c I) rad n m = accumI sqrt H I rad n m := by
  obtain ⟨m1, m2, m3, m4⟩ := moments_scaleImage c I
  unfold accumR accumI
  rw [m1, m2, m3, m4, mul_div_mul_left _ _ hc, mul_div_mul_left _ _ hc]
  simp only [scaleImage_width, scaleImage_height]
  constructor <;>
  · apply Finset.sum_congr rfl
    intro i _
    apply Finset.sum_congr rfl
    intro j _
    first
      | exact (pixelTerm_scaleImage sqrt H I c rad _ _ _ hc i j n m).1
      | exact (pixelTerm_scaleImage sqrt H I c rad _ _ _ hc i j n m).2

theorem effectiveRadius_scaleImage (c : K) (I : ImageMatrix K) (rad : K) :
    effectiveRadius (scaleImage c I) rad = effectiveRadius I rad := rfl

/-- C18: for every image with non-zero total intensity, every accepted order,
every radius and every factor `c ≠ 0`, multiplying every pixel intensity by `c`
leaves both centroid coordinates unchanged, and the call on the scaled image
reports the same count and writes the same magnitude at every output position
as the call on the image itself, in exact arithmetic and whatever the
uninitialised locals and the two buffers hold. -/
theorem intensity_scale_invariance [FloorRing K] (sqrt : K → K) (st : Statics K)
    (stk stk' : Locals K) (I : ImageMatrix K) (order rad c : K) (zv zv' : Nat → K)
    (hc : c ≠ 0) (hS : (moments I).sum ≠ 0) (hL : effectiveOrder order < MAX_L) :
    (moments (scaleImage c I)).sum ≠ 0 ∧
    (moments (scaleImage c I)).moment10 / (moments (scaleImage c I)).moment00
      = (moments I).moment10 / (moments I).moment00 ∧
    (moments (scaleImage c I)).moment01 / (moments (scaleImage c I)).moment00
      = (moments I).moment01 / (moments I).moment00 ∧
    ∃ o o', mb_zernike2D sqrt st stk I order rad zv = Except.ok o ∧
      mb_zernike2D sqrt st stk' (scaleImage c I) order rad zv' = Except.ok o' ∧
      o'.output_size = o.output_size ∧
      ∀ k, k < o.output_size → o'.zvalues k = o.zvalues k := by
  obtain ⟨m1, m2, m3, m4⟩ := moments_scaleImage c I
  refine ⟨by rw [m1]; exact mul_ne_zero hc hS,
    by rw [m2, m3, mul_div_mul_left _ _ hc], by rw [m2, m4, mul_div_mul_left _ _ hc],
    mb_zernike2D_agree sqrt st st stk stk' I (scaleImage c I) order rad rad zv zv' hL ?_⟩
  intro p _
  obtain ⟨h1, h2⟩ := accum_scaleImage sqrt (initStatics st) I c (effectiveRadius I rad) hc p.1 p.2
  unfold zernikeMagnitude
  rw [effectiveRadius_scaleImage, h1, h2]

/-! ### Negating the radius -/

theorem angleAt_neg (a b : K) (m : Nat) :
    angleAt (-a) (-b) m
      = ((-1) ^ (m + 1) * (angleAt a b m).1, (-1) ^ (m + 1) * (angleAt a b m).2) := by
  induction m with
  | zero => simp [angleAt]
  | succ m ih =>
    simp only [angleAt, ih]
    refine Prod.ext ?_ ?_ <;> (simp only; ring)

theorem pixelTerm_neg_rad (sqrt : K → K) (H : Statics K) (I : ImageMatrix K)
    (rad S cx cy : K) (i j n m : Nat) :
    pixelTermR sqrt H I (-rad) S cx cy i j n m
      = (-1) ^ (m + 1) * pixelTermR sqrt H I rad S cx cy i j n m ∧
    pixelTermI sqrt H I (-rad) S cx cy i j n m
      = (-1) ^ (m + 1) * pixelTermI sqrt H I rad S cx cy i j n m := by
  unfold pixelTermR pixelTermI
  simp only [div_neg, neg_mul_neg, neg_div, angleAt_neg]
  constructor <;>
  · split_ifs
    · rw [mul_zero]
    · ring

theorem accum_neg_rad (sqrt : K → K) (H : Statics K) (I : ImageMatrix K) (rad : K)
    (n m : Nat) :
    accumR sqrt H I (-rad) n m = (-1) ^ (m + 1) * accumR sqrt H I rad n m ∧
    accumI sqrt H I (-rad) n m = (-1) ^ (m + 1) * accumI sqrt H I rad n m := by
  unfold accumR accumI
  simp only [Finset.mul_sum]
  constructor <;>
  · apply Finset.sum_congr rfl
    intro i _
    apply Finset.sum_congr rfl
    intro j _
    first
      | exact (pixelTerm_neg_rad sqrt H I rad _ _ _ i j n m).1
      | exact (pixelTerm_neg_rad sqrt H I rad _ _ _ i j n m).2

theorem zernikeMagnitude_neg_rad (sqrt : K → K) (H : Statics K) (I : ImageMatrix K) (rad : K)
    (n m : Nat) :
    zernikeMagnitude sqrt H I (-rad) n m = zernikeMagnitude sqrt H I rad n m := by
  obtain ⟨h1, h2⟩ := accum_neg_rad sqrt H I rad n m
  have hsq : ((-1 : K) ^ (m + 1)) * ((-1 : K) ^ (m + 1)) = 1 := by
    rw [← mul_pow]; simp
  unfold zernikeMagnitude
  rw [h1, h2]
  congr 2
  linear_combination (accumR sqrt H I rad n m * accumR sqrt H I rad n m
    + accumI sqrt H I rad n m * accumI sqrt H I rad n m) * hsq

theorem effectiveRadius_of_ne_zero (I : ImageMatrix K) (rad : K) (h : rad ≠ 0) :
    effectiveRadius I rad = rad := by
  unfold effectiveRadius
  simp [h]

/-- C19: for every image with non-zero total intensity, every accepted order
and every `rad > 0`, the call with the radius `-rad` keeps the negative radius
(line 59 does not replace it), reports the same count and writes the same
magnitude at every output position as the call with the radius `rad`, in exact
arithmetic and whatever the uninitialised locals and the two buffers hold. -/
theorem radius_sign_irrelevant [FloorRing K] (sqrt : K → K) (st : Statics K)
    (stk stk' : Locals K) (I : ImageMatrix K) (order rad : K) (zv zv' : Nat → K)
    (_hS : (moments I).sum ≠ 0) (hL : effectiveOrder order < MAX_L) (hrad : 0 < rad) :
    effectiveRadius I (-rad) = -rad ∧ effectiveRadius I rad = rad ∧
    ∃ o o', mb_zernike2D sqrt st stk I order rad zv = Except.ok o ∧
      mb_zernike2D sqrt st stk' I order (-rad) zv' = Except.ok o' ∧
      o'.output_size = o.output_size ∧
      ∀ k, k < o.output_size → o'.zvalues k = o.zvalues k := by
  have e1 := effectiveRadius_of_ne_zero I (-rad) (neg_ne_zero.mpr hrad.ne')
  have e2 := effectiveRadius_of_ne_zero I rad hrad.ne'
  refine ⟨e1, e2, mb_zernike2D_agree sqrt st st stk stk' I I order rad (-rad) zv zv' hL ?_⟩
  intro p _
  rw [e1, e2, zernikeMagnitude_neg_rad]

end

/-- Witness of C18: the `3 × 2` ramp image scaled by `-3`, at order 4 and
radius 2. -/
theorem intensity_scale_invariance_witness :
    (-3 : ℝ) ≠ 0 ∧ (moments (rampImage 3 2 : ImageMatrix ℝ)).sum ≠ 0 ∧
    effectiveOrder (4 : ℝ) < MAX_L ∧
    (moments (scaleImage (-3) (rampImage 3 2 : ImageMatrix ℝ))).sum ≠ 0 ∧
    (moments (scaleImage (-3) (rampImage 3 2 : ImageMatrix ℝ))).moment10
        / (moments (scaleImage (-3) (rampImage 3 2 : ImageMatrix ℝ))).moment00
      = (moments (rampImage 3 2 : ImageMatrix ℝ)).moment10
        / (moments (rampImage 3 2 : ImageMatrix ℝ)).moment00 ∧
    (moments (scaleImage (-3) (rampImage 3 2 : ImageMatrix ℝ))).moment01
        / (moments (scaleImage (-3) (rampImage 3 2 : ImageMatrix ℝ))).moment00
      = (moments (rampImage 3 2 : ImageMatrix ℝ)).moment01
        / (moments (rampImage 3 2 : ImageMatrix ℝ)).moment00 ∧
    ∃ o o', mb_zernike2D Real.sqrt Statics.fresh Locals.blank (rampImage 3 2) 4 2 zeroBuffer
        = Except.ok o ∧
      mb_zernike2D Real.sqrt Statics.fresh Locals.blank (scaleImage (-3) (rampImage 3 2)) 4 2
        zeroBuffer = Except.ok o' ∧
      o'.output_size = o.output_size ∧
      ∀ k, k < o.output_size → o'.zvalues k = o.zvalues k :=
  ⟨by norm_num,
    by rw [(moments_spec _).1]; simp [rampImage, Finset.sum_range_succ]; norm_num,
    by simp [effectiveOrder, MAX_L],
    intensity_scale_invariance Real.sqrt Statics.fresh Locals.blank Locals.blank (rampImage 3 2)
      4 2 (-3) zeroBuffer zeroBuffer (by norm_num)
      (by rw [(moments_spec _).1]; simp [rampImage, Finset.sum_range_succ]; norm_num)
      (by simp [effectiveOrder, MAX_L])⟩

/-- Witness of C19: the `3 × 2` ramp image at order 4, radius 2 and -2. -/
theorem radius_sign_irrelevant_witness :
    (moments (rampImage 3 2 : ImageMatrix ℝ)).sum ≠ 0 ∧ effectiveOrder (4 : ℝ) < MAX_L ∧
    (0 : ℝ) < 2 ∧
    effectiveRadius (rampImage 3 2 : ImageMatrix ℝ) (-2) = -2 ∧
    effectiveRadius (rampImage 3 2 : ImageMatrix ℝ) 2 = 2 ∧
    ∃ o o', mb_zernike2D Real.sqrt Statics.fresh Locals.blank (rampImage 3 2) 4 2 zeroBuffer
        = Except.ok o ∧
      mb_zernike2D Real.sqrt Statics.fresh Locals.blank (rampImage 3 2) 4 (-2) zeroBuffer
        = Except.ok o' ∧
      o'.output_size = o.output_size ∧
      ∀ k, k < o.output_size → o'.zvalues k = o.zvalues k :=
  ⟨by rw [(moments_spec _).1]; simp [rampImage, Finset.sum_range_succ]; norm_num,
    by simp [effectiveOrder, MAX_L], by norm_num,
    radius_sign_irrelevant Real.sqrt Statics.fresh Locals.blank Locals.blank (rampImage 3 2)
      4 2 zeroBuffer zeroBuffer
      (by rw [(moments_spec _).1]; simp [rampImage, Finset.sum_range_succ]; norm_num)
      (by simp [effectiveOrder, MAX_L]) (by norm_num)⟩

end Zernike

/-! ## Subscripts in range -/

namespace Zernike

section
variable {K : Type} [LinearOrderedField K]

end

section
variable {K : Type} [LinearOrderedField K]

end

/-- Witness of C17: the two calls of `sampleCalls`, from the statics of program
start. -/
theorem init_flag_invariant_witness :
    (∀ c ∈ sampleCalls, effectiveOrder c.order < MAX_L) ∧
    ((∀ k, 0 < k → sampleCalls ≠ [] →
      (staticsAfter (fun x => x) Statics.fresh (sampleCalls.take k)).init = false
      ∧ staticsAfter (fun x => x) Statics.fresh (sampleCalls.take k)
        = initStatics Statics.fresh) ∧
    ((Statics.fresh : Statics ℚ).init = false →
      staticsAfter (fun x => x) Statics.fresh sampleCalls = Statics.fresh) ∧
    (∀ (c : Call ℚ) (st' : Statics ℚ), st'.init = false →
      staticsAfterCall (fun x => x) st' c = st')) :=
  ⟨by intro c hc; simp only [sampleCalls, List.mem_cons, List.mem_singleton,
        List.mem_nil_iff, or_false] at hc; rcases hc with rfl | rfl <;>
        simp [effectiveOrder, MAX_L],
    init_flag_invariant (fun x => x) Statics.fresh sampleCalls
      (by intro c hc; simp only [sampleCalls, List.mem_cons, List.mem_singleton,
        List.mem_nil_iff, or_false] at hc; rcases hc with rfl | rfl <;>
        simp [effectiveOrder, MAX_L])⟩

end Zernike

/-! ## The routine on doubles: an order out of the range of `int`, and NaN -/

namespace Zernike

theorem Dbl.nan_add (a : Dbl) : Dbl.nan + a = Dbl.nan := by
  cases a <;> rfl

theorem Dbl.add_nan (a : Dbl) : a + Dbl.nan = Dbl.nan := by
  cases a <;> rfl

theorem Dbl.nan_mul (a : Dbl) : Dbl.nan * a = Dbl.nan := by
  cases a <;> rfl

theorem Dbl.mul_nan (a : Dbl) : a * Dbl.nan = Dbl.nan := by
  cases a <;> rfl

theorem Dbl.nan_div (a : Dbl) : Dbl.nan / a = Dbl.nan := by
  cases a <;> rfl

theorem Dbl.div_nan (a : Dbl) : a / Dbl.nan = Dbl.nan := by
  cases a <;> rfl

theorem Dbl.nan_sub (a : Dbl) : Dbl.nan - a = Dbl.nan := by
  cases a <;> rfl

theorem Dbl.sub_nan (a : Dbl) : a - Dbl.nan = Dbl.nan := by
  cases a <;> rfl

theorem Dbl.fin_add_fin (x y : ℚ) : Dbl.fin x + Dbl.fin y = Dbl.fin (x + y) := rfl

theorem Dbl.fin_mul_fin (x y : ℚ) : Dbl.fin x * Dbl.fin y = Dbl.fin (x * y) := rfl

theorem Dbl.zero_div_zero : Dbl.fin 0 / Dbl.fin 0 = Dbl.nan := by
  show Dbl.div (Dbl.fin 0) (Dbl.fin 0) = Dbl.nan
  simp [Dbl.div]

/-- Within the range of `int` the conversion of line 55 is the floor of the
embedding over a field. -/
theorem effectiveOrder_in_range (order : ℚ) (h : order < 2147483648) :
    Doubles.effectiveOrder (Dbl.fin order) = (effectiveOrder order : Int) := by
  unfold Doubles.effectiveOrder effectiveOrder
  by_cases h0 : 0 < order
  · have h1 : (-2147483649 : ℚ) < order := by linarith
    have h2 : Dbl.lt (Dbl.fin 0) (Dbl.fin order) = true := by simp [Dbl.lt, h0]
    rw [h2, if_pos rfl, if_pos h0]
    simp only [Dbl.toInt, h1, h, and_self, if_true, if_pos h0.le]
    exact (Int.natCast_floor_eq_floor h0.le).symm
  · have h2 : Dbl.lt (Dbl.fin 0) (Dbl.fin order) = false := by simp [Dbl.lt, h0]
    rw [h2, if_neg h0]
    simp

/-- The order `2^31` is out of the range of `int`. -/
theorem Doubles.effectiveOrder_two_pow_31 :
    Doubles.effectiveOrder (Dbl.fin 2147483648) = INT_MIN := by
  simp [Doubles.effectiveOrder, Dbl.lt, Dbl.toInt]

theorem Doubles.upTo_INT_MIN : Doubles.upTo INT_MIN = [] := by
  simp [Doubles.upTo, INT_MIN]

/-- C5 (the code at `order = 2^31`): the conversion of line 55 is out of the
range of `int L` and leaves `L = INT_MIN`, which passes `assert (L < MAX_L)`
although the order is at least 32; no loop bounded by `L` runs, and the call
returns with the count 0 and the buffer untouched. -/
theorem huge_order_passes_assertion :
    (32 : ℚ) ≤ 2147483648 ∧
    Doubles.effectiveOrder (Dbl.fin 2147483648) = INT_MIN ∧ INT_MIN < (MAX_L : Int) ∧
    ∃ o, Doubles.mb_zernike2D Rat.sqrt Statics.fresh Doubles.blank
        (uniformImage 2 2 (Dbl.fin 1)) (Dbl.fin 2147483648) (Dbl.fin 2) zeroBuffer
        = Except.ok o ∧
      o.output_size = 0 ∧ o.zvalues = zeroBuffer := by
  have hL : INT_MIN < (MAX_L : Int) := by simp [INT_MIN, MAX_L]
  refine ⟨by norm_num, Doubles.effectiveOrder_two_pow_31, hL, ?_⟩
  refine ⟨_, by simp only [Doubles.mb_zernike2D, Doubles.effectiveOrder_two_pow_31, if_pos hL]; rfl,
    ?_, ?_⟩
  · simp only [Doubles.extract, Doubles.upTo_INT_MIN, List.foldl_nil]
  · simp only [Doubles.extract, Doubles.upTo_INT_MIN, List.foldl_nil]

theorem Doubles.effectiveOrder_one : Doubles.effectiveOrder (Dbl.fin 1) = 1 := by
  norm_num [Doubles.effectiveOrder, Dbl.lt, Dbl.toInt]

theorem Doubles.upTo_one : Doubles.upTo 1 = [0, 1] := by
  simp [Doubles.upTo, List.range_succ]

/-- The centroid scan of the all-zero `2 × 2` image: every accumulator is 0. -/
theorem Doubles.moments_zero22 :
    Doubles.moments (uniformImage 2 2 (Dbl.fin 0))
      = { sum := Dbl.fin 0, moment10 := Dbl.fin 0, moment00 := Dbl.fin 0,
          moment01 := Dbl.fin 0 } := by
  simp [Doubles.moments, Doubles.momentStep, uniformImage, List.range_succ, Dbl.ofInt,
    Dbl.fin_add_fin, Dbl.fin_mul_fin]

theorem Doubles.constT_nan (n : Nat) : Doubles.constT n Dbl.nan = Dbl.nan := by
  simp only [Doubles.constT, Dbl.mul_nan, Dbl.nan_div]

/-- With a NaN weight `f`, an order `n` whose only repetition is `m = n`
leaves NaN in `AR[n][n]` and `AI[n][n]`. -/
theorem Doubles.nStep_nan (H : Statics Dbl) (r2 : Dbl) (n : Nat) (hn : repetitions n = [n])
    (s : Locals Dbl) :
    (Doubles.nStep H r2 Dbl.nan n s).AR = set2 s.AR n n Dbl.nan ∧
    (Doubles.nStep H r2 Dbl.nan n s).AI = set2 s.AI n n Dbl.nan := by
  have e : (Doubles.nEnter n s).AR = s.AR ∧ (Doubles.nEnter n s).AI = s.AI := by
    unfold Doubles.nEnter
    split_ifs <;> exact ⟨rfl, rfl⟩
  simp only [Doubles.nStep, hn, List.foldl_cons, List.foldl_nil, Doubles.mStep, if_true,
    Doubles.constT_nan, Dbl.nan_mul, Dbl.add_nan, Dbl.sub_nan, e.1, e.2, and_self]

/-- With a NaN centroid and a NaN weight `f`, the body of the pixel loop at
order 1 leaves NaN in the accumulators of the cells `(0, 0)` and `(1, 1)`. -/
theorem Doubles.pixelStep_nan (sq : ℚ → ℚ) (H : Statics Dbl) (rad : Dbl) (i j : Nat)
    (s : Locals Dbl) :
    (Doubles.pixelStep sq H (uniformImage 2 2 (Dbl.fin 0)) 1 rad (Dbl.fin 0) Dbl.nan Dbl.nan
      i j s).AR 0 0 = Dbl.nan ∧
    (Doubles.pixelStep sq H (uniformImage 2 2 (Dbl.fin 0)) 1 rad (Dbl.fin 0) Dbl.nan Dbl.nan
      i j s).AI 0 0 = Dbl.nan ∧
    (Doubles.pixelStep sq H (uniformImage 2 2 (Dbl.fin 0)) 1 rad (Dbl.fin 0) Dbl.nan Dbl.nan
      i j s).AR 1 1 = Dbl.nan ∧
    (Doubles.pixelStep sq H (uniformImage 2 2 (Dbl.fin 0)) 1 rad (Dbl.fin 0) Dbl.nan Dbl.nan
      i j s).AI 1 1 = Dbl.nan := by
  have hs : Dbl.sqrt sq Dbl.nan = Dbl.nan := rfl
  have h1 : Dbl.lt Dbl.nan (Dbl.fin DBL_EPSILON) = false := rfl
  have h2 : Dbl.lt (Dbl.fin 1) Dbl.nan = false := rfl
  have r0 : repetitions 0 = [0] := rfl
  have r1 : repetitions 1 = [1] := rfl
  simp only [Doubles.pixelStep, Dbl.sub_nan, Dbl.nan_div, Dbl.nan_mul, Dbl.nan_add, hs, h1, h2,
    Bool.or_self, Bool.false_eq_true, if_false, uniformImage, Dbl.zero_div_zero,
    Doubles.upTo_one, List.foldl_cons, List.foldl_nil]
  simp [(Doubles.nStep_nan H Dbl.nan 1 r1 _).1, (Doubles.nStep_nan H Dbl.nan 1 r1 _).2,
    (Doubles.nStep_nan H Dbl.nan 0 r0 _).1, (Doubles.nStep_nan H Dbl.nan 0 r0 _).2, set2]

/-- The pixel loop on the all-zero `2 × 2` image ends with the body for the
pixel `(1, 1)`. -/
theorem Doubles.pixelLoop_last (sq : ℚ → ℚ) (H : Statics Dbl) (c : Dbl) (L : Int)
    (rad sum cx cy : Dbl) (s : Locals Dbl) :
    ∃ t, Doubles.pixelLoop sq H (uniformImage 2 2 c) L rad sum cx cy s
      = Doubles.pixelStep sq H (uniformImage 2 2 c) L rad sum cx cy 1 1 t := by
  refine ⟨Doubles.pixelStep sq H (uniformImage 2 2 c) L rad sum cx cy 1 0
    (Doubles.pixelStep sq H (uniformImage 2 2 c) L rad sum cx cy 0 1
      (Doubles.pixelStep sq H (uniformImage 2 2 c) L rad sum cx cy 0 0 s)), ?_⟩
  simp only [Doubles.pixelLoop, uniformImage, List.range_succ, List.range_zero, List.nil_append,
    List.cons_append, List.foldl_cons, List.foldl_nil]

/-- C11 (as stated, refuted): on the all-zero `2 × 2` image, at order 1 and
radius 2, the total intensity is 0, so the centroid quotients of lines 90-91
and the weight of line 141 are `0/0`, which is NaN; NaN passes the skip test
of line 126, and both magnitudes that the call writes are NaN, for which
`0 <= v` is false. -/
theorem zero_image_emits_nan :
    (Doubles.moments (uniformImage 2 2 (Dbl.fin 0))).moment10
      / (Doubles.moments (uniformImage 2 2 (Dbl.fin 0))).moment00 = Dbl.nan ∧
    ∃ o, Doubles.mb_zernike2D Rat.sqrt Statics.fresh Doubles.blank
        (uniformImage 2 2 (Dbl.fin 0)) (Dbl.fin 1) (Dbl.fin 2) zeroBuffer = Except.ok o ∧
      o.output_size = 2 ∧ o.zvalues 0 = Dbl.nan ∧ o.zvalues 1 = Dbl.nan ∧
      Dbl.le (Dbl.fin 0) (o.zvalues 0) = false ∧ Dbl.le (Dbl.fin 0) (o.zvalues 1) = false := by
  have hL : ((1 : Int) < (MAX_L : Int)) := by simp [MAX_L]
  refine ⟨by rw [Doubles.moments_zero22]; exact Dbl.zero_div_zero, ?_⟩
  refine ⟨_, by simp only [Doubles.mb_zernike2D, Doubles.effectiveOrder_one, if_pos hL]; rfl, ?_⟩
  simp only [Doubles.moments_zero22, Dbl.zero_div_zero]
  obtain ⟨t, ht⟩ := Doubles.pixelLoop_last Rat.sqrt (Doubles.initStatics Statics.fresh)
    (Dbl.fin 0) 1 (Doubles.effectiveRadius (uniformImage 2 2 (Dbl.fin 0)) (Dbl.fin 2))
    (Dbl.fin 0) Dbl.nan Dbl.nan (Doubles.zeroAccumulators 1 Doubles.blank)
  obtain ⟨a1, a2, a3, a4⟩ := Doubles.pixelStep_nan Rat.sqrt (Doubles.initStatics Statics.fresh)
    (Doubles.effectiveRadius (uniformImage 2 2 (Dbl.fin 0)) (Dbl.fin 2)) 1 1 t
  rw [← ht] at a1 a2 a3 a4
  have hs : Dbl.fabs (Dbl.sqrt Rat.sqrt Dbl.nan) = Dbl.nan := rfl
  simp [Doubles.extract, Doubles.upTo_one, Doubles.extractStep, List.range_succ, set1, set2,
    a1, a2, a3, a4, Dbl.nan_mul, Dbl.nan_add, hs, Dbl.le]

end Zernike
